import Mathlib

/-!
Verification development for the staking-rewards price-resolution pipeline.

The Python program (`staking-rewards.py`) is shallowly embedded below:
Python dicts become insertion-ordered association lists, datetimes become a
`Date` structure, machine floats become `ℚ` (prices come from JSON and are
only multiplied, so exact rationals model the values of interest), network
calls become oracles (`Net`) consumed at explicit request counters, and
side effects (requests, sleeps, cache-file writes, completed lookups) are
recorded in an explicit event trace.  Exceptions (`CaughtError`,
`sys.exit`, uncaught errors) become `Except`-style short circuits.
-/

namespace StakingRewards

/-! ## Python `dict` as insertion-ordered association list -/

/-- First-match lookup, `d[k]` / `d.get(k)`. -/
def dget {α : Type} : List (String × α) → String → Option α
  | [], _ => none
  | (k', v) :: rest, k => if k' = k then some v else dget rest k

/-- `k in d`. -/
def dmem {α : Type} (d : List (String × α)) (k : String) : Bool :=
  (dget d k).isSome

/-- `d[k] = v`: replace in place if present, else append (Python dicts
preserve insertion order). -/
def dset {α : Type} : List (String × α) → String → α → List (String × α)
  | [], k, v => [(k, v)]
  | (k', v') :: rest, k, v =>
    if k' = k then (k', v) :: rest else (k', v') :: dset rest k v

/-- `del d[k]` (removes the first occurrence of the key). -/
def ddel {α : Type} : List (String × α) → String → List (String × α)
  | [], _ => []
  | (k', v') :: rest, k => if k' = k then rest else (k', v') :: ddel rest k

/-! ## The edit-distance matcher, `levenshtein_dist_dp`

The source builds a `(len(source)+1) × (len(target)+1)` matrix row by row:
row 0 is `0,1,...,len(target)`, cell `(i,0)` is `i`, and every other cell
is `matrix[i-1][j-1]` when `source[i-1] == target[j-1]` and otherwise
`1 + min(matrix[i][j-1], matrix[i-1][j], matrix[i-1][j-1])`; it returns
the bottom-right cell.  `rowStep` computes the cells `j = 1..n` of one row
given the previous row and the running cell to the left. -/

def rowStep (c : Char) : List Char → List Nat → Nat → List Nat
  | [], _, _ => []
  | _ :: _, [], _ => []
  | d :: ds, p0 :: ps, left =>
    let cell := if c = d then p0 else 1 + min left (min (ps.headD 0) p0)
    cell :: rowStep c ds ps cell

/-- The bottom-right cell of the dynamic-programming matrix of the source:
fold over the source string, producing each matrix row from the previous
one, starting from row `0,1,...,len(target)`. -/
def levenshtein_dist_dp (source target : List Char) : Nat :=
  let row0 := List.range (target.length + 1)
  let final := source.foldl
    (fun (acc : List Nat × Nat) c =>
      let i := acc.2 + 1
      (i :: rowStep c target acc.1 i, i))
    (row0, 0)
  final.1.getLastD 0

/-- The recurrence satisfied by the cells of the matrix: `cell i j` is the
value the source stores at `matrix[i][j]`. -/
def levCell (s t : List Char) : Nat → Nat → Nat
  | 0, j => j
  | i + 1, 0 => i + 1
  | i + 1, j + 1 =>
    if s.get? i = t.get? j then levCell s t i j
    else 1 + min (levCell s t (i + 1) j) (min (levCell s t i (j + 1)) (levCell s t i j))
  termination_by i j => (i, j)

/-- Cells of row `i`, from column `j` on, as a list (`fuel` entries). -/
def cellsFrom (s t : List Char) (i : Nat) : Nat → Nat → List Nat
  | _, 0 => []
  | j, fuel + 1 => levCell s t i j :: cellsFrom s t i (j + 1) fuel

/-- The classic minimum edit distance with unit-cost insertions, deletions
and substitutions (spec-side reference definition, textbook recursion). -/
def editDist : List Char → List Char → Nat
  | [], t => t.length
  | _ :: u, [] => u.length + 1
  | a :: u, b :: v =>
    if a = b then editDist u v
    else 1 + min (editDist (a :: u) v) (min (editDist u (b :: v)) (editDist u v))
  termination_by s t => s.length + t.length
  decreasing_by all_goals (simp_wf; try omega)

/-- A sequence of unit-cost edit operations turning the first string into
the second, with its total cost. -/
inductive EditSeq : List Char → List Char → Nat → Prop
  | nil : EditSeq [] [] 0
  | copy (a : Char) {u v : List Char} {n : Nat} :
      EditSeq u v n → EditSeq (a :: u) (a :: v) n
  | subst {a b : Char} {u v : List Char} {n : Nat} (h : a ≠ b) :
      EditSeq u v n → EditSeq (a :: u) (b :: v) (n + 1)
  | ins (b : Char) {u v : List Char} {n : Nat} :
      EditSeq u v n → EditSeq u (b :: v) (n + 1)
  | del (a : Char) {u v : List Char} {n : Nat} :
      EditSeq u v n → EditSeq (a :: u) v (n + 1)

/-! ## Data model for the price-resolution pipeline -/

/-- Rational multiplication written through `mkRat` so that it evaluates
inside the kernel (`Rat.mul` is `@[irreducible]`); `qmul_eq` below proves
it is ordinary multiplication on `ℚ`. -/
def qmul (a b : ℚ) : ℚ := mkRat (a.num * b.num) (a.den * b.den)

/-- A calendar timestamp (only the fields the program reads). -/
structure Date where
  year : Int
  month : Nat
  day : Nat
deriving DecidableEq

def pad2 (n : Nat) : String := if n < 10 then "0" ++ toString n else toString n

/-- `strftime("%d-%m-%Y")`. -/
def fmtDate (d : Date) : String :=
  pad2 d.day ++ "-" ++ pad2 d.month ++ "-" ++ toString d.year

/-- A spreadsheet cell value. -/
inductive Value
  | str (s : String)
  | num (q : ℚ)
  | date (d : Date)
  | nil
deriving DecidableEq

/-- Python truthiness of a cell.  (In Python a missing key raises
`KeyError`; the theorems below only use rows where the accessed keys
exist, so the `none` case never matters.) -/
def truthy : Option Value → Bool
  | some (Value.str s) => !s.isEmpty
  | some (Value.num q) => decide (q ≠ 0)
  | some (Value.date _) => true
  | some Value.nil => false
  | none => false

abbrev Row := List (String × Value)

/-- A provider registry record `{id, symbol, name}`. -/
structure CoinRec where
  id : String
  symbol : String
  name : String
deriving DecidableEq

abbrev Registry := List (String × CoinRec)

/-- A cached price: `none` is JSON `null` ("looked up, provider had no USD
price that day"). -/
abbrev Price := Option ℚ

/-- `symbol → date-string → price`: the shape of the CoinGecko cache and of
`symbols_to_dates_to_costs`. -/
abbrev Cache := List (String × List (String × Price))

def cacheGet (c : Cache) (s dk : String) : Option Price :=
  (dget c s).bind fun inner => dget inner dk

def cacheMem (c : Cache) (s dk : String) : Bool :=
  (cacheGet c s dk).isSome

/-- `if s in c: c[s][dk] = v  else: c[s] = {}; c[s][dk] = v`
(source lines 160-162 and 223-227). -/
def cachePut (c : Cache) (s dk : String) (v : Price) : Cache :=
  match dget c s with
  | some inner => dset c s (dset inner dk v)
  | none => dset c s [(dk, v)]

/-- `symbols_to_dates_to_rows`: symbol → date-string → row indexes. -/
abbrev Groups := List (String × List (String × List Nat))

/-- One step of the grouping loop (source lines 138-149). -/
def groupAdd (g : Groups) (s dk : String) (i : Nat) : Groups :=
  match dget g s with
  | none => dset g s [(dk, [i])]
  | some inner =>
    match dget inner dk with
    | none => dset g s (dset inner dk [i])
    | some l => dset g s (dset inner dk (l ++ [i]))

def rowStr (row : Row) (col : String) : String :=
  match dget row col with
  | some (Value.str s) => s
  | _ => ""

def rowDate (row : Row) (col : String) : Date :=
  match dget row col with
  | some (Value.date d) => d
  | _ => ⟨0, 0, 0⟩

def rowDateKey (row : Row) (col : String) : String := fmtDate (rowDate row col)

def buildGroups (rows : List Row) (keyIdx : List Nat) (dateCol symCol : String) : Groups :=
  keyIdx.foldl
    (fun g i =>
      match rows.get? i with
      | some row => groupAdd g (rowStr row symCol) (rowDateKey row dateCol) i
      | none => g)
    []

/-- Phase 1 (source lines 156-162): copy every already-cached
(symbol, date) of the request set into `symbols_to_dates_to_costs`. -/
def collectCached (g : Groups) (cache : Cache) : Cache :=
  g.foldl
    (fun costs p =>
      p.2.foldl
        (fun costs q =>
          match cacheGet cache p.1 q.1 with
          | some v => cachePut costs p.1 q.1 v
          | none => costs)
        costs)
    []

/-- Phase 2 (source lines 170-172): delete the cached keys from the
request set. -/
def delCached (g : Groups) (costs : Cache) : Groups :=
  costs.foldl
    (fun g p =>
      p.2.foldl
        (fun g q =>
          match dget g p.1 with
          | some inner => dset g p.1 (ddel inner q.1)
          | none => g)
        g)
    g

def COIN_GECKO_API_URL : String := "https://api.coingecko.com/api/v3"
def COIN_GECKO_COINS_ENDPOINT : String := "/coins"
def COIN_GECKO_REQUEST_CHUNKS : Nat := 9
def COIN_GECKO_THROTTLE_TIME : Nat := 61
def COINHALL_THROTTLE_TIME : Nat := 10
def COINHALL_API_URL : String := "https://api.coinhall.org/api/v1"
def COINHALL_CHART_ENDPOINT : String := "/charts/terra/candles"
def KEY_CLASSIFICATIONS : List String := ["staked", "airdrop"]

def get_coingecko_request_url (symbol : String) (cfg : Registry) : Option String :=
  (dget cfg symbol).map fun r =>
    COIN_GECKO_API_URL ++ COIN_GECKO_COINS_ENDPOINT ++ "/" ++ r.id ++ "/history"

def get_coinhall_request_url (symbol : String) (cfg : Registry) : Option String :=
  if dmem cfg symbol then some (COINHALL_API_URL ++ COINHALL_CHART_ENDPOINT) else none

/-- The selection predicate of `get_key_data_point_indexes` (source line
128): note that the last conjunct reads the fixed column name
`"boughtCurrency"`, not the configurable symbol column. -/
def rowSelected (dateCol : String) (yearFilter : Int) (row : Row) : Bool :=
  (match dget row "classification" with
   | some (Value.str c) => KEY_CLASSIFICATIONS.contains c
   | _ => false)
  && (match dget row dateCol with
      | some (Value.date d) => d.year == yearFilter
      | _ => false)
  && truthy (dget row "boughtCurrency")

def get_key_data_point_indexes (rows : List Row) (dateCol : String) (yearFilter : Int) :
    List Nat :=
  (rows.enum.filter fun p => rowSelected dateCol yearFilter p.2).map Prod.fst

/-! ## Network oracles and the event trace -/

/-- Outcome of one CoinGecko GET: a 2xx response carrying the (optional)
`market_data.current_price.usd` field, an HTTP 429, or any other HTTP
error. -/
inductive PrimaryResp
  | ok (usd : Option ℚ)
  | tooMany
  | err
deriving DecidableEq

structure Candle where
  high : ℚ
deriving DecidableEq

inductive SecondaryResp
  | ok (data : List Candle)
  | tooMany
  | err
deriving DecidableEq

/-- Scripted provider responses, consumed at per-provider request
counters. -/
structure Net where
  primary : Nat → PrimaryResp
  secondary : Nat → SecondaryResp

/-- Observable effects, in program order: provider requests, sleeps,
cache-file writes (with the written contents) and completed primary
lookups (with the price stored for the key). -/
inductive Ev
  | pReq (s dk : String)
  | sReq (s dk : String)
  | sleep (secs : Nat)
  | flush (c : Cache)
  | lookupDone (s dk : String) (v : Price)
deriving DecidableEq

/-- State threaded through the CoinGecko fetch loop (lines 179-241):
`costs` is `symbols_to_dates_to_costs`, `cache` the in-memory cache,
`cacheFile` the last contents written to the backing file, `pCount` the
number of primary requests issued so far and `madeCtr` the source's
`coingecko_requests_made` throttling counter. -/
structure FetchSt where
  costs : Cache
  cache : Cache
  cacheFile : Cache
  events : List Ev
  pCount : Nat
  madeCtr : Nat
deriving DecidableEq

/-- `write_coingecko_cache(coingecko_cache, coingecko_cache_file)`. -/
def write_coingecko_cache (st : FetchSt) : FetchSt :=
  { st with events := st.events ++ [Ev.flush st.cache], cacheFile := st.cache }

/-- Lines 220-237: a primary lookup completed (after 0 or 1 retries);
store the extracted price in `costs` and in the cache, flush the cache,
then apply the chunked self-throttling sleeps. -/
def fetchOk (s dk : String) (usd : Price) (st : FetchSt) : FetchSt :=
  let st1 := { st with
    costs := cachePut st.costs s dk usd,
    cache := cachePut st.cache s dk usd,
    events := st.events ++ [Ev.lookupDone s dk usd] }
  let st2 := write_coingecko_cache st1
  let st3 := { st2 with madeCtr := st2.madeCtr + 1 }
  if st3.madeCtr = COIN_GECKO_REQUEST_CHUNKS then
    { st3 with madeCtr := 0, events := st3.events ++ [Ev.sleep COIN_GECKO_THROTTLE_TIME] }
  else
    { st3 with events := st3.events ++ [Ev.sleep 1] }

/-- Lines 187-239: handle one date of one symbol.  A throw is the
`CaughtError` raised after a failed request (the cache is flushed
first). -/
def fetchDate (net : Net) (cgUrl : Option String) (s : String) (st : FetchSt)
    (q : String × List Nat) : Except FetchSt FetchSt :=
  let dk := q.1
  if cacheMem st.cache s dk then
    Except.ok { st with costs := cachePut st.costs s dk ((cacheGet st.cache s dk).getD none) }
  else
    let st1 := { st with costs := cachePut st.costs s dk none }
    match cgUrl with
    | none => Except.ok st1
    | some _ =>
      let st2 := { st1 with events := st1.events ++ [Ev.pReq s dk], pCount := st1.pCount + 1 }
      match net.primary st1.pCount with
      | PrimaryResp.ok usd => Except.ok (fetchOk s dk usd st2)
      | PrimaryResp.err => Except.error (write_coingecko_cache st2)
      | PrimaryResp.tooMany =>
        let st3 := { st2 with
          events := st2.events ++ [Ev.sleep COIN_GECKO_THROTTLE_TIME, Ev.pReq s dk],
          pCount := st2.pCount + 1, madeCtr := 1 }
        match net.primary st2.pCount with
        | PrimaryResp.ok usd => Except.ok (fetchOk s dk usd st3)
        | _ => Except.error (write_coingecko_cache st3)

def fetchSymbol (net : Net) (cgCfg : Registry) (st : FetchSt)
    (p : String × List (String × List Nat)) : Except FetchSt FetchSt :=
  let st1 := if dmem st.costs p.1 then st else { st with costs := dset st.costs p.1 [] }
  p.2.foldlM (fetchDate net (get_coingecko_request_url p.1 cgCfg) p.1) st1

def fetchAll (net : Net) (cgCfg : Registry) (g : Groups) (st : FetchSt) :
    Except FetchSt FetchSt :=
  g.foldlM (fetchSymbol net cgCfg) st

/-- A `missing_*_coverage` entry: row index, symbol, raw date. -/
abbrev Miss := Nat × String × Date

/-- Lines 246-257: write `usdValue = cost * row[valueColumn]` onto each
selected row; any failure of that expression (null cost, missing key,
non-numeric operand — the source uses a bare `except:`) records the row in
`missing_coingecko_coverage` instead. -/
def annotateOne (dateCol symCol valCol : String) (costs : Cache)
    (acc : List Row × List Miss) (i : Nat) : List Row × List Miss :=
  match acc.1.get? i with
  | none => acc
  | some row =>
    let bc := rowStr row symCol
    let dk := rowDateKey row dateCol
    match cacheGet costs bc dk with
    | some (some p) =>
      match dget row valCol with
      | some (Value.num q) =>
        (acc.1.set i (dset row "usdValue" (Value.num (qmul p q))), acc.2)
      | _ => (acc.1, acc.2 ++ [(i, bc, rowDate row dateCol)])
    | _ => (acc.1, acc.2 ++ [(i, bc, rowDate row dateCol)])

def annotate (rows : List Row) (keyIdx : List Nat) (dateCol symCol valCol : String)
    (costs : Cache) : List Row × List Miss :=
  keyIdx.foldl (annotateOne dateCol symCol valCol costs) (rows, [])

/-- How a call of `make_coinhall_api_request` ends: the function body has
no `return` statement, so when the request (or its one retry) succeeds it
falls through and returns `None`; on failure it calls `sys.exit(1)`. -/
inductive ChCall
  | returnedNone
  | exited
deriving DecidableEq

/-- Lines 373-394: one Coinhall GET with the retry-once-on-429 policy. -/
def make_coinhall_api_request (net : Net) (sCount : Nat) (s dk : String) :
    List Ev × Nat × ChCall :=
  match net.secondary sCount with
  | SecondaryResp.ok _ => ([Ev.sReq s dk], sCount + 1, ChCall.returnedNone)
  | SecondaryResp.err => ([Ev.sReq s dk], sCount + 1, ChCall.exited)
  | SecondaryResp.tooMany =>
    match net.secondary (sCount + 1) with
    | SecondaryResp.ok _ =>
      ([Ev.sReq s dk, Ev.sleep COINHALL_THROTTLE_TIME, Ev.sReq s dk],
        sCount + 2, ChCall.returnedNone)
    | _ =>
      ([Ev.sReq s dk, Ev.sleep COINHALL_THROTTLE_TIME, Ev.sReq s dk],
        sCount + 2, ChCall.exited)

/-- State of the Coinhall fallback loop (lines 267-286). -/
structure ChSt where
  idxCosts : List (Nat × Candle)
  missCh : List Miss
  events : List Ev
  sCount : Nat
deriving DecidableEq

inductive ChAbort
  | exited (st : ChSt)
  | crashed (st : ChSt)

/-- Lines 269-286: one missing-coverage entry.  When the symbol has a
Coinhall mapping the call to `make_coinhall_api_request` either exits the
process or returns `None`, and then `resp.json()` on line 278 raises an
uncaught `AttributeError`; either way the loop never continues. -/
def coinhallOne (net : Net) (chCfg : Registry) (st : ChSt) (e : Miss) : Except ChAbort ChSt :=
  match get_coinhall_request_url e.2.1 chCfg with
  | none => Except.ok { st with missCh := st.missCh ++ [e] }
  | some _ =>
    let r := make_coinhall_api_request net st.sCount e.2.1 (fmtDate e.2.2)
    let st1 := { st with events := st.events ++ r.1, sCount := r.2.1 }
    match r.2.2 with
    | ChCall.exited => Except.error (ChAbort.exited st1)
    | ChCall.returnedNone => Except.error (ChAbort.crashed st1)

/-- Lines 289-292: apply the Coinhall candle highs to the rows. -/
def applyChCosts (rows : List Row) (valCol : String) (idxCosts : List (Nat × Candle)) :
    List Row :=
  idxCosts.foldl
    (fun rows p =>
      match rows.get? p.1 with
      | some row =>
        match dget row valCol with
        | some (Value.num q) =>
          rows.set p.1 (dset row "usdValue" (Value.num (qmul p.2.high q)))
        | _ => rows
      | none => rows)
    rows

/-- Lines 294-300: rows still uncovered get `usdValue = 0`. -/
def zeroFill (rows : List Row) (missCh : List Miss) : List Row :=
  missCh.foldl
    (fun rows e =>
      match rows.get? e.1 with
      | some row => rows.set e.1 (dset row "usdValue" (Value.num 0))
      | none => rows)
    rows

/-- Lines 309-316: project a selected row onto the simplified headers and
attach the `comment` cell. -/
def simplifyRow (headers : List String) (missCh : List Miss) (rows : List Row) (i : Nat) :
    Row :=
  match rows.get? i with
  | none => []
  | some row =>
    let base := headers.map fun h => (h, (dget row h).getD Value.nil)
    if (missCh.find? fun e => e.1 == i).isSome then
      dset base "comment" (Value.str "Not covered, fixme")
    else
      dset base "comment" (Value.str "")

def simplifyAll (headers : List String) (missCh : List Miss) (rows : List Row)
    (keyIdx : List Nat) : List Row :=
  keyIdx.map (simplifyRow headers missCh rows)

/-- How a resolution pass ends: normal completion, the `CaughtError`
raised on a failed CoinGecko request, `sys.exit(1)` inside
`make_coinhall_api_request`, or the uncaught `AttributeError` from
`resp.json()` on the `None` returned by `make_coinhall_api_request`. -/
inductive Outcome
  | completed
  | caught
  | exited
  | crashed
deriving DecidableEq

structure PRResult where
  outcome : Outcome
  rows : List Row
  simplified : List Row
  cache : Cache
  cacheFile : Cache
  costs : Cache
  missingCg : List Miss
  missingCh : List Miss
  events : List Ev
deriving DecidableEq

/-- The whole of `process_rows` (source lines 130-320). -/
def process_rows (rows : List Row) (keyIdx : List Nat) (cgCfg chCfg : Registry)
    (dateCol symCol valCol : String) (simpHeaders : List String)
    (cache0 : Cache) (net : Net) : PRResult :=
  let groups := buildGroups rows keyIdx dateCol symCol
  let costs0 := collectCached groups cache0
  let groups1 := delCached groups costs0
  let st0 : FetchSt := ⟨costs0, cache0, cache0, [], 0, 0⟩
  match fetchAll net cgCfg groups1 st0 with
  | Except.error stA =>
    { outcome := Outcome.caught, rows := rows, simplified := [], cache := stA.cache,
      cacheFile := stA.cacheFile, costs := stA.costs, missingCg := [], missingCh := [],
      events := stA.events }
  | Except.ok stF =>
    let stF1 := write_coingecko_cache stF
    let ann := annotate rows keyIdx dateCol symCol valCol stF1.costs
    let rows1 := ann.1
    let missCg := ann.2
    if missCg.isEmpty then
      { outcome := Outcome.completed, rows := rows1,
        simplified := simplifyAll simpHeaders [] rows1 keyIdx,
        cache := stF1.cache, cacheFile := stF1.cacheFile, costs := stF1.costs,
        missingCg := missCg, missingCh := [], events := stF1.events }
    else
      match missCg.foldlM (coinhallOne net chCfg) (⟨[], [], stF1.events, 0⟩ : ChSt) with
      | Except.error (ChAbort.exited stC) =>
        { outcome := Outcome.exited, rows := rows1, simplified := [], cache := stF1.cache,
          cacheFile := stF1.cacheFile, costs := stF1.costs, missingCg := missCg,
          missingCh := stC.missCh, events := stC.events }
      | Except.error (ChAbort.crashed stC) =>
        { outcome := Outcome.crashed, rows := rows1, simplified := [], cache := stF1.cache,
          cacheFile := stF1.cacheFile, costs := stF1.costs, missingCg := missCg,
          missingCh := stC.missCh, events := stC.events }
      | Except.ok stC =>
        let rows2 := applyChCosts rows1 valCol stC.idxCosts
        let rows3 := zeroFill rows2 stC.missCh
        { outcome := Outcome.completed, rows := rows3,
          simplified := simplifyAll simpHeaders stC.missCh rows3 keyIdx,
          cache := stF1.cache, cacheFile := stF1.cacheFile, costs := stF1.costs,
          missingCg := missCg, missingCh := stC.missCh, events := stC.events }

/-- The `process` driver restricted to what the claims need: row
selection, then `process_rows` with the simplified headers of source line
492. -/
def processModel (rows : List Row) (cgCfg chCfg : Registry)
    (dateCol symCol valCol : String) (yearFilter : Int) (cache0 : Cache) (net : Net) :
    PRResult :=
  process_rows rows (get_key_data_point_indexes rows dateCol yearFilter) cgCfg chCfg
    dateCol symCol valCol [dateCol, symCol, valCol, "usdValue"] cache0 net

/-! ## Specification-side notions used by the theorems -/

/-- Membership of a (symbol, date) key in a request set. -/
def keyInB (g : Groups) (s dk : String) : Bool :=
  g.any fun p => p.1 == s && p.2.any fun q => q.1 == dk

abbrev DoneList := List (String × String × Price)

/-- The completed primary lookups recorded in a trace, in order. -/
def doneOf (evs : List Ev) : DoneList :=
  evs.filterMap fun e =>
    match e with
    | Ev.lookupDone s dk v => some (s, dk, v)
    | _ => none

/-- Replay step for the durability check: track the completed lookups and
the last flushed cache-file contents, and at every provider request test
that each completed lookup is already in the file. -/
def durStep (acc : DoneList × Cache × Bool) (e : Ev) : DoneList × Cache × Bool :=
  match e with
  | Ev.pReq _ _ =>
    (acc.1, acc.2.1, acc.2.2 && acc.1.all fun t => decide (cacheGet acc.2.1 t.1 t.2.1 = some t.2.2))
  | Ev.sReq _ _ =>
    (acc.1, acc.2.1, acc.2.2 && acc.1.all fun t => decide (cacheGet acc.2.1 t.1 t.2.1 = some t.2.2))
  | Ev.flush c => (acc.1, c, acc.2.2)
  | Ev.lookupDone s dk v => (acc.1 ++ [(s, dk, v)], acc.2.1, acc.2.2)
  | Ev.sleep _ => acc

/-- Durability of a trace over an initial cache-file content: before every
provider request, every lookup completed so far has been flushed to the
backing file. -/
def durOK (c0 : Cache) (evs : List Ev) : Bool :=
  (evs.foldl durStep ([], c0, true)).2.2

/-- Events the Coinhall fallback loop can append: secondary requests for
symbols with a secondary mapping, and sleeps. -/
def ChTail (chCfg : Registry) (e : Ev) : Prop :=
  (∃ s dk, e = Ev.sReq s dk ∧ (dget chCfg s).isSome = true) ∨ (∃ n, e = Ev.sleep n)

/-- Trace shape of the Coinhall fallback loop relative to the trace at its
start. -/
def ChEvInv (chCfg : Registry) (base : List Ev) (st : ChSt) : Prop :=
  ∃ extra, st.events = base ++ extra ∧ ∀ e ∈ extra, ChTail chCfg e

/-- The trace-level facts proved about every resolution pass. -/
def TraceFacts (cache0 : Cache) (cgCfg chCfg : Registry) (r : PRResult) : Prop :=
  (∀ s dk, Ev.pReq s dk ∈ r.events →
    cacheGet cache0 s dk = none ∧ (dget cgCfg s).isSome = true) ∧
  (∀ s dk, Ev.sReq s dk ∈ r.events → (dget chCfg s).isSome = true) ∧
  (∀ s dk v, Ev.lookupDone s dk v ∈ r.events → cacheGet r.cache s dk = some v) ∧
  (∀ s dk v, cacheGet r.cache s dk = some v →
    cacheGet cache0 s dk = some v ∨ Ev.lookupDone s dk v ∈ r.events) ∧
  (∀ s dk v, cacheGet cache0 s dk = some v → cacheGet r.cache s dk = some v) ∧
  durOK cache0 r.events = true ∧
  (r.outcome = Outcome.caught → r.cacheFile = r.cache)

/-- Invariant carried through the CoinGecko fetch loop, tying the state to
its trace. -/
structure FInv (cache0 : Cache) (cgCfg : Registry) (st : FetchSt) : Prop where
  sub : ∀ s dk v, cacheGet cache0 s dk = some v → cacheGet st.cache s dk = some v
  reqUncached : ∀ s dk, Ev.pReq s dk ∈ st.events → cacheGet cache0 s dk = none
  reqMapped : ∀ s dk, Ev.pReq s dk ∈ st.events → (dget cgCfg s).isSome = true
  sReqFree : ∀ s dk, Ev.sReq s dk ∉ st.events
  doneCache : ∀ s dk v, Ev.lookupDone s dk v ∈ st.events → cacheGet st.cache s dk = some v
  cacheFrom : ∀ s dk v, cacheGet st.cache s dk = some v →
    cacheGet cache0 s dk = some v ∨ Ev.lookupDone s dk v ∈ st.events
  dur : st.events.foldl durStep ([], cache0, true) = (doneOf st.events, st.cacheFile, true)
  fileDone : ∀ t ∈ doneOf st.events, cacheGet st.cacheFile t.1 t.2.1 = some t.2.2

/-- What one fetch (or the whole fetch fold) guarantees per key, relating
an end state to a start state: cached keys keep their value and are served
into the cost map; keys outside the request set are untouched; uncached
requested keys end with a fetched cost (cached too) when the symbol has a
primary mapping and with a null cost (and still no cache entry) when it
has none. -/
def FetchSpec (cgCfg : Registry) (g : Groups) (st st' : FetchSt) : Prop :=
  ∀ s dk,
    (∀ v, cacheGet st.cache s dk = some v →
      cacheGet st'.cache s dk = some v ∧
      (keyInB g s dk = true → cacheGet st'.costs s dk = some v)) ∧
    (keyInB g s dk = false →
      cacheGet st'.costs s dk = cacheGet st.costs s dk ∧
      cacheGet st'.cache s dk = cacheGet st.cache s dk) ∧
    (cacheGet st.cache s dk = none → keyInB g s dk = true →
      ((dget cgCfg s).isSome = true →
        ∃ v, cacheGet st'.costs s dk = some v ∧ cacheGet st'.cache s dk = some v) ∧
      (dget cgCfg s = none →
        cacheGet st'.costs s dk = some none ∧ cacheGet st'.cache s dk = none))

/-! ## Concrete scenarios -/

def rowAda : Row :=
  [("classification", Value.str "staked"), ("timeExecuted", Value.date ⟨2024, 3, 1⟩),
   ("boughtCurrency", Value.str "ADA"), ("boughtQuantity", Value.num 10)]

def rowZzz : Row :=
  [("classification", Value.str "airdrop"), ("timeExecuted", Value.date ⟨2024, 3, 1⟩),
   ("boughtCurrency", Value.str "ZZZ"), ("boughtQuantity", Value.num 5)]

def rowTrade : Row :=
  [("classification", Value.str "trade"), ("timeExecuted", Value.date ⟨2024, 3, 1⟩),
   ("boughtCurrency", Value.str "BTC"), ("boughtQuantity", Value.num 1)]

/-- The spec's end-to-end 3-row ledger: a staked ADA row, an airdrop row
for the unmapped symbol ZZZ, and a trade row. -/
def rowsS : List Row := [rowAda, rowZzz, rowTrade]

def cgS : Registry := [("ADA", ⟨"cardano", "ada", "Cardano"⟩)]

/-- Primary provider stubbed to always answer `0.45`. -/
def netOkS : Net := ⟨fun _ => PrimaryResp.ok (some (mkRat 9 20)), fun _ => SecondaryResp.ok []⟩

/-- Both providers answer with a hard error. -/
def netErrS : Net := ⟨fun _ => PrimaryResp.err, fun _ => SecondaryResp.err⟩

/-- Primary provider stubbed to always answer HTTP 429. -/
def net429S : Net := ⟨fun _ => PrimaryResp.tooMany, fun _ => SecondaryResp.err⟩

def runS : PRResult :=
  processModel rowsS cgS [] "timeExecuted" "boughtCurrency" "boughtQuantity" 2024 [] netOkS

/-- The second pass of the idempotence scenario: same inputs, the cache
file left by the first pass, and an oracle that would fail every request. -/
def runS2 : PRResult :=
  processModel rowsS cgS [] "timeExecuted" "boughtCurrency" "boughtQuantity" 2024
    runS.cacheFile netErrS

/-- One selected row for the symbol ZZZ, unmapped in both registries. -/
def rowOne : Row :=
  [("classification", Value.str "airdrop"), ("timeExecuted", Value.date ⟨2024, 3, 1⟩),
   ("boughtCurrency", Value.str "ZZZ"), ("boughtQuantity", Value.num 2)]

def rowsOne : List Row := [rowOne]

/-- A cache that already holds a price for the both-unmapped symbol ZZZ. -/
def cachePoison : Cache := [("ZZZ", [("01-03-2024", some 5)])]

def runPoison : PRResult :=
  processModel rowsOne [] [] "timeExecuted" "boughtCurrency" "boughtQuantity" 2024
    cachePoison netErrS

def runUncov : PRResult :=
  processModel rowsOne [] [] "timeExecuted" "boughtCurrency" "boughtQuantity" 2024 [] netErrS

def rowsOneAda : List Row :=
  [ [("classification", Value.str "staked"), ("timeExecuted", Value.date ⟨2024, 3, 1⟩),
     ("boughtCurrency", Value.str "ADA"), ("boughtQuantity", Value.num 10)] ]

def run429 : PRResult :=
  processModel rowsOneAda cgS [] "timeExecuted" "boughtCurrency" "boughtQuantity" 2024 [] net429S

/-- A row whose configured symbol column (`sym`) is non-empty while its
`boughtCurrency` cell is empty. -/
def rowC8 : Row :=
  [("classification", Value.str "staked"), ("timeExecuted", Value.date ⟨2022, 5, 5⟩),
   ("sym", Value.str "ADA"), ("boughtCurrency", Value.str "")]

/-- Row selection as the spec words it (specification-side reference
definition): the symbol check reads the *configured* symbol column. -/
def rowSelectedSpec (dateCol symCol : String) (yearFilter : Int) (row : Row) : Bool :=
  (match dget row "classification" with
   | some (Value.str c) => KEY_CLASSIFICATIONS.contains c
   | _ => false)
  && (match dget row dateCol with
      | some (Value.date d) => d.year == yearFilter
      | _ => false)
  && truthy (dget row symCol)

theorem qmul_eq (a b : ℚ) : qmul a b = a * b := by
  rw [Rat.mul_def, Rat.normalize_eq_mkRat]
  rfl

theorem levCell_zero (s t : List Char) (j : Nat) : levCell s t 0 j = j := by
  cases j <;> simp [levCell]

theorem levCell_succ_zero (s t : List Char) (i : Nat) : levCell s t (i + 1) 0 = i + 1 := by
  simp [levCell]

theorem levCell_succ_succ (s t : List Char) (i j : Nat) :
    levCell s t (i + 1) (j + 1) =
      if s.get? i = t.get? j then levCell s t i j
      else 1 + min (levCell s t (i + 1) j) (min (levCell s t i (j + 1)) (levCell s t i j)) := by
  rw [levCell]

theorem drop_eq_cons_of_get? {α : Type} {l : List α} :
    ∀ {j : Nat} {x : α}, l.get? j = some x → l.drop j = x :: l.drop (j + 1) := by
  induction l with
  | nil => intro j x h; simp [List.get?] at h
  | cons a l ih =>
    intro j x h
    cases j with
    | zero => simp [List.get?] at h; simp [h]
    | succ j => simpa using ih (by simpa using h)

theorem rowStep_eq (s t : List Char) (c : Char) (i : Nat) (hc : s.get? i = some c) :
    ∀ (fuel j : Nat), j + fuel = t.length →
      rowStep c (t.drop j) (cellsFrom s t i j (fuel + 1)) (levCell s t (i + 1) j)
        = cellsFrom s t (i + 1) (j + 1) fuel := by
  intro fuel
  induction fuel with
  | zero =>
    intro j hj
    have hdrop : t.drop j = [] := by
      apply List.drop_eq_nil_of_le; omega
    simp [hdrop, cellsFrom, rowStep]
  | succ fuel ih =>
    intro j hj
    have hjlt : j < t.length := by omega
    obtain ⟨d, hd⟩ : ∃ d, t.get? j = some d := by
      cases h : t.get? j with
      | none => exact absurd (List.get?_eq_none.mp h) (by omega)
      | some d => exact ⟨d, rfl⟩
    have hdrop : t.drop j = d :: t.drop (j + 1) := drop_eq_cons_of_get? hd
    show rowStep c (t.drop j)
        (levCell s t i j :: cellsFrom s t i (j + 1) (fuel + 1)) (levCell s t (i + 1) j)
        = cellsFrom s t (i + 1) (j + 1) (fuel + 1)
    rw [hdrop]
    show (if c = d then levCell s t i j
          else 1 + min (levCell s t (i + 1) j)
            (min ((cellsFrom s t i (j + 1) (fuel + 1)).headD 0) (levCell s t i j))) ::
          rowStep c (t.drop (j + 1)) (cellsFrom s t i (j + 1) (fuel + 1)) _
        = levCell s t (i + 1) (j + 1) :: cellsFrom s t (i + 1) (j + 2) fuel
    have hhead : (cellsFrom s t i (j + 1) (fuel + 1)).headD 0 = levCell s t i (j + 1) := rfl
    have hcell : (if c = d then levCell s t i j
          else 1 + min (levCell s t (i + 1) j)
            (min ((cellsFrom s t i (j + 1) (fuel + 1)).headD 0) (levCell s t i j)))
        = levCell s t (i + 1) (j + 1) := by
      rw [hhead, levCell_succ_succ, hc, hd]
      simp only [Option.some.injEq]
    rw [hcell]
    congr 1
    exact ih (j + 1) (by omega)

theorem cellsFrom_zero (s t : List Char) :
    ∀ (fuel j : Nat), cellsFrom s t 0 j fuel = List.range' j fuel := by
  intro fuel
  induction fuel with
  | zero => intro j; rfl
  | succ fuel ih =>
    intro j
    show levCell s t 0 j :: cellsFrom s t 0 (j + 1) fuel = List.range' j (fuel + 1)
    rw [levCell_zero, ih]
    rfl

theorem cellsFrom_getLastD (s t : List Char) (i : Nat) :
    ∀ (fuel j d : Nat), (cellsFrom s t i j (fuel + 1)).getLastD d = levCell s t i (j + fuel) := by
  intro fuel
  induction fuel with
  | zero => intro j d; rfl
  | succ fuel ih =>
    intro j d
    show (levCell s t i j :: cellsFrom s t i (j + 1) (fuel + 1)).getLastD d = _
    rw [List.getLastD_cons, ih]
    congr 1
    omega

theorem fold_rows (s t : List Char) :
    ∀ (rest : List Char) (k : Nat), rest = s.drop k → k ≤ s.length →
      (rest.foldl
        (fun (acc : List Nat × Nat) c =>
          let i := acc.2 + 1
          (i :: rowStep c t acc.1 i, i))
        (cellsFrom s t k 0 (t.length + 1), k))
      = (cellsFrom s t s.length 0 (t.length + 1), s.length) := by
  intro rest
  induction rest with
  | nil =>
    intro k hrest hk
    have : s.length ≤ k := by
      by_contra hlt
      have := congrArg List.length hrest
      simp [List.length_drop] at this
      omega
    have hks : k = s.length := by omega
    simp [hks]
  | cons c rest ih =>
    intro k hrest hk
    have hget : s.get? k = some c := by
      have h0 : (s.drop k).get? 0 = s.get? k := by
        rw [List.get?_drop]
        simp
      rw [← hrest] at h0
      simpa using h0.symm
    have hklt : k < s.length := by
      cases h : Nat.decLt k s.length with
      | isTrue h' => exact h'
      | isFalse h' =>
        exfalso
        have : s.get? k = none := List.get?_eq_none.mpr (by omega)
        rw [this] at hget
        exact Option.noConfusion hget
    have hrest' : rest = s.drop (k + 1) := by
      have := congrArg List.tail hrest
      simpa [List.tail_drop] using this
    simp only [List.foldl_cons]
    have hstep : ((k + 1) : Nat) :: rowStep c t (cellsFrom s t k 0 (t.length + 1)) (k + 1)
        = cellsFrom s t (k + 1) 0 (t.length + 1) := by
      show _ = levCell s t (k + 1) 0 :: cellsFrom s t (k + 1) 1 t.length
      rw [levCell_succ_zero]
      congr 1
      have := rowStep_eq s t c k hget t.length 0 (by omega)
      rw [levCell_succ_zero] at this
      simpa using this
    rw [hstep]
    exact ih (k + 1) hrest' (by omega)

/-- The matrix computation of the source equals the cell recurrence at the
bottom-right corner. -/
theorem dp_eq_levCell (s t : List Char) :
    levenshtein_dist_dp s t = levCell s t s.length t.length := by
  unfold levenshtein_dist_dp
  have hrow0 : List.range (t.length + 1) = cellsFrom s t 0 0 (t.length + 1) := by
    rw [cellsFrom_zero, List.range_eq_range']
  simp only [hrow0]
  rw [fold_rows s t s 0 rfl (by omega)]
  simpa using cellsFrom_getLastD s t s.length t.length 0 0

/-! ## The classic minimum edit distance (spec-side reference)

`editDist` is the textbook recursive definition of the minimum edit
distance with unit-cost insertions, deletions and substitutions, and
`EditSeq u v n` says that some sequence of edit operations of total cost
`n` rewrites `u` into `v`.  Below we prove `editDist` is the least cost of
an edit sequence, and that the source's DP matrix computes it. -/

theorem editDist_nil_left (t : List Char) : editDist [] t = t.length := by
  cases t <;> simp [editDist]

theorem editDist_nil_right (u : List Char) : editDist u [] = u.length := by
  cases u <;> simp [editDist]

theorem editDist_cons_cons (a b : Char) (u v : List Char) :
    editDist (a :: u) (b :: v) =
      if a = b then editDist u v
      else 1 + min (editDist (a :: u) v) (min (editDist u (b :: v)) (editDist u v)) := by
  rw [editDist]

/-- Adding or removing one character on either side changes `editDist` by
at most one (all four one-step bounds, proved together by strong induction
on the total length). -/
theorem editDist_bounds :
    ∀ (N : Nat) (u v : List Char), u.length + v.length ≤ N →
      (∀ a, editDist u v ≤ 1 + editDist (a :: u) v) ∧
      (∀ b, editDist u v ≤ 1 + editDist u (b :: v)) ∧
      (∀ a, editDist (a :: u) v ≤ 1 + editDist u v) ∧
      (∀ b, editDist u (b :: v) ≤ 1 + editDist u v) := by
  intro N
  induction N with
  | zero =>
    intro u v h
    have hu : u = [] := List.length_eq_zero.mp (by omega)
    have hv : v = [] := List.length_eq_zero.mp (by omega)
    subst hu; subst hv
    refine ⟨fun a => ?_, fun b => ?_, fun a => ?_, fun b => ?_⟩ <;>
      simp [editDist_nil_left, editDist_nil_right]
  | succ N ih =>
    intro u v hN
    refine ⟨fun a => ?_, fun b => ?_, fun a => ?_, fun b => ?_⟩
    · -- A : editDist u v ≤ 1 + editDist (a :: u) v
      cases v with
      | nil => simp [editDist_nil_right]; omega
      | cons b v' =>
        rw [editDist_cons_cons]
        by_cases hab : a = b
        · rw [if_pos hab]
          have hD := (ih u v' (by simp at hN ⊢; omega)).2.2.2 b
          omega
        · rw [if_neg hab]
          have hD := (ih u v' (by simp at hN ⊢; omega)).2.2.2 b
          have hA := (ih u v' (by simp at hN ⊢; omega)).1 a
          rcases min_choice (editDist (a :: u) v') (min (editDist u (b :: v')) (editDist u v'))
            with h | h
          · rw [h]; omega
          · rcases min_choice (editDist u (b :: v')) (editDist u v') with h2 | h2
            · rw [h, h2]; omega
            · rw [h, h2]; omega
    · -- B : editDist u v ≤ 1 + editDist u (b :: v)
      cases u with
      | nil => simp [editDist_nil_left]; omega
      | cons a u' =>
        rw [editDist_cons_cons]
        by_cases hab : a = b
        · rw [if_pos hab]
          have hC := (ih u' v (by simp at hN ⊢; omega)).2.2.1 a
          omega
        · rw [if_neg hab]
          have hC := (ih u' v (by simp at hN ⊢; omega)).2.2.1 a
          have hB := (ih u' v (by simp at hN ⊢; omega)).2.1 b
          rcases min_choice (editDist (a :: u') v) (min (editDist u' (b :: v)) (editDist u' v))
            with h | h
          · rw [h]; omega
          · rcases min_choice (editDist u' (b :: v)) (editDist u' v) with h2 | h2
            · rw [h, h2]; omega
            · rw [h, h2]; omega
    · -- C : editDist (a :: u) v ≤ 1 + editDist u v
      cases v with
      | nil => simp [editDist_nil_right]; omega
      | cons b v' =>
        rw [editDist_cons_cons]
        by_cases hab : a = b
        · rw [if_pos hab]
          have hB := (ih u v' (by simp at hN ⊢; omega)).2.1 b
          omega
        · rw [if_neg hab]
          have hmin : min (editDist (a :: u) v') (min (editDist u (b :: v')) (editDist u v'))
              ≤ editDist u (b :: v') := le_trans (min_le_right _ _) (min_le_left _ _)
          omega
    · -- D : editDist u (b :: v) ≤ 1 + editDist u v
      cases u with
      | nil => simp [editDist_nil_left]; omega
      | cons a u' =>
        rw [editDist_cons_cons]
        by_cases hab : a = b
        · rw [if_pos hab]
          have hA := (ih u' v (by simp at hN ⊢; omega)).1 a
          omega
        · rw [if_neg hab]
          have hmin : min (editDist (a :: u') v) (min (editDist u' (b :: v)) (editDist u' v))
              ≤ editDist (a :: u') v := min_le_left _ _
          omega

/-- Soundness: every edit sequence costs at least `editDist`. -/
theorem EditSeq.editDist_le {u v : List Char} {n : Nat} (h : EditSeq u v n) :
    editDist u v ≤ n := by
  induction h with
  | nil => simp [editDist_nil_left]
  | copy a h ih => rw [editDist_cons_cons, if_pos rfl]; exact ih
  | @subst a b u' v' n' hab h ih =>
    rw [editDist_cons_cons, if_neg hab]
    have hmin : min (editDist (a :: u') v') (min (editDist u' (b :: v')) (editDist u' v'))
        ≤ editDist u' v' := le_trans (min_le_right _ _) (min_le_right _ _)
    omega
  | @ins b u' v' n' h ih =>
    have := (editDist_bounds (u'.length + v'.length) u' v' le_rfl).2.2.2 b
    omega
  | @del a u' v' n' h ih =>
    have := (editDist_bounds (u'.length + v'.length) u' v' le_rfl).2.2.1 a
    omega

theorem EditSeq.of_nil_left : ∀ v : List Char, EditSeq [] v v.length := by
  intro v
  induction v with
  | nil => exact EditSeq.nil
  | cons b v ih => exact EditSeq.ins b ih

theorem EditSeq.of_nil_right : ∀ u : List Char, EditSeq u [] u.length := by
  intro u
  induction u with
  | nil => exact EditSeq.nil
  | cons a u ih => exact EditSeq.del a ih

/-- Completeness: `editDist` is achieved by some edit sequence. -/
theorem editDist_achieved :
    ∀ (N : Nat) (u v : List Char), u.length + v.length ≤ N → EditSeq u v (editDist u v) := by
  intro N
  induction N with
  | zero =>
    intro u v h
    have hu : u = [] := List.length_eq_zero.mp (by omega)
    have hv : v = [] := List.length_eq_zero.mp (by omega)
    subst hu; subst hv
    simpa [editDist_nil_left] using EditSeq.nil
  | succ N ih =>
    intro u v hN
    cases u with
    | nil => simpa [editDist_nil_left] using EditSeq.of_nil_left v
    | cons a u' =>
      cases v with
      | nil => simpa [editDist_nil_right] using EditSeq.of_nil_right (a :: u')
      | cons b v' =>
        by_cases hab : a = b
        · subst hab
          rw [editDist_cons_cons, if_pos rfl]
          exact EditSeq.copy a (ih u' v' (by simp at hN ⊢; omega))
        · rw [editDist_cons_cons, if_neg hab]
          rcases min_choice (editDist (a :: u') v') (min (editDist u' (b :: v')) (editDist u' v'))
            with h | h
          · rw [h, Nat.add_comm]
            exact EditSeq.ins b (ih (a :: u') v' (by simp at hN ⊢; omega))
          · rcases min_choice (editDist u' (b :: v')) (editDist u' v') with h2 | h2
            · rw [h, h2, Nat.add_comm]
              exact EditSeq.del a (ih u' (b :: v') (by simp at hN ⊢; omega))
            · rw [h, h2, Nat.add_comm]
              exact EditSeq.subst hab (ih u' v' (by simp at hN ⊢; omega))

theorem EditSeq.snoc_copy {u v : List Char} {n : Nat} (c : Char) (h : EditSeq u v n) :
    EditSeq (u ++ [c]) (v ++ [c]) n := by
  induction h with
  | nil => exact EditSeq.copy c EditSeq.nil
  | copy a h ih => exact EditSeq.copy a ih
  | subst hab h ih => exact EditSeq.subst hab ih
  | ins b h ih => exact EditSeq.ins b ih
  | del a h ih => exact EditSeq.del a ih

theorem EditSeq.snoc_subst {u v : List Char} {n : Nat} {c d : Char} (hcd : c ≠ d)
    (h : EditSeq u v n) : EditSeq (u ++ [c]) (v ++ [d]) (n + 1) := by
  induction h with
  | nil => exact EditSeq.subst hcd EditSeq.nil
  | copy a h ih => exact EditSeq.copy a ih
  | subst hab h ih => exact EditSeq.subst hab ih
  | ins b h ih => exact EditSeq.ins b ih
  | del a h ih => exact EditSeq.del a ih

theorem EditSeq.snoc_ins {u v : List Char} {n : Nat} (c : Char) (h : EditSeq u v n) :
    EditSeq u (v ++ [c]) (n + 1) := by
  induction h with
  | nil => exact EditSeq.ins c EditSeq.nil
  | copy a h ih => exact EditSeq.copy a ih
  | subst hab h ih => exact EditSeq.subst hab ih
  | ins b h ih => exact EditSeq.ins b ih
  | del a h ih => exact EditSeq.del a ih

theorem EditSeq.snoc_del {u v : List Char} {n : Nat} (c : Char) (h : EditSeq u v n) :
    EditSeq (u ++ [c]) v (n + 1) := by
  induction h with
  | nil => exact EditSeq.del c EditSeq.nil
  | copy a h ih => exact EditSeq.copy a ih
  | subst hab h ih => exact EditSeq.subst hab ih
  | ins b h ih => exact EditSeq.ins b ih
  | del a h ih => exact EditSeq.del a ih

theorem EditSeq.rev {u v : List Char} {n : Nat} (h : EditSeq u v n) :
    EditSeq u.reverse v.reverse n := by
  induction h with
  | nil => exact EditSeq.nil
  | copy a h ih => simpa [List.reverse_cons] using ih.snoc_copy a
  | subst hab h ih => simpa [List.reverse_cons] using ih.snoc_subst hab
  | ins b h ih => simpa [List.reverse_cons] using ih.snoc_ins b
  | del a h ih => simpa [List.reverse_cons] using ih.snoc_del a

theorem EditSeq.swap {u v : List Char} {n : Nat} (h : EditSeq u v n) : EditSeq v u n := by
  induction h with
  | nil => exact EditSeq.nil
  | copy a h ih => exact EditSeq.copy a ih
  | subst hab h ih => exact EditSeq.subst (Ne.symm hab) ih
  | ins b h ih => exact EditSeq.del b ih
  | del a h ih => exact EditSeq.ins a ih

theorem editDist_reverse (u v : List Char) :
    editDist u.reverse v.reverse = editDist u v := by
  apply le_antisymm
  · exact (editDist_achieved (u.length + v.length) u v le_rfl).rev.editDist_le
  · have h := (editDist_achieved (u.reverse.length + v.reverse.length)
      u.reverse v.reverse le_rfl).rev
    simp only [List.reverse_reverse] at h
    exact h.editDist_le

theorem editDist_comm (u v : List Char) : editDist u v = editDist v u := by
  apply le_antisymm
  · exact (editDist_achieved (v.length + u.length) v u le_rfl).swap.editDist_le
  · exact (editDist_achieved (u.length + v.length) u v le_rfl).swap.editDist_le

/-- Each matrix cell is the edit distance of the corresponding prefixes. -/
theorem levCell_eq_editDist (s t : List Char) :
    ∀ (N i j : Nat), i + j ≤ N → i ≤ s.length → j ≤ t.length →
      levCell s t i j = editDist ((s.take i).reverse) ((t.take j).reverse) := by
  intro N
  induction N with
  | zero =>
    intro i j hN hi hj
    have hi0 : i = 0 := by omega
    have hj0 : j = 0 := by omega
    subst hi0; subst hj0
    simp [levCell_zero, editDist_nil_left]
  | succ N ih =>
    intro i j hN hi hj
    cases i with
    | zero =>
      rw [levCell_zero]
      simp [editDist_nil_left, List.length_take, min_eq_left hj]
    | succ i =>
      cases j with
      | zero =>
        rw [levCell_succ_zero]
        simp only [List.take_zero, List.reverse_nil, editDist_nil_right]
        simp [List.length_take, min_eq_left hi]
      | succ j =>
        obtain ⟨c, hc⟩ : ∃ c, s.get? i = some c := by
          cases h : s.get? i with
          | none => exact absurd (List.get?_eq_none.mp h) (by omega)
          | some c => exact ⟨c, rfl⟩
        obtain ⟨d, hd⟩ : ∃ d, t.get? j = some d := by
          cases h : t.get? j with
          | none => exact absurd (List.get?_eq_none.mp h) (by omega)
          | some d => exact ⟨d, rfl⟩
        have hc' : s[i]? = some c := by rw [← List.get?_eq_getElem?]; exact hc
        have hd' : t[j]? = some d := by rw [← List.get?_eq_getElem?]; exact hd
        have hs : (s.take (i + 1)).reverse = c :: (s.take i).reverse := by
          rw [List.take_succ, hc']
          simp
        have ht : (t.take (j + 1)).reverse = d :: (t.take j).reverse := by
          rw [List.take_succ, hd']
          simp
        rw [levCell_succ_succ, hs, ht, editDist_cons_cons, hc, hd]
        have e1 := ih i j (by omega) (by omega) (by omega)
        have e2 := ih (i + 1) j (by omega) (by omega) (by omega)
        have e3 := ih i (j + 1) (by omega) (by omega) (by omega)
        rw [hs] at e2
        rw [ht] at e3
        by_cases hcd : c = d
        · rw [if_pos (by simpa using hcd), if_pos hcd, e1]
        · rw [if_neg (by simpa using hcd), if_neg hcd, e1, e2, e3]

/-- The source's matrix computation equals the classic minimum edit
distance. -/
theorem dp_eq_editDist (s t : List Char) : levenshtein_dist_dp s t = editDist s t := by
  rw [dp_eq_levCell]
  rw [levCell_eq_editDist s t (s.length + t.length) s.length t.length le_rfl le_rfl le_rfl]
  simp only [List.take_length]
  exact editDist_reverse s t

/-! ## Association-list and cache lemmas -/

theorem dget_dset_self {α : Type} (d : List (String × α)) (k : String) (v : α) :
    dget (dset d k v) k = some v := by
  induction d with
  | nil => simp [dset, dget]
  | cons p rest ih =>
    obtain ⟨k', v'⟩ := p
    by_cases h : k' = k
    · simp [dset, h, dget]
    · simp [dset, h, dget, ih]

theorem dget_dset_ne {α : Type} (d : List (String × α)) (k k' : String) (v : α)
    (h : k' ≠ k) : dget (dset d k v) k' = dget d k' := by
  induction d with
  | nil => simp [dset, dget, Ne.symm h]
  | cons p rest ih =>
    obtain ⟨k₁, v₁⟩ := p
    by_cases h1 : k₁ = k
    · subst h1
      simp [dset, dget, Ne.symm h]
    · by_cases h2 : k₁ = k'
      · subst h2
        simp [dset, h1, dget]
      · simp [dset, h1, dget, h2, ih]

theorem mem_dset {α : Type} {d : List (String × α)} {k : String} {v : α} {p : String × α}
    (hp : p ∈ dset d k v) : (p.1 = k ∧ p.2 = v) ∨ p ∈ d := by
  induction d with
  | nil => simp [dset] at hp; simp [hp]
  | cons q rest ih =>
    obtain ⟨k₁, v₁⟩ := q
    by_cases h1 : k₁ = k
    · simp [dset, h1] at hp
      rcases hp with hp | hp
      · exact Or.inl (by simp [hp])
      · exact Or.inr (by simp [hp])
    · simp [dset, h1] at hp
      rcases hp with hp | hp
      · exact Or.inr (by simp [hp])
      · rcases ih hp with h | h
        · exact Or.inl h
        · exact Or.inr (by simp [h])

theorem mem_of_mem_ddel {α : Type} {d : List (String × α)} {k : String} {p : String × α}
    (hp : p ∈ ddel d k) : p ∈ d := by
  induction d with
  | nil => simpa [ddel] using hp
  | cons q rest ih =>
    obtain ⟨k₁, v₁⟩ := q
    by_cases h1 : k₁ = k
    · simp [ddel, h1] at hp
      exact List.mem_cons_of_mem _ hp
    · simp [ddel, h1] at hp
      rcases hp with hp | hp
      · simp [hp]
      · exact List.mem_cons_of_mem _ (ih hp)

theorem mem_ddel_of_ne {α : Type} {d : List (String × α)} {k : String} {p : String × α}
    (hp : p ∈ d) (hne : p.1 ≠ k) : p ∈ ddel d k := by
  induction d with
  | nil => simpa [ddel] using hp
  | cons q rest ih =>
    obtain ⟨k₁, v₁⟩ := q
    by_cases h1 : k₁ = k
    · simp [ddel, h1]
      rcases List.mem_cons.mp hp with hp | hp
      · exact absurd (by simp [hp] : p.1 = k₁) (h1 ▸ hne)
      · exact hp
    · simp [ddel, h1]
      rcases List.mem_cons.mp hp with hp | hp
      · exact Or.inl (by simp [hp])
      · exact Or.inr (ih hp)

theorem cacheGet_cachePut_self (c : Cache) (s dk : String) (v : Price) :
    cacheGet (cachePut c s dk v) s dk = some v := by
  unfold cachePut
  cases h : dget c s with
  | none => simp [cacheGet, dget_dset_self, dget]
  | some inner => simp [cacheGet, dget_dset_self]

theorem cacheGet_cachePut_ne (c : Cache) (s dk s' dk' : String) (v : Price)
    (h : ¬(s' = s ∧ dk' = dk)) :
    cacheGet (cachePut c s dk v) s' dk' = cacheGet c s' dk' := by
  unfold cachePut
  by_cases hs : s' = s
  · subst hs
    have hdk : dk' ≠ dk := fun hdk => h ⟨rfl, hdk⟩
    cases hc : dget c s' with
    | none =>
      simp [cacheGet, dget_dset_self, hc, dget, hdk]
      exact Ne.symm hdk
    | some inner => simp [cacheGet, dget_dset_self, hc, dget_dset_ne _ _ _ _ hdk]
  · cases hc : dget c s with
    | none => simp [cacheGet, dget_dset_ne _ _ _ _ hs]
    | some inner => simp [cacheGet, dget_dset_ne _ _ _ _ hs]

theorem cacheGet_cachePut_preserve {c : Cache} {s' dk' : String} {v : Price}
    (hv : cacheGet c s' dk' = some v) (s dk : String) (v₀ : Price)
    (hnm : cacheMem c s dk = false) :
    cacheGet (cachePut c s dk v₀) s' dk' = some v := by
  by_cases hk : s' = s ∧ dk' = dk
  · exfalso
    obtain ⟨h1, h2⟩ := hk
    subst h1; subst h2
    simp [cacheMem, hv] at hnm
  · rw [cacheGet_cachePut_ne _ _ _ _ _ _ hk]; exact hv

/-! ## Trace helpers -/

theorem doneOf_append (a b : List Ev) : doneOf (a ++ b) = doneOf a ++ doneOf b := by
  simp [doneOf, List.filterMap_append]

theorem all_done_check {done : DoneList} {f : Cache}
    (h : ∀ t ∈ done, cacheGet f t.1 t.2.1 = some t.2.2) :
    (done.all fun t => decide (cacheGet f t.1 t.2.1 = some t.2.2)) = true := by
  rw [List.all_eq_true]
  intro t ht
  simpa using h t ht

/-- Generic invariant propagation through an `Except`-valued fold. -/
theorem foldlM_except_inv {σ ε α : Type} (P : σ → Prop) (Q : ε → Prop)
    (f : σ → α → Except ε σ) :
    ∀ (l : List α) (st : σ), P st →
      (∀ st' a, a ∈ l → P st' →
        (∀ st'', f st' a = Except.ok st'' → P st'') ∧
        (∀ e, f st' a = Except.error e → Q e)) →
      (∀ stF, l.foldlM f st = Except.ok stF → P stF) ∧
      (∀ e, l.foldlM f st = Except.error e → Q e) := by
  intro l
  induction l with
  | nil =>
    intro st hP _
    constructor
    · intro stF h
      have h' : Except.ok st = Except.ok stF := h
      injection h' with h'
      exact h' ▸ hP
    · intro e h
      have h' : (Except.ok st : Except ε σ) = Except.error e := h
      exact Except.noConfusion h'
  | cons a l ih =>
    intro st hP hstep
    have hcons : (a :: l).foldlM f st = f st a >>= fun s => l.foldlM f s := by
      simp [List.foldlM]
    cases hfa : f st a with
    | ok st1 =>
      have hbind : (Except.ok st1 : Except ε σ) >>= (fun s => l.foldlM f s) = l.foldlM f st1 :=
        rfl
      have hP1 : P st1 := (hstep st a (List.mem_cons_self a l) hP).1 st1 hfa
      have hrest := ih st1 hP1 (fun st' b hb hP' => hstep st' b (List.mem_cons_of_mem a hb) hP')
      constructor
      · intro stF h
        rw [hcons, hfa, hbind] at h
        exact hrest.1 stF h
      · intro e h
        rw [hcons, hfa, hbind] at h
        exact hrest.2 e h
    | error e0 =>
      have hbind : (Except.error e0 : Except ε σ) >>= (fun s => l.foldlM f s) =
          Except.error e0 := rfl
      have hQ : Q e0 := (hstep st a (List.mem_cons_self a l) hP).2 e0 hfa
      constructor
      · intro stF h
        rw [hcons, hfa, hbind] at h
        exact Except.noConfusion h
      · intro e h
        rw [hcons, hfa, hbind] at h
        injection h with h
        exact h ▸ hQ

/-! ## Preservation of `FInv` through the fetch loop -/

theorem FInv_congr {c0 : Cache} {cg : Registry} {st : FetchSt} (hInv : FInv c0 cg st)
    (st' : FetchSt) (hc : st'.cache = st.cache) (he : st'.events = st.events)
    (hf : st'.cacheFile = st.cacheFile) : FInv c0 cg st' := by
  refine ⟨?_, ?_, ?_, ?_, ?_, ?_, ?_, ?_⟩ <;> simp only [hc, he, hf]
  · exact hInv.sub
  · exact hInv.reqUncached
  · exact hInv.reqMapped
  · exact hInv.sReqFree
  · exact hInv.doneCache
  · exact hInv.cacheFrom
  · exact hInv.dur
  · exact hInv.fileDone

theorem mem_of_doneOf {evs : List Ev} {t : String × String × Price} (ht : t ∈ doneOf evs) :
    Ev.lookupDone t.1 t.2.1 t.2.2 ∈ evs := by
  simp only [doneOf, List.mem_filterMap] at ht
  obtain ⟨e, he, hmatch⟩ := ht
  cases e with
  | lookupDone s dk v =>
    simp at hmatch
    obtain ⟨t1, t2⟩ := t
    obtain ⟨u1, u2⟩ := t2
    simp at hmatch ⊢
    obtain ⟨h1, h2, h3⟩ := hmatch
    subst h1; subst h2; subst h3
    exact he
  | pReq s dk => simp at hmatch
  | sReq s dk => simp at hmatch
  | sleep n => simp at hmatch
  | flush c => simp at hmatch

/-- The retry discipline only ever puts these two request prefixes in front
of a lookup result. -/
def ReqPre (s dk : String) (pre : List Ev) : Prop :=
  pre = [Ev.pReq s dk] ∨
  pre = [Ev.pReq s dk, Ev.sleep COIN_GECKO_THROTTLE_TIME, Ev.pReq s dk]

theorem fInv_fetched {c0 : Cache} {cg : Registry} {st : FetchSt} {s dk : String}
    {usd : Price} {pre : List Ev} (x : Nat) (cst : Cache) (pc mc : Nat)
    (hpre : ReqPre s dk pre) (hInv : FInv c0 cg st)
    (hnm : cacheMem st.cache s dk = false)
    (hmap : (dget cg s).isSome = true) :
    FInv c0 cg
      ⟨cst, cachePut st.cache s dk usd, cachePut st.cache s dk usd,
        st.events ++
          (pre ++ [Ev.lookupDone s dk usd, Ev.flush (cachePut st.cache s dk usd), Ev.sleep x]),
        pc, mc⟩ := by
  have hc0 : cacheGet c0 s dk = none := by
    cases h : cacheGet c0 s dk with
    | none => rfl
    | some v =>
      have := hInv.sub _ _ _ h
      simp [cacheMem, this] at hnm
  have hall := all_done_check hInv.fileDone
  refine ⟨?_, ?_, ?_, ?_, ?_, ?_, ?_, ?_⟩
  · -- sub
    intro s' dk' v hv
    exact cacheGet_cachePut_preserve (hInv.sub _ _ _ hv) s dk usd hnm
  · -- reqUncached
    intro s' dk' hmem
    simp only [List.mem_append] at hmem
    rcases hmem with hmem | hmem
    · exact hInv.reqUncached _ _ hmem
    · rcases hpre with hpre | hpre <;> subst hpre <;> simp at hmem <;>
        (obtain ⟨h1, h2⟩ := hmem; subst h1; subst h2; exact hc0)
  · -- reqMapped
    intro s' dk' hmem
    simp only [List.mem_append] at hmem
    rcases hmem with hmem | hmem
    · exact hInv.reqMapped _ _ hmem
    · rcases hpre with hpre | hpre <;> subst hpre <;> simp at hmem <;>
        (obtain ⟨h1, h2⟩ := hmem; subst h1; exact hmap)
  · -- sReqFree
    intro s' dk' hmem
    simp only [List.mem_append] at hmem
    rcases hmem with hmem | hmem
    · exact hInv.sReqFree _ _ hmem
    · rcases hpre with hpre | hpre <;> subst hpre <;> simp at hmem
  · -- doneCache
    intro s' dk' v hmem
    simp only [List.mem_append] at hmem
    rcases hmem with hmem | hmem
    · exact cacheGet_cachePut_preserve (hInv.doneCache _ _ _ hmem) s dk usd hnm
    · rcases hpre with hpre | hpre <;> subst hpre <;> simp at hmem <;>
        (obtain ⟨h1, h2, h3⟩ := hmem; subst h1; subst h2; subst h3;
          exact cacheGet_cachePut_self _ _ _ _)
  · -- cacheFrom
    intro s' dk' v hv
    by_cases hk : s' = s ∧ dk' = dk
    · obtain ⟨h1, h2⟩ := hk
      subst h1; subst h2
      rw [cacheGet_cachePut_self] at hv
      injection hv with hv
      right
      simp [hv]
    · rw [cacheGet_cachePut_ne _ _ _ _ _ _ hk] at hv
      rcases hInv.cacheFrom _ _ _ hv with h | h
      · exact Or.inl h
      · exact Or.inr (by simp [h])
  · -- dur
    rw [List.foldl_append, hInv.dur, doneOf_append]
    rcases hpre with hpre | hpre <;> subst hpre <;>
      simp [durStep, doneOf, hall] <;>
      simpa [doneOf] using hall
  · -- fileDone
    intro t ht
    rw [doneOf_append] at ht
    rcases List.mem_append.mp ht with ht | ht
    · exact cacheGet_cachePut_preserve (hInv.doneCache _ _ _ (mem_of_doneOf ht)) s dk usd hnm
    · obtain ⟨t1, t2⟩ := t
      obtain ⟨u1, u2⟩ := t2
      rcases hpre with hpre | hpre <;> subst hpre <;> simp [doneOf] at ht <;>
        (obtain ⟨h1, h2, h3⟩ := ht; subst h1; subst h2; subst h3;
          exact cacheGet_cachePut_self _ _ _ _)

theorem fInv_errflush {c0 : Cache} {cg : Registry} {st : FetchSt} {s dk : String}
    {pre : List Ev} (cst : Cache) (pc mc : Nat)
    (hpre : ReqPre s dk pre) (hInv : FInv c0 cg st)
    (hnm : cacheMem st.cache s dk = false)
    (hmap : (dget cg s).isSome = true) :
    FInv c0 cg ⟨cst, st.cache, st.cache, st.events ++ (pre ++ [Ev.flush st.cache]), pc, mc⟩ := by
  have hc0 : cacheGet c0 s dk = none := by
    cases h : cacheGet c0 s dk with
    | none => rfl
    | some v =>
      have := hInv.sub _ _ _ h
      simp [cacheMem, this] at hnm
  have hall := all_done_check hInv.fileDone
  refine ⟨?_, ?_, ?_, ?_, ?_, ?_, ?_, ?_⟩
  · exact fun s' dk' v hv => hInv.sub _ _ _ hv
  · intro s' dk' hmem
    simp only [List.mem_append] at hmem
    rcases hmem with hmem | hmem
    · exact hInv.reqUncached _ _ hmem
    · rcases hpre with hpre | hpre <;> subst hpre <;> simp at hmem <;>
        (obtain ⟨h1, h2⟩ := hmem; subst h1; subst h2; exact hc0)
  · intro s' dk' hmem
    simp only [List.mem_append] at hmem
    rcases hmem with hmem | hmem
    · exact hInv.reqMapped _ _ hmem
    · rcases hpre with hpre | hpre <;> subst hpre <;> simp at hmem <;>
        (obtain ⟨h1, h2⟩ := hmem; subst h1; exact hmap)
  · intro s' dk' hmem
    simp only [List.mem_append] at hmem
    rcases hmem with hmem | hmem
    · exact hInv.sReqFree _ _ hmem
    · rcases hpre with hpre | hpre <;> subst hpre <;> simp at hmem
  · intro s' dk' v hmem
    simp only [List.mem_append] at hmem
    rcases hmem with hmem | hmem
    · exact hInv.doneCache _ _ _ hmem
    · rcases hpre with hpre | hpre <;> subst hpre <;> simp at hmem
  · intro s' dk' v hv
    rcases hInv.cacheFrom _ _ _ hv with h | h
    · exact Or.inl h
    · exact Or.inr (by simp [h])
  · rw [List.foldl_append, hInv.dur, doneOf_append]
    rcases hpre with hpre | hpre <;> subst hpre <;>
      simp [durStep, doneOf, hall] <;>
      simpa [doneOf] using hall
  · intro t ht
    rw [doneOf_append] at ht
    rcases List.mem_append.mp ht with ht | ht
    · exact hInv.doneCache _ _ _ (mem_of_doneOf ht)
    · rcases hpre with hpre | hpre <;> subst hpre <;> simp [doneOf] at ht

theorem fetchOk_eq (s dk : String) (usd : Price) (st : FetchSt) :
    fetchOk s dk usd st =
      ⟨cachePut st.costs s dk usd, cachePut st.cache s dk usd, cachePut st.cache s dk usd,
        st.events ++ [Ev.lookupDone s dk usd, Ev.flush (cachePut st.cache s dk usd),
          Ev.sleep (if st.madeCtr + 1 = COIN_GECKO_REQUEST_CHUNKS
            then COIN_GECKO_THROTTLE_TIME else 1)],
        st.pCount,
        if st.madeCtr + 1 = COIN_GECKO_REQUEST_CHUNKS then 0 else st.madeCtr + 1⟩ := by
  obtain ⟨cs, ca, cf, ev, pc, mc⟩ := st
  by_cases h : mc + 1 = COIN_GECKO_REQUEST_CHUNKS <;>
    simp [fetchOk, write_coingecko_cache, h]

theorem isSome_of_url {s : String} {cg : Registry} {u : String}
    (hurl : get_coingecko_request_url s cg = some u) : (dget cg s).isSome = true := by
  unfold get_coingecko_request_url at hurl
  cases hd : dget cg s with
  | none => rw [hd] at hurl; simp at hurl
  | some r => simp

theorem fetchDate_step (c0 : Cache) (cg : Registry) (net : Net) (s : String)
    (st : FetchSt) (q : String × List Nat) (hInv : FInv c0 cg st) :
    (∀ st', fetchDate net (get_coingecko_request_url s cg) s st q = Except.ok st' →
      FInv c0 cg st') ∧
    (∀ stA, fetchDate net (get_coingecko_request_url s cg) s st q = Except.error stA →
      FInv c0 cg stA ∧ stA.cacheFile = stA.cache) := by
  unfold fetchDate
  by_cases hm : cacheMem st.cache s q.1
  · simp only [hm, if_true]
    constructor
    · intro st' h
      injection h with h
      exact FInv_congr hInv _ (by rw [← h]) (by rw [← h]) (by rw [← h])
    · intro stA h
      exact Except.noConfusion h
  · simp only [hm, if_false, Bool.false_eq_true]
    cases hurl : get_coingecko_request_url s cg with
    | none =>
      simp only []
      constructor
      · intro st' h
        injection h with h
        exact FInv_congr hInv _ (by rw [← h]) (by rw [← h]) (by rw [← h])
      · intro stA h
        exact Except.noConfusion h
    | some u =>
      have hmap := isSome_of_url hurl
      obtain ⟨cs, ca, cf, ev, pc, mc⟩ := st
      have hm2 : cacheMem ca s q.1 = false := by simpa using hm
      simp only [] at hm ⊢
      cases hresp : net.primary pc with
      | ok usd =>
        simp only [hresp]
        constructor
        · intro st' h
          injection h with h
          rw [← h, fetchOk_eq]
          refine FInv_congr (@fInv_fetched c0 cg ⟨cs, ca, cf, ev, pc, mc⟩ s q.1 usd
            [Ev.pReq s q.1]
            (if mc + 1 = COIN_GECKO_REQUEST_CHUNKS then COIN_GECKO_THROTTLE_TIME else 1)
            (cachePut (cachePut cs s q.1 none) s q.1 usd) pc
            (if mc + 1 = COIN_GECKO_REQUEST_CHUNKS then 0 else mc + 1)
            (Or.inl rfl) hInv hm2 hmap) _ rfl ?_ rfl
          simp
        · intro stA h
          exact Except.noConfusion h
      | err =>
        simp only [hresp]
        constructor
        · intro st' h
          exact Except.noConfusion h
        · intro stA h
          injection h with h
          rw [← h]
          constructor
          · refine FInv_congr (@fInv_errflush c0 cg ⟨cs, ca, cf, ev, pc, mc⟩ s q.1
              [Ev.pReq s q.1]
              (cachePut cs s q.1 none) (pc + 1) mc
              (Or.inl rfl) hInv hm2 hmap) _ rfl ?_ rfl
            simp [write_coingecko_cache]
          · rfl
      | tooMany =>
        simp only [hresp]
        cases hresp2 : net.primary (pc + 1) with
        | ok usd =>
          simp only [hresp2]
          constructor
          · intro st' h
            injection h with h
            rw [← h, fetchOk_eq]
            refine FInv_congr (@fInv_fetched c0 cg ⟨cs, ca, cf, ev, pc, mc⟩ s q.1 usd
              [Ev.pReq s q.1, Ev.sleep COIN_GECKO_THROTTLE_TIME, Ev.pReq s q.1]
              (if 1 + 1 = COIN_GECKO_REQUEST_CHUNKS then COIN_GECKO_THROTTLE_TIME else 1)
              (cachePut (cachePut cs s q.1 none) s q.1 usd) (pc + 1 + 1)
              (if 1 + 1 = COIN_GECKO_REQUEST_CHUNKS then 0 else 1 + 1)
              (Or.inr rfl) hInv hm2 hmap) _ rfl ?_ rfl
            simp
          · intro stA h
            exact Except.noConfusion h
        | err =>
          simp only [hresp2]
          constructor
          · intro st' h
            exact Except.noConfusion h
          · intro stA h
            injection h with h
            rw [← h]
            constructor
            · refine FInv_congr (@fInv_errflush c0 cg ⟨cs, ca, cf, ev, pc, mc⟩ s q.1
                [Ev.pReq s q.1, Ev.sleep COIN_GECKO_THROTTLE_TIME, Ev.pReq s q.1]
                (cachePut cs s q.1 none) (pc + 1 + 1) 1
                (Or.inr rfl) hInv hm2 hmap) _ rfl ?_ rfl
              simp [write_coingecko_cache]
            · rfl
        | tooMany =>
          simp only [hresp2]
          constructor
          · intro st' h
            exact Except.noConfusion h
          · intro stA h
            injection h with h
            rw [← h]
            constructor
            · refine FInv_congr (@fInv_errflush c0 cg ⟨cs, ca, cf, ev, pc, mc⟩ s q.1
                [Ev.pReq s q.1, Ev.sleep COIN_GECKO_THROTTLE_TIME, Ev.pReq s q.1]
                (cachePut cs s q.1 none) (pc + 1 + 1) 1
                (Or.inr rfl) hInv hm2 hmap) _ rfl ?_ rfl
              simp [write_coingecko_cache]
            · rfl

theorem fetchSymbol_step (c0 : Cache) (cg : Registry) (net : Net) (st : FetchSt)
    (p : String × List (String × List Nat)) (hInv : FInv c0 cg st) :
    (∀ st', fetchSymbol net cg st p = Except.ok st' → FInv c0 cg st') ∧
    (∀ stA, fetchSymbol net cg st p = Except.error stA →
      FInv c0 cg stA ∧ stA.cacheFile = stA.cache) := by
  unfold fetchSymbol
  have hInv1 : FInv c0 cg (if dmem st.costs p.1 then st
      else { st with costs := dset st.costs p.1 [] }) := by
    by_cases h : dmem st.costs p.1
    · simpa [h] using hInv
    · simp only [h, Bool.false_eq_true, if_false]
      exact FInv_congr hInv _ rfl rfl rfl
  exact foldlM_except_inv (FInv c0 cg)
    (fun stA => FInv c0 cg stA ∧ stA.cacheFile = stA.cache) _ p.2 _ hInv1
    (fun st' a _ hP => fetchDate_step c0 cg net p.1 st' a hP)

theorem fetchAll_inv (c0 : Cache) (cg : Registry) (net : Net) (g : Groups) (st : FetchSt)
    (hInv : FInv c0 cg st) :
    (∀ stF, fetchAll net cg g st = Except.ok stF → FInv c0 cg stF) ∧
    (∀ stA, fetchAll net cg g st = Except.error stA →
      FInv c0 cg stA ∧ stA.cacheFile = stA.cache) := by
  unfold fetchAll
  exact foldlM_except_inv (FInv c0 cg)
    (fun stA => FInv c0 cg stA ∧ stA.cacheFile = stA.cache) _ g st hInv
    (fun st' a _ hP => fetchSymbol_step c0 cg net st' a hP)

theorem FInv_init (c0 : Cache) (cg : Registry) (cst : Cache) :
    FInv c0 cg ⟨cst, c0, c0, [], 0, 0⟩ := by
  refine ⟨?_, ?_, ?_, ?_, ?_, ?_, ?_, ?_⟩
  · exact fun s dk v hv => hv
  · intro s dk h; simp at h
  · intro s dk h; simp at h
  · intro s dk h; simp at h
  · intro s dk v h; simp at h
  · exact fun s dk v hv => Or.inl hv
  · rfl
  · intro t ht; simp [doneOf] at ht

theorem fInv_flush {c0 : Cache} {cg : Registry} {st : FetchSt} (hInv : FInv c0 cg st) :
    FInv c0 cg (write_coingecko_cache st) ∧
      (write_coingecko_cache st).cacheFile = (write_coingecko_cache st).cache := by
  have hall := all_done_check hInv.fileDone
  constructor
  · refine ⟨?_, ?_, ?_, ?_, ?_, ?_, ?_, ?_⟩
    · exact hInv.sub
    · intro s dk h
      simp only [write_coingecko_cache, List.mem_append] at h
      rcases h with h | h
      · exact hInv.reqUncached _ _ h
      · simp at h
    · intro s dk h
      simp only [write_coingecko_cache, List.mem_append] at h
      rcases h with h | h
      · exact hInv.reqMapped _ _ h
      · simp at h
    · intro s dk h
      simp only [write_coingecko_cache, List.mem_append] at h
      rcases h with h | h
      · exact hInv.sReqFree _ _ h
      · simp at h
    · intro s dk v h
      simp only [write_coingecko_cache, List.mem_append] at h
      rcases h with h | h
      · exact hInv.doneCache _ _ _ h
      · simp at h
    · intro s dk v hv
      rcases hInv.cacheFrom _ _ _ hv with h | h
      · exact Or.inl h
      · exact Or.inr (by simp [write_coingecko_cache, h])
    · simp only [write_coingecko_cache]
      rw [List.foldl_append, hInv.dur, doneOf_append]
      simp [durStep, doneOf]
    · intro t ht
      simp only [write_coingecko_cache, doneOf_append] at ht
      rcases List.mem_append.mp ht with ht | ht
      · exact hInv.doneCache _ _ _ (mem_of_doneOf ht)
      · simp [doneOf] at ht
  · rfl

theorem dmem_false_iff {α : Type} {d : List (String × α)} {k : String} :
    dmem d k = false ↔ dget d k = none := by
  unfold dmem
  cases dget d k <;> simp

theorem chUrl_none_iff {s : String} {cfg : Registry} :
    get_coinhall_request_url s cfg = none ↔ dget cfg s = none := by
  unfold get_coinhall_request_url
  by_cases h : dmem cfg s
  · simp [h]
    intro hn
    simp [dmem, hn] at h
  · simp [h, dmem_false_iff.mp (by simpa using h)]

/-- A Coinhall pass that finishes the loop had no mapped symbol in it:
nothing was requested, nothing priced, every entry fell into
`missing_coinhall_coverage`. -/
theorem coinhall_complete (net : Net) (chCfg : Registry) :
    ∀ (l : List Miss) (st stF : ChSt),
      l.foldlM (coinhallOne net chCfg) st = Except.ok stF →
      (∀ e ∈ l, dget chCfg e.2.1 = none) ∧
      stF = { st with missCh := st.missCh ++ l } := by
  intro l
  induction l with
  | nil =>
    intro st stF h
    have h' : Except.ok st = Except.ok stF := h
    injection h' with h'
    exact ⟨by simp, by simp [← h']⟩
  | cons e l ih =>
    intro st stF h
    have hcons : (e :: l).foldlM (coinhallOne net chCfg) st =
        coinhallOne net chCfg st e >>= fun s => l.foldlM (coinhallOne net chCfg) s := by
      simp [List.foldlM]
    rw [hcons] at h
    cases hurl : get_coinhall_request_url e.2.1 chCfg with
    | none =>
      have hstep : coinhallOne net chCfg st e =
          Except.ok { st with missCh := st.missCh ++ [e] } := by
        unfold coinhallOne
        rw [hurl]
      rw [hstep] at h
      have hbind : (Except.ok { st with missCh := st.missCh ++ [e] } : Except ChAbort ChSt) >>=
          (fun s => l.foldlM (coinhallOne net chCfg) s) =
          l.foldlM (coinhallOne net chCfg) { st with missCh := st.missCh ++ [e] } := rfl
      rw [hbind] at h
      obtain ⟨hnone, heq⟩ := ih _ _ h
      refine ⟨?_, ?_⟩
      · intro e' he'
        rcases List.mem_cons.mp he' with he' | he'
        · exact he' ▸ chUrl_none_iff.mp hurl
        · exact hnone e' he'
      · rw [heq]
        simp
    | some u =>
      exfalso
      have heq : coinhallOne net chCfg st e =
          match (make_coinhall_api_request net st.sCount e.2.1 (fmtDate e.2.2)).2.2 with
          | ChCall.exited => Except.error (ChAbort.exited
              { st with
                events := st.events ++
                  (make_coinhall_api_request net st.sCount e.2.1 (fmtDate e.2.2)).1,
                sCount := (make_coinhall_api_request net st.sCount e.2.1 (fmtDate e.2.2)).2.1 })
          | ChCall.returnedNone => Except.error (ChAbort.crashed
              { st with
                events := st.events ++
                  (make_coinhall_api_request net st.sCount e.2.1 (fmtDate e.2.2)).1,
                sCount := (make_coinhall_api_request net st.sCount e.2.1 (fmtDate e.2.2)).2.1 }) := by
        unfold coinhallOne
        rw [hurl]
      cases hcall : (make_coinhall_api_request net st.sCount e.2.1 (fmtDate e.2.2)).2.2 <;>
        simp only [hcall] at heq <;> rw [heq] at h <;> exact Except.noConfusion h

/-- Conversely, when no entry has a secondary mapping the Coinhall pass
finishes, adds every entry to the uncovered set, and emits no events. -/
theorem coinhall_run_of_unmapped (net : Net) (chCfg : Registry) :
    ∀ (l : List Miss) (st : ChSt),
      (∀ e ∈ l, dget chCfg e.2.1 = none) →
      l.foldlM (coinhallOne net chCfg) st =
        Except.ok { st with missCh := st.missCh ++ l } := by
  intro l
  induction l with
  | nil =>
    intro st _
    rw [List.append_nil]
    rfl
  | cons e l ih =>
    intro st hnone
    have hurl : get_coinhall_request_url e.2.1 chCfg = none :=
      chUrl_none_iff.mpr (hnone e (List.mem_cons_self e l))
    have hstep : coinhallOne net chCfg st e =
        Except.ok { st with missCh := st.missCh ++ [e] } := by
      unfold coinhallOne
      rw [hurl]
    have hcons : (e :: l).foldlM (coinhallOne net chCfg) st =
        coinhallOne net chCfg st e >>= fun s => l.foldlM (coinhallOne net chCfg) s := by
      simp [List.foldlM]
    rw [hcons, hstep]
    have hbind : (Except.ok { st with missCh := st.missCh ++ [e] } : Except ChAbort ChSt) >>=
        (fun s => l.foldlM (coinhallOne net chCfg) s) =
        l.foldlM (coinhallOne net chCfg) { st with missCh := st.missCh ++ [e] } := rfl
    rw [hbind, ih _ (fun e' he' => hnone e' (List.mem_cons_of_mem e he'))]
    simp

theorem coinhallOne_evInv (net : Net) (chCfg : Registry) (base : List Ev) (st : ChSt)
    (e : Miss) (hP : ChEvInv chCfg base st) :
    (∀ st', coinhallOne net chCfg st e = Except.ok st' → ChEvInv chCfg base st') ∧
    (∀ ab, coinhallOne net chCfg st e = Except.error ab →
      (∀ stC, ab = ChAbort.exited stC → ChEvInv chCfg base stC) ∧
      (∀ stC, ab = ChAbort.crashed stC → ChEvInv chCfg base stC)) := by
  obtain ⟨extra, hev, htail⟩ := hP
  cases hurl : get_coinhall_request_url e.2.1 chCfg with
  | none =>
    have heq : coinhallOne net chCfg st e =
        Except.ok { st with missCh := st.missCh ++ [e] } := by
      unfold coinhallOne
      rw [hurl]
    rw [heq]
    constructor
    · intro st' h
      injection h with h
      exact ⟨extra, by rw [← h]; exact hev, htail⟩
    · intro ab h
      exact Except.noConfusion h
  | some u =>
    have hmem : (dget chCfg e.2.1).isSome = true := by
      unfold get_coinhall_request_url at hurl
      by_cases h : dmem chCfg e.2.1
      · simpa [dmem] using h
      · simp [h] at hurl
    have hreq : ∀ ev ∈ (make_coinhall_api_request net st.sCount e.2.1 (fmtDate e.2.2)).1,
        ChTail chCfg ev := by
      unfold make_coinhall_api_request
      cases net.secondary st.sCount with
      | ok d =>
        intro ev hev'
        simp at hev'
        exact Or.inl ⟨e.2.1, _, hev', hmem⟩
      | err =>
        intro ev hev'
        simp at hev'
        exact Or.inl ⟨e.2.1, _, hev', hmem⟩
      | tooMany =>
        cases net.secondary (st.sCount + 1) <;>
          (intro ev hev'
           simp at hev'
           rcases hev' with hev' | hev' | hev'
           · exact Or.inl ⟨e.2.1, _, hev', hmem⟩
           · exact Or.inr ⟨_, hev'⟩
           · exact Or.inl ⟨e.2.1, _, hev', hmem⟩)
    have hInv1 : ChEvInv chCfg base
        { st with
          events := st.events ++ (make_coinhall_api_request net st.sCount e.2.1 (fmtDate e.2.2)).1,
          sCount := (make_coinhall_api_request net st.sCount e.2.1 (fmtDate e.2.2)).2.1 } := by
      refine ⟨extra ++ (make_coinhall_api_request net st.sCount e.2.1 (fmtDate e.2.2)).1,
        by simp [hev], ?_⟩
      intro ev hev'
      rcases List.mem_append.mp hev' with h | h
      · exact htail ev h
      · exact hreq ev h
    have heq : coinhallOne net chCfg st e =
        match (make_coinhall_api_request net st.sCount e.2.1 (fmtDate e.2.2)).2.2 with
        | ChCall.exited => Except.error (ChAbort.exited
            { st with
              events := st.events ++
                (make_coinhall_api_request net st.sCount e.2.1 (fmtDate e.2.2)).1,
              sCount := (make_coinhall_api_request net st.sCount e.2.1 (fmtDate e.2.2)).2.1 })
        | ChCall.returnedNone => Except.error (ChAbort.crashed
            { st with
              events := st.events ++
                (make_coinhall_api_request net st.sCount e.2.1 (fmtDate e.2.2)).1,
              sCount := (make_coinhall_api_request net st.sCount e.2.1 (fmtDate e.2.2)).2.1 }) := by
      unfold coinhallOne
      rw [hurl]
    cases hcall : (make_coinhall_api_request net st.sCount e.2.1 (fmtDate e.2.2)).2.2 with
    | exited =>
      simp only [hcall] at heq
      rw [heq]
      constructor
      · intro st' h
        exact Except.noConfusion h
      · intro ab h
        injection h with h
        constructor
        · intro stC hC
          rw [← h] at hC
          injection hC with hC
          exact hC ▸ hInv1
        · intro stC hC
          rw [← h] at hC
          exact ChAbort.noConfusion hC
    | returnedNone =>
      simp only [hcall] at heq
      rw [heq]
      constructor
      · intro st' h
        exact Except.noConfusion h
      · intro ab h
        injection h with h
        constructor
        · intro stC hC
          rw [← h] at hC
          exact ChAbort.noConfusion hC
        · intro stC hC
          rw [← h] at hC
          injection hC with hC
          exact hC ▸ hInv1

theorem coinhall_abort_evInv (net : Net) (chCfg : Registry) (base : List Ev)
    (l : List Miss) (st : ChSt) (hP : ChEvInv chCfg base st) :
    ∀ ab, l.foldlM (coinhallOne net chCfg) st = Except.error ab →
      (∀ stC, ab = ChAbort.exited stC → ChEvInv chCfg base stC) ∧
      (∀ stC, ab = ChAbort.crashed stC → ChEvInv chCfg base stC) := by
  exact (foldlM_except_inv (ChEvInv chCfg base)
    (fun ab => (∀ stC, ab = ChAbort.exited stC → ChEvInv chCfg base stC) ∧
      (∀ stC, ab = ChAbort.crashed stC → ChEvInv chCfg base stC))
    _ l st hP (fun st' a _ hP' => coinhallOne_evInv net chCfg base st' a hP')).2

theorem durStep_tail {chCfg : Registry} {done : DoneList} {file : Cache}
    (hcheck : (done.all fun t => decide (cacheGet file t.1 t.2.1 = some t.2.2)) = true) :
    ∀ extra : List Ev, (∀ e ∈ extra, ChTail chCfg e) →
      extra.foldl durStep (done, file, true) = (done, file, true) := by
  intro extra
  induction extra with
  | nil => intro _; rfl
  | cons e rest ih =>
    intro htail
    have htail' : ∀ e' ∈ rest, ChTail chCfg e' :=
      fun e' he' => htail e' (List.mem_cons_of_mem e he')
    rcases htail e (List.mem_cons_self e rest) with ⟨s, dk, he, _⟩ | ⟨n, he⟩ <;> subst he <;>
      simp only [List.foldl_cons, durStep, hcheck, Bool.true_and, Bool.and_true] <;>
      exact ih htail'

theorem durOK_of_dur {c0 : Cache} {evs : List Ev} {done : DoneList} {file : Cache}
    (h : evs.foldl durStep ([], c0, true) = (done, file, true)) : durOK c0 evs = true := by
  simp [durOK, h]

theorem finv_traceFacts {cache0 : Cache} {cgCfg : Registry} (chCfg : Registry) {st : FetchSt}
    (hInv : FInv cache0 cgCfg st) (r : PRResult)
    (hev : r.events = st.events) (hca : r.cache = st.cache) (hnc : r.outcome ≠ Outcome.caught) :
    TraceFacts cache0 cgCfg chCfg r := by
  refine ⟨?_, ?_, ?_, ?_, ?_, ?_, ?_⟩
  · rw [hev]; exact fun s dk h => ⟨hInv.reqUncached s dk h, hInv.reqMapped s dk h⟩
  · rw [hev]; exact fun s dk h => absurd h (hInv.sReqFree s dk)
  · rw [hev, hca]; exact hInv.doneCache
  · rw [hev, hca]; exact hInv.cacheFrom
  · rw [hca]; exact hInv.sub
  · rw [hev]; exact durOK_of_dur hInv.dur
  · exact fun h => absurd h hnc

/-- All trace facts hold for every resolution pass. -/
theorem process_rows_trace (rows : List Row) (keyIdx : List Nat) (cgCfg chCfg : Registry)
    (dateCol symCol valCol : String) (simpHeaders : List String) (cache0 : Cache) (net : Net) :
    TraceFacts cache0 cgCfg chCfg
      (process_rows rows keyIdx cgCfg chCfg dateCol symCol valCol simpHeaders cache0 net) := by
  have hinit := FInv_init cache0 cgCfg
    (collectCached (buildGroups rows keyIdx dateCol symCol) cache0)
  have hfa := fetchAll_inv cache0 cgCfg net
    (delCached (buildGroups rows keyIdx dateCol symCol)
      (collectCached (buildGroups rows keyIdx dateCol symCol) cache0))
    ⟨collectCached (buildGroups rows keyIdx dateCol symCol) cache0, cache0, cache0, [], 0, 0⟩
    hinit
  simp only [process_rows]
  cases hres : fetchAll net cgCfg
      (delCached (buildGroups rows keyIdx dateCol symCol)
        (collectCached (buildGroups rows keyIdx dateCol symCol) cache0))
      ⟨collectCached (buildGroups rows keyIdx dateCol symCol) cache0, cache0, cache0, [], 0, 0⟩ with
  | error stA =>
    obtain ⟨hInvA, hfc⟩ := hfa.2 stA hres
    refine ⟨?_, ?_, ?_, ?_, ?_, ?_, ?_⟩
    · exact fun s dk h => ⟨hInvA.reqUncached s dk h, hInvA.reqMapped s dk h⟩
    · exact fun s dk h => absurd h (hInvA.sReqFree s dk)
    · exact hInvA.doneCache
    · exact hInvA.cacheFrom
    · exact hInvA.sub
    · exact durOK_of_dur hInvA.dur
    · exact fun _ => hfc
  | ok stF =>
    obtain ⟨hInvF1, _⟩ := fInv_flush (hfa.1 stF hres)
    by_cases hmc :
        (annotate rows keyIdx dateCol symCol valCol (write_coingecko_cache stF).costs).2.isEmpty
    · simp only [hmc, if_true]
      exact finv_traceFacts chCfg hInvF1 _ rfl rfl (by simp)
    · simp only [hmc, Bool.false_eq_true, if_false]
      cases hch : (annotate rows keyIdx dateCol symCol valCol
            (write_coingecko_cache stF).costs).2.foldlM (coinhallOne net chCfg)
          (⟨[], [], (write_coingecko_cache stF).events, 0⟩ : ChSt) with
      | ok stC =>
        obtain ⟨-, hC⟩ := coinhall_complete net chCfg _ _ _ hch
        have hevC : stC.events = (write_coingecko_cache stF).events := by rw [hC]
        exact finv_traceFacts chCfg hInvF1 _ hevC rfl (by simp)
      | error ab =>
        have hbase : ChEvInv chCfg (write_coingecko_cache stF).events
            (⟨[], [], (write_coingecko_cache stF).events, 0⟩ : ChSt) :=
          ⟨[], by simp, by simp⟩
        have habort := coinhall_abort_evInv net chCfg _ _ _ hbase ab hch
        have hext : ∀ stC, (ab = ChAbort.exited stC ∨ ab = ChAbort.crashed stC) →
            ∃ extra, stC.events = (write_coingecko_cache stF).events ++ extra ∧
              ∀ e ∈ extra, ChTail chCfg e := by
          intro stC hC
          rcases hC with hC | hC
          · exact habort.1 stC hC
          · exact habort.2 stC hC
        have main : ∀ stC, (ab = ChAbort.exited stC ∨ ab = ChAbort.crashed stC) →
            ∀ (r : PRResult), r.events = stC.events →
              r.cache = (write_coingecko_cache stF).cache → r.outcome ≠ Outcome.caught →
              TraceFacts cache0 cgCfg chCfg r := by
          intro stC hC r hev hca hnc
          obtain ⟨extra, hevC, htail⟩ := hext stC hC
          have hall := all_done_check hInvF1.fileDone
          refine ⟨?_, ?_, ?_, ?_, ?_, ?_, ?_⟩
          · rw [hev, hevC]
            intro s dk h
            rcases List.mem_append.mp h with h | h
            · exact ⟨hInvF1.reqUncached s dk h, hInvF1.reqMapped s dk h⟩
            · rcases htail _ h with ⟨s', dk', he, _⟩ | ⟨n, he⟩ <;> exact Ev.noConfusion he
          · rw [hev, hevC]
            intro s dk h
            rcases List.mem_append.mp h with h | h
            · exact absurd h (hInvF1.sReqFree s dk)
            · rcases htail _ h with ⟨s', dk', he, hmap⟩ | ⟨n, he⟩
              · injection he with he1 he2
                exact he1 ▸ hmap
              · exact Ev.noConfusion he
          · rw [hev, hevC, hca]
            intro s dk v h
            rcases List.mem_append.mp h with h | h
            · exact hInvF1.doneCache s dk v h
            · rcases htail _ h with ⟨s', dk', he, _⟩ | ⟨n, he⟩ <;> exact Ev.noConfusion he
          · rw [hev, hevC, hca]
            intro s dk v h
            rcases hInvF1.cacheFrom s dk v h with h | h
            · exact Or.inl h
            · exact Or.inr (List.mem_append_left _ h)
          · rw [hca]
            exact hInvF1.sub
          · rw [hev, hevC]
            unfold durOK
            rw [List.foldl_append, hInvF1.dur, @durStep_tail chCfg _ _ hall extra htail]
          · exact fun h => absurd h hnc
        cases ab with
        | exited stC => exact main stC (Or.inl rfl) _ rfl rfl (by simp)
        | crashed stC => exact main stC (Or.inr rfl) _ rfl rfl (by simp)

/-! ## Per-key behaviour of the fetch loop (`FetchSpec`) -/

theorem keyInB_nil (s dk : String) : keyInB [] s dk = false := rfl

theorem keyInB_singleton (s₁ : String) (q : String × List Nat) (s dk : String) :
    keyInB [(s₁, [q])] s dk = (s₁ == s && q.1 == dk) := by
  simp [keyInB]

theorem keyInB_append (g1 g2 : Groups) (s dk : String) :
    keyInB (g1 ++ g2) s dk = (keyInB g1 s dk || keyInB g2 s dk) := by
  simp [keyInB, List.any_append]

theorem keyInB_cons_inner (s₁ : String) (q : String × List Nat)
    (qs : List (String × List Nat)) (s dk : String) :
    keyInB [(s₁, q :: qs)] s dk = (keyInB [(s₁, [q])] s dk || keyInB [(s₁, qs)] s dk) := by
  simp [keyInB, Bool.and_or_distrib_left]

theorem cacheMem_false_get {c : Cache} {s dk : String} (h : cacheMem c s dk = false) :
    cacheGet c s dk = none := by
  unfold cacheMem at h
  cases hg : cacheGet c s dk with
  | none => rfl
  | some v => rw [hg] at h; simp at h

theorem cacheGet_dset_empty {costs : Cache} {s₁ : String} (h : dmem costs s₁ = false)
    (s dk : String) : cacheGet (dset costs s₁ []) s dk = cacheGet costs s dk := by
  by_cases hs : s = s₁
  · subst hs
    unfold cacheGet
    rw [dget_dset_self]
    rw [dmem_false_iff.mp h]
    rfl
  · unfold cacheGet
    rw [dget_dset_ne _ _ _ _ hs]

theorem FetchSpec_of_id {cg : Registry} (g : Groups) (hg : ∀ s dk, keyInB g s dk = false)
    (st : FetchSt) : FetchSpec cg g st st := by
  intro s dk
  refine ⟨?_, ?_, ?_⟩
  · intro v hv
    exact ⟨hv, fun hIn => absurd hIn (by simp [hg])⟩
  · intro _
    exact ⟨rfl, rfl⟩
  · intro _ hIn
    exact absurd hIn (by simp [hg])

theorem FetchSpec_trans {cg : Registry} {g1 g2 : Groups} {st1 st2 st3 : FetchSt}
    (h1 : FetchSpec cg g1 st1 st2) (h2 : FetchSpec cg g2 st2 st3) :
    FetchSpec cg (g1 ++ g2) st1 st3 := by
  intro s dk
  obtain ⟨hc1, hn1, hu1⟩ := h1 s dk
  obtain ⟨hc2, hn2, hu2⟩ := h2 s dk
  refine ⟨?_, ?_, ?_⟩
  · intro v hv
    obtain ⟨hv2, hcost1⟩ := hc1 v hv
    obtain ⟨hv3, hcost2⟩ := hc2 v hv2
    refine ⟨hv3, ?_⟩
    intro hIn
    rw [keyInB_append] at hIn
    by_cases hIn2 : keyInB g2 s dk = true
    · exact hcost2 hIn2
    · have hIn1 : keyInB g1 s dk = true := by
        rcases Bool.or_eq_true_iff.mp hIn with h | h
        · exact h
        · exact absurd h hIn2
      rw [(hn2 (by simpa using hIn2)).1]
      exact hcost1 hIn1
  · intro hNotIn
    rw [keyInB_append] at hNotIn
    have h1f : keyInB g1 s dk = false := by
      cases h : keyInB g1 s dk
      · rfl
      · rw [h] at hNotIn; simp at hNotIn
    have h2f : keyInB g2 s dk = false := by
      cases h : keyInB g2 s dk
      · rfl
      · rw [h] at hNotIn; simp at hNotIn
    obtain ⟨ha, hb⟩ := hn1 h1f
    obtain ⟨hc, hd⟩ := hn2 h2f
    exact ⟨hc.trans ha, hd.trans hb⟩
  · intro hnone hIn
    rw [keyInB_append] at hIn
    by_cases hIn1 : keyInB g1 s dk = true
    · constructor
      · intro hmap
        obtain ⟨v, hcost2, hcache2⟩ := (hu1 hnone hIn1).1 hmap
        obtain ⟨hv3, hcost3⟩ := hc2 v hcache2
        refine ⟨v, ?_, hv3⟩
        by_cases hIn2 : keyInB g2 s dk = true
        · exact hcost3 hIn2
        · rw [(hn2 (by simpa using hIn2)).1]
          exact hcost2
      · intro hnomap
        obtain ⟨hcost2, hcache2⟩ := (hu1 hnone hIn1).2 hnomap
        by_cases hIn2 : keyInB g2 s dk = true
        · exact (hu2 hcache2 hIn2).2 hnomap
        · obtain ⟨hc, hd⟩ := hn2 (by simpa using hIn2)
          exact ⟨hc.trans hcost2, hd.trans hcache2⟩
    · have hIn2 : keyInB g2 s dk = true := by
        rcases Bool.or_eq_true_iff.mp hIn with h | h
        · exact absurd h hIn1
        · exact h
      obtain ⟨ha, hb⟩ := hn1 (by simpa using hIn1)
      rw [hnone] at hb
      constructor
      · intro hmap
        obtain ⟨v, hcost3, hcache3⟩ := (hu2 hb hIn2).1 hmap
        exact ⟨v, hcost3, hcache3⟩
      · intro hnomap
        obtain ⟨hcost3, hcache3⟩ := (hu2 hb hIn2).2 hnomap
        exact ⟨hcost3, hcache3⟩

theorem FetchSpec_keyInB_congr {cg : Registry} {g : Groups} {st st' : FetchSt}
    (h : FetchSpec cg g st st') (g' : Groups)
    (hg : ∀ s dk, keyInB g' s dk = keyInB g s dk) : FetchSpec cg g' st st' := by
  intro s dk
  obtain ⟨hc, hn, hu⟩ := h s dk
  refine ⟨?_, ?_, ?_⟩
  · intro v hv
    obtain ⟨h1, h2⟩ := hc v hv
    exact ⟨h1, fun hIn => h2 (by rw [← hg]; exact hIn)⟩
  · intro hNotIn
    exact hn (by rw [← hg]; exact hNotIn)
  · intro hnone hIn
    exact hu hnone (by rw [← hg]; exact hIn)

theorem FetchSpec_pre_congr {cg : Registry} {g : Groups} {st1 st' : FetchSt}
    (h : FetchSpec cg g st1 st') (st : FetchSt)
    (hcosts : ∀ s dk, cacheGet st1.costs s dk = cacheGet st.costs s dk)
    (hcache : st1.cache = st.cache) : FetchSpec cg g st st' := by
  intro s dk
  obtain ⟨hc, hn, hu⟩ := h s dk
  refine ⟨?_, ?_, ?_⟩
  · intro v hv
    exact hc v (by rw [hcache]; exact hv)
  · intro hNotIn
    obtain ⟨h1, h2⟩ := hn hNotIn
    exact ⟨h1.trans (hcosts s dk), h2.trans (by rw [hcache])⟩
  · intro hnone hIn
    exact hu (by rw [hcache]; exact hnone) hIn

theorem keyInB_singleton_true {s₁ : String} {q : String × List Nat} {s dk : String}
    (h : keyInB [(s₁, [q])] s dk = true) : s₁ = s ∧ q.1 = dk := by
  rw [keyInB_singleton] at h
  simpa using h

theorem keyInB_singleton_false {s₁ : String} {q : String × List Nat} {s dk : String}
    (h : keyInB [(s₁, [q])] s dk = false) : ¬(s₁ = s ∧ q.1 = dk) := by
  rw [keyInB_singleton] at h
  simp at h
  intro hc
  exact h hc.1 hc.2

/-- `FetchSpec` for the state after one fetched (uncached, mapped) key;
only the `costs` and `cache` components matter. -/
theorem FetchSpec_fetched (cg : Registry) (s₁ : String) (q : String × List Nat)
    (st : FetchSt) (usd : Price)
    (hm : cacheMem st.cache s₁ q.1 = false) (hmap : (dget cg s₁).isSome = true)
    (cf' : Cache) (ev' : List Ev) (pc' mc' : Nat) :
    FetchSpec cg [(s₁, [q])] st
      ⟨cachePut (cachePut st.costs s₁ q.1 none) s₁ q.1 usd,
        cachePut st.cache s₁ q.1 usd, cf', ev', pc', mc'⟩ := by
  intro s dk
  refine ⟨?_, ?_, ?_⟩
  · intro v hv
    by_cases hk : s₁ = s ∧ q.1 = dk
    · exfalso
      obtain ⟨h1, h2⟩ := hk
      subst h1; subst h2
      rw [cacheMem_false_get hm] at hv
      exact Option.noConfusion hv
    · have hk' : ¬(s = s₁ ∧ dk = q.1) := fun hc => hk ⟨hc.1.symm, hc.2.symm⟩
      refine ⟨?_, ?_⟩
      · show cacheGet (cachePut st.cache s₁ q.1 usd) s dk = some v
        rw [cacheGet_cachePut_ne _ _ _ _ _ _ hk']
        exact hv
      · intro hIn
        exact absurd (keyInB_singleton_true hIn) hk
  · intro hNotIn
    have hk' : ¬(s = s₁ ∧ dk = q.1) :=
      fun hc => keyInB_singleton_false hNotIn ⟨hc.1.symm, hc.2.symm⟩
    constructor
    · show cacheGet (cachePut (cachePut st.costs s₁ q.1 none) s₁ q.1 usd) s dk = _
      rw [cacheGet_cachePut_ne _ _ _ _ _ _ hk', cacheGet_cachePut_ne _ _ _ _ _ _ hk']
    · show cacheGet (cachePut st.cache s₁ q.1 usd) s dk = _
      rw [cacheGet_cachePut_ne _ _ _ _ _ _ hk']
  · intro _ hIn
    obtain ⟨h1, h2⟩ := keyInB_singleton_true hIn
    subst h1; subst h2
    constructor
    · intro _
      exact ⟨usd, cacheGet_cachePut_self _ _ _ _, cacheGet_cachePut_self _ _ _ _⟩
    · intro hnomap
      rw [hnomap] at hmap
      simp at hmap

theorem fetchDate_spec (cg : Registry) (net : Net) (s₁ : String) (st st' : FetchSt)
    (q : String × List Nat)
    (hok : fetchDate net (get_coingecko_request_url s₁ cg) s₁ st q = Except.ok st') :
    FetchSpec cg [(s₁, [q])] st st' := by
  by_cases hm : cacheMem st.cache s₁ q.1
  · simp only [fetchDate, hm, if_true] at hok
    injection hok with hok
    rw [← hok]
    obtain ⟨v0, hv0⟩ : ∃ v0, cacheGet st.cache s₁ q.1 = some v0 := by
      unfold cacheMem at hm
      cases hg : cacheGet st.cache s₁ q.1 with
      | none => rw [hg] at hm; simp at hm
      | some v0 => exact ⟨v0, rfl⟩
    intro s dk
    refine ⟨?_, ?_, ?_⟩
    · intro v hv
      refine ⟨hv, ?_⟩
      intro hIn
      obtain ⟨h1, h2⟩ := keyInB_singleton_true hIn
      rw [← h1, ← h2] at hv ⊢
      show cacheGet (cachePut st.costs s₁ q.1 ((cacheGet st.cache s₁ q.1).getD none)) s₁ q.1
        = some v
      rw [cacheGet_cachePut_self, hv]
      rfl
    · intro hNotIn
      have hk' : ¬(s = s₁ ∧ dk = q.1) :=
        fun hc => keyInB_singleton_false hNotIn ⟨hc.1.symm, hc.2.symm⟩
      constructor
      · show cacheGet (cachePut st.costs s₁ q.1 _) s dk = _
        rw [cacheGet_cachePut_ne _ _ _ _ _ _ hk']
      · rfl
    · intro hnone hIn
      exfalso
      obtain ⟨h1, h2⟩ := keyInB_singleton_true hIn
      rw [← h1, ← h2] at hnone
      rw [hnone] at hv0
      exact Option.noConfusion hv0
  · have hm2 : cacheMem st.cache s₁ q.1 = false := by simpa using hm
    cases hurl : get_coingecko_request_url s₁ cg with
    | none =>
      have hnomap : dget cg s₁ = none := by
        unfold get_coingecko_request_url at hurl
        cases hd : dget cg s₁ with
        | none => rfl
        | some r => rw [hd] at hurl; simp at hurl
      simp only [fetchDate, hm2, Bool.false_eq_true, if_false, hurl] at hok
      injection hok with hok
      rw [← hok]
      intro s dk
      refine ⟨?_, ?_, ?_⟩
      · intro v hv
        refine ⟨hv, ?_⟩
        intro hIn
        exfalso
        obtain ⟨h1, h2⟩ := keyInB_singleton_true hIn
        rw [← h1, ← h2] at hv
        rw [cacheMem_false_get hm2] at hv
        exact Option.noConfusion hv
      · intro hNotIn
        have hk' : ¬(s = s₁ ∧ dk = q.1) :=
          fun hc => keyInB_singleton_false hNotIn ⟨hc.1.symm, hc.2.symm⟩
        constructor
        · show cacheGet (cachePut st.costs s₁ q.1 none) s dk = _
          rw [cacheGet_cachePut_ne _ _ _ _ _ _ hk']
        · rfl
      · intro hnone hIn
        obtain ⟨h1, h2⟩ := keyInB_singleton_true hIn
        rw [← h1, ← h2]
        rw [← h1, ← h2] at hnone
        constructor
        · intro hmap
          rw [hnomap] at hmap
          simp at hmap
        · intro _
          exact ⟨cacheGet_cachePut_self _ _ _ _, hnone⟩
    | some u =>
      have hmap := isSome_of_url hurl
      cases hresp : net.primary st.pCount with
      | ok usd =>
        simp only [fetchDate, hm2, Bool.false_eq_true, if_false, hurl, hresp] at hok
        injection hok with hok
        rw [← hok, fetchOk_eq]
        exact FetchSpec_fetched cg s₁ q st usd hm2 hmap _ _ _ _
      | err =>
        simp only [fetchDate, hm2, Bool.false_eq_true, if_false, hurl, hresp] at hok
        exact Except.noConfusion hok
      | tooMany =>
        cases hresp2 : net.primary (st.pCount + 1) with
        | ok usd =>
          simp only [fetchDate, hm2, Bool.false_eq_true, if_false, hurl, hresp, hresp2] at hok
          injection hok with hok
          rw [← hok, fetchOk_eq]
          exact FetchSpec_fetched cg s₁ q st usd hm2 hmap _ _ _ _
        | err =>
          simp only [fetchDate, hm2, Bool.false_eq_true, if_false, hurl, hresp, hresp2] at hok
          exact Except.noConfusion hok
        | tooMany =>
          simp only [fetchDate, hm2, Bool.false_eq_true, if_false, hurl, hresp, hresp2] at hok
          exact Except.noConfusion hok

theorem fetchDates_spec (cg : Registry) (net : Net) (s₁ : String) :
    ∀ (qs : List (String × List Nat)) (st st' : FetchSt),
      qs.foldlM (fetchDate net (get_coingecko_request_url s₁ cg) s₁) st = Except.ok st' →
      FetchSpec cg [(s₁, qs)] st st' := by
  intro qs
  induction qs with
  | nil =>
    intro st st' h
    have h' : Except.ok st = Except.ok st' := h
    injection h' with h'
    rw [← h']
    exact FetchSpec_of_id _ (fun s dk => by simp [keyInB]) st
  | cons q qs ih =>
    intro st st' h
    have hcons : (q :: qs).foldlM (fetchDate net (get_coingecko_request_url s₁ cg) s₁) st =
        fetchDate net (get_coingecko_request_url s₁ cg) s₁ st q >>=
          fun s => qs.foldlM (fetchDate net (get_coingecko_request_url s₁ cg) s₁) s := by
      simp [List.foldlM]
    rw [hcons] at h
    cases hfa : fetchDate net (get_coingecko_request_url s₁ cg) s₁ st q with
    | error e =>
      rw [hfa] at h
      exact Except.noConfusion h
    | ok st1 =>
      rw [hfa] at h
      have hbind : (Except.ok st1 : Except FetchSt FetchSt) >>=
          (fun s => qs.foldlM (fetchDate net (get_coingecko_request_url s₁ cg) s₁) s) =
          qs.foldlM (fetchDate net (get_coingecko_request_url s₁ cg) s₁) st1 := rfl
      rw [hbind] at h
      have h1 := fetchDate_spec cg net s₁ st st1 q hfa
      have h2 := ih st1 st' h
      exact FetchSpec_keyInB_congr (FetchSpec_trans h1 h2) _
        (fun s dk => by rw [keyInB_cons_inner, keyInB_append])

theorem fetchSymbol_spec (cg : Registry) (net : Net) (st st' : FetchSt)
    (p : String × List (String × List Nat))
    (hok : fetchSymbol net cg st p = Except.ok st') : FetchSpec cg [p] st st' := by
  unfold fetchSymbol at hok
  by_cases hd : dmem st.costs p.1
  · simp only [hd, if_true] at hok
    exact fetchDates_spec cg net p.1 p.2 st st' hok
  · simp only [hd, Bool.false_eq_true, if_false] at hok
    have hspec := fetchDates_spec cg net p.1 p.2 { st with costs := dset st.costs p.1 [] }
      st' hok
    exact FetchSpec_pre_congr hspec st
      (fun s dk => cacheGet_dset_empty (by simpa using hd) s dk) rfl

theorem fetchAll_spec (cg : Registry) (net : Net) :
    ∀ (g : Groups) (st st' : FetchSt),
      fetchAll net cg g st = Except.ok st' → FetchSpec cg g st st' := by
  intro g
  induction g with
  | nil =>
    intro st st' h
    have h' : Except.ok st = Except.ok st' := h
    injection h' with h'
    rw [← h']
    exact FetchSpec_of_id [] keyInB_nil st
  | cons p g ih =>
    intro st st' h
    have hcons : fetchAll net cg (p :: g) st =
        fetchSymbol net cg st p >>= fun s => fetchAll net cg g s := by
      simp [fetchAll, List.foldlM]
    rw [hcons] at h
    cases hfs : fetchSymbol net cg st p with
    | error e =>
      rw [hfs] at h
      exact Except.noConfusion h
    | ok st1 =>
      rw [hfs] at h
      have hbind : (Except.ok st1 : Except FetchSt FetchSt) >>=
          (fun s => fetchAll net cg g s) = fetchAll net cg g st1 := rfl
      rw [hbind] at h
      exact FetchSpec_trans (fetchSymbol_spec cg net st st1 p hfs) (ih st1 st' h)

/-! ## Characterisation of the cache-collection and deletion phases -/

theorem dget_mem {α : Type} {d : List (String × α)} {k : String} {v : α}
    (h : dget d k = some v) : (k, v) ∈ d := by
  induction d with
  | nil => simp [dget] at h
  | cons p rest ih =>
    obtain ⟨k₁, v₁⟩ := p
    by_cases hk : k₁ = k
    · subst hk
      simp [dget] at h
      simp [h]
    · simp [dget, hk] at h
      exact List.mem_cons_of_mem _ (ih h)

theorem mem_dset_of_ne {α : Type} {d : List (String × α)} {k : String} {v : α}
    {p : String × α} (hp : p ∈ d) (hne : p.1 ≠ k) : p ∈ dset d k v := by
  induction d with
  | nil => simp at hp
  | cons q rest ih =>
    obtain ⟨k₁, v₁⟩ := q
    rcases List.mem_cons.mp hp with hp | hp
    · subst hp
      by_cases hk : k₁ = k
      · exact absurd hk hne
      · simp [dset, hk]
    · by_cases hk : k₁ = k
      · simp [dset, hk]
        exact Or.inr hp
      · simp [dset, hk]
        exact Or.inr (by simpa using ih hp)

theorem self_mem_dset {α : Type} (d : List (String × α)) (k : String) (v : α) :
    (k, v) ∈ dset d k v := by
  induction d with
  | nil => simp [dset]
  | cons q rest ih =>
    obtain ⟨k₁, v₁⟩ := q
    by_cases hk : k₁ = k
    · simp [dset, hk]
    · simp [dset, hk]
      exact Or.inr ih

theorem dmem_iff_mem_keys {α : Type} {d : List (String × α)} {k : String} :
    dmem d k = true ↔ k ∈ d.map Prod.fst := by
  induction d with
  | nil => simp [dmem, dget]
  | cons p rest ih =>
    obtain ⟨k₁, v₁⟩ := p
    by_cases hk : k₁ = k
    · subst hk
      simp [dmem, dget]
    · simp [dmem, dget, hk] at ih ⊢
      rw [← ih]
      constructor
      · intro h
        exact Or.inr h
      · intro h
        rcases h with h | h
        · exact absurd h.symm hk
        · exact h

theorem dget_of_mem_nodup {α : Type} {d : List (String × α)} {k : String} {v : α}
    (hnd : (d.map Prod.fst).Nodup) (h : (k, v) ∈ d) : dget d k = some v := by
  induction d with
  | nil => simp at h
  | cons p rest ih =>
    obtain ⟨k₁, v₁⟩ := p
    rw [List.map_cons, List.nodup_cons] at hnd
    rcases List.mem_cons.mp h with h | h
    · injection h with h1 h2
      simp [dget, h1.symm, h2.symm]
    · by_cases hk : k₁ = k
      · exfalso
        subst hk
        exact hnd.1 (List.mem_map.mpr ⟨(k₁, v), h, rfl⟩)
      · simp [dget, hk]
        exact ih hnd.2 h

theorem map_fst_dset_mem {α : Type} {d : List (String × α)} {k : String} (v : α)
    (h : dmem d k = true) : (dset d k v).map Prod.fst = d.map Prod.fst := by
  induction d with
  | nil => simp [dmem, dget] at h
  | cons p rest ih =>
    obtain ⟨k₁, v₁⟩ := p
    by_cases hk : k₁ = k
    · simp [dset, hk]
    · simp [dmem, dget, hk] at h
      simp [dset, hk]
      exact ih h

theorem map_fst_dset_not_mem {α : Type} {d : List (String × α)} {k : String} (v : α)
    (h : dmem d k = false) : (dset d k v).map Prod.fst = d.map Prod.fst ++ [k] := by
  induction d with
  | nil => simp [dset]
  | cons p rest ih =>
    obtain ⟨k₁, v₁⟩ := p
    by_cases hk : k₁ = k
    · simp [dmem, dget, hk] at h
    · simp [dmem, dget, hk] at h
      simp [dset, hk]
      exact ih (by simp [dmem, h])

theorem nodup_keys_dset {α : Type} {d : List (String × α)} {k : String} (v : α)
    (hnd : (d.map Prod.fst).Nodup) : ((dset d k v).map Prod.fst).Nodup := by
  by_cases h : dmem d k
  · rw [map_fst_dset_mem v h]
    exact hnd
  · rw [map_fst_dset_not_mem v (by simpa using h)]
    have hk : k ∉ d.map Prod.fst := fun hmem => h (dmem_iff_mem_keys.mpr hmem)
    simp [List.nodup_append, hnd, hk]

/-- Every structural entry of `collectCached g c` is a key cached in `c`
(with its cached value). -/
theorem collectCached_entries (g : Groups) (c : Cache) :
    ∀ p ∈ collectCached g c, ∀ qq ∈ p.2, cacheGet c p.1 qq.1 = some qq.2 := by
  have hput : ∀ (acc : Cache) (s₁ dk₁ : String) (v : Price),
      cacheGet c s₁ dk₁ = some v →
      (∀ p ∈ acc, ∀ qq ∈ p.2, cacheGet c p.1 qq.1 = some qq.2) →
      ∀ p ∈ cachePut acc s₁ dk₁ v, ∀ qq ∈ p.2, cacheGet c p.1 qq.1 = some qq.2 := by
    intro acc s₁ dk₁ v hv hacc p hp qq hqq
    unfold cachePut at hp
    cases hd : dget acc s₁ with
    | some inner =>
      rw [hd] at hp
      rcases mem_dset hp with ⟨hp1, hp2⟩ | hp
      · rw [hp2] at hqq
        rcases mem_dset hqq with ⟨hq1, hq2⟩ | hqq
        · rw [hp1, hq1, hq2]
          exact hv
        · rw [hp1]
          exact hacc (s₁, inner) (dget_mem hd) qq hqq
      · exact hacc p hp qq hqq
    | none =>
      rw [hd] at hp
      rcases mem_dset hp with ⟨hp1, hp2⟩ | hp
      · rw [hp2] at hqq
        simp at hqq
        subst hqq
        rw [hp1]
        exact hv
      · exact hacc p hp qq hqq
  suffices h : ∀ (g : Groups) (acc : Cache),
      (∀ p ∈ acc, ∀ qq ∈ p.2, cacheGet c p.1 qq.1 = some qq.2) →
      ∀ p ∈ g.foldl (fun costs p =>
        p.2.foldl (fun costs q =>
          match cacheGet c p.1 q.1 with
          | some v => cachePut costs p.1 q.1 v
          | none => costs) costs) acc,
        ∀ qq ∈ p.2, cacheGet c p.1 qq.1 = some qq.2 by
    intro p hp qq hqq
    exact h g [] (by simp) p hp qq hqq
  intro g
  induction g with
  | nil => intro acc hacc; exact hacc
  | cons p g ih =>
    intro acc hacc
    simp only [List.foldl_cons]
    apply ih
    have hinner : ∀ (dd : List (String × List Nat)) (acc : Cache),
        (∀ p' ∈ acc, ∀ qq ∈ p'.2, cacheGet c p'.1 qq.1 = some qq.2) →
        ∀ p' ∈ dd.foldl (fun costs q =>
          match cacheGet c p.1 q.1 with
          | some v => cachePut costs p.1 q.1 v
          | none => costs) acc,
          ∀ qq ∈ p'.2, cacheGet c p'.1 qq.1 = some qq.2 := by
      intro dd
      induction dd with
      | nil => intro acc hacc; exact hacc
      | cons q dd ihd =>
        intro acc hacc
        simp only [List.foldl_cons]
        apply ihd
        cases hv : cacheGet c p.1 q.1 with
        | some v => exact hput acc p.1 q.1 v hv hacc
        | none => exact hacc
    exact hinner p.2 acc hacc

/-- What `collectCached` stores at each key: the cached value of keys in
the request set, nothing else. -/
theorem collectCached_get (g : Groups) (c : Cache) (s dk : String) :
    cacheGet (collectCached g c) s dk =
      if keyInB g s dk = true ∧ cacheMem c s dk = true then cacheGet c s dk else none := by
  suffices h : ∀ (g : Groups) (acc : Cache),
      cacheGet (g.foldl (fun costs p =>
        p.2.foldl (fun costs q =>
          match cacheGet c p.1 q.1 with
          | some v => cachePut costs p.1 q.1 v
          | none => costs) costs) acc) s dk =
      if keyInB g s dk = true ∧ cacheMem c s dk = true then cacheGet c s dk
      else cacheGet acc s dk by
    unfold collectCached
    rw [h g []]
    by_cases hc : keyInB g s dk = true ∧ cacheMem c s dk = true
    · rw [if_pos hc, if_pos hc]
    · rw [if_neg hc, if_neg hc]
      simp [cacheGet, dget]
  have hinner : ∀ (s₁ : String) (dd : List (String × List Nat)) (acc : Cache),
      cacheGet (dd.foldl (fun costs q =>
        match cacheGet c s₁ q.1 with
        | some v => cachePut costs s₁ q.1 v
        | none => costs) acc) s dk =
      if (s₁ = s ∧ (dd.any fun q => q.1 == dk) = true) ∧ cacheMem c s dk = true
      then cacheGet c s dk else cacheGet acc s dk := by
    intro s₁ dd
    induction dd with
    | nil =>
      intro acc
      simp
    | cons q dd ihd =>
      intro acc
      simp only [List.foldl_cons]
      rw [ihd]
      by_cases hcond : (s₁ = s ∧ (dd.any fun q => q.1 == dk) = true) ∧ cacheMem c s dk = true
      · rw [if_pos hcond]
        rw [if_pos ⟨⟨hcond.1.1, by simp [hcond.1.2]⟩, hcond.2⟩]
      · rw [if_neg hcond]
        by_cases hhead : (s₁ = s ∧ q.1 = dk) ∧ cacheMem c s dk = true
        · obtain ⟨⟨hs, hdk⟩, hcm⟩ := hhead
          subst hs; subst hdk
          obtain ⟨v, hv⟩ : ∃ v, cacheGet c s₁ q.1 = some v := by
            unfold cacheMem at hcm
            cases hg : cacheGet c s₁ q.1 with
            | none => rw [hg] at hcm; simp at hcm
            | some v => exact ⟨v, rfl⟩
          rw [hv]
          rw [if_pos ⟨⟨rfl, by simp⟩, hcm⟩]
          exact cacheGet_cachePut_self acc s₁ q.1 v
        · have hne : ∀ v, cacheGet c s₁ q.1 = some v →
              cacheGet (cachePut acc s₁ q.1 v) s dk = cacheGet acc s dk := by
            intro v hv
            apply cacheGet_cachePut_ne
            intro ⟨h1, h2⟩
            by_cases hcm : cacheMem c s dk = true
            · exact hhead ⟨⟨h1.symm, h2.symm⟩, hcm⟩
            · rw [h1, h2] at hcm
              unfold cacheMem at hcm
              rw [hv] at hcm
              simp at hcm
          have hcondfalse : ¬((s₁ = s ∧ ((q :: dd).any fun q => q.1 == dk) = true) ∧
              cacheMem c s dk = true) := by
            intro ⟨⟨h1, h2⟩, hcm⟩
            simp at h2
            rcases h2 with h2 | h2
            · exact hhead ⟨⟨h1, h2⟩, hcm⟩
            · exact hcond ⟨⟨h1, by simp [h2]⟩, hcm⟩
          rw [if_neg hcondfalse]
          cases hv : cacheGet c s₁ q.1 with
          | some v => rw [hne v hv]
          | none => rfl
  intro g
  induction g with
  | nil =>
    intro acc
    simp [keyInB]
  | cons p g ihg =>
    intro acc
    simp only [List.foldl_cons]
    rw [ihg]
    by_cases hcond : keyInB g s dk = true ∧ cacheMem c s dk = true
    · rw [if_pos hcond]
      have : keyInB (p :: g) s dk = true := by
        simp [keyInB] at hcond ⊢
        rcases hcond.1 with ⟨a, b, hab⟩
        exact Or.inr ⟨a, b, hab⟩
      rw [if_pos ⟨this, hcond.2⟩]
    · rw [if_neg hcond, hinner p.1 p.2 acc]
      by_cases hhead : (p.1 = s ∧ (p.2.any fun q => q.1 == dk) = true) ∧ cacheMem c s dk = true
      · rw [if_pos hhead]
        have : keyInB (p :: g) s dk = true := by
          simp [keyInB]
          exact Or.inl ⟨by simp [hhead.1.1], by simpa using hhead.1.2⟩
        rw [if_pos ⟨this, hhead.2⟩]
      · rw [if_neg hhead]
        have : ¬(keyInB (p :: g) s dk = true ∧ cacheMem c s dk = true) := by
          intro ⟨hIn, hcm⟩
          simp [keyInB] at hIn
          rcases hIn with ⟨h1, h2⟩ | ⟨a, b, hab⟩
          · exact hhead ⟨⟨by simpa using h1, by simpa using h2⟩, hcm⟩
          · exact hcond ⟨by simp [keyInB]; exact ⟨a, b, hab⟩, hcm⟩
        rw [if_neg this]

theorem keyInB_iff {g : Groups} {s dk : String} :
    keyInB g s dk = true ↔ ∃ p ∈ g, p.1 = s ∧ ∃ q ∈ p.2, q.1 = dk := by
  simp [keyInB]

theorem dget_isSome_of_mem {α : Type} {d : List (String × α)} {p : String × α}
    (hp : p ∈ d) : (dget d p.1).isSome := by
  induction d with
  | nil => simp at hp
  | cons q rest ih =>
    obtain ⟨k₁, v₁⟩ := q
    rcases List.mem_cons.mp hp with hp | hp
    · subst hp
      simp [dget]
    · by_cases hk : k₁ = p.1
      · simp [dget, hk]
      · simp only [dget, if_neg hk]
        exact ih hp

theorem groupAdd_eq_none {g : Groups} {s : String} (dk : String) (i : Nat)
    (h : dget g s = none) : groupAdd g s dk i = dset g s [(dk, [i])] := by
  simp only [groupAdd, h]

theorem groupAdd_eq_some_none {g : Groups} {s dk : String} {inner : List (String × List Nat)}
    (i : Nat) (h : dget g s = some inner) (h2 : dget inner dk = none) :
    groupAdd g s dk i = dset g s (dset inner dk [i]) := by
  simp only [groupAdd, h, h2]

theorem groupAdd_eq_some_some {g : Groups} {s dk : String} {inner : List (String × List Nat)}
    {l : List Nat} (i : Nat) (h : dget g s = some inner) (h2 : dget inner dk = some l) :
    groupAdd g s dk i = dset g s (dset inner dk (l ++ [i])) := by
  simp only [groupAdd, h, h2]

theorem keyInB_groupAdd_self (g : Groups) (s dk : String) (i : Nat) :
    keyInB (groupAdd g s dk i) s dk = true := by
  cases hd : dget g s with
  | none =>
    rw [groupAdd_eq_none dk i hd]
    exact keyInB_iff.mpr ⟨(s, [(dk, [i])]), self_mem_dset g s _, rfl, (dk, [i]), by simp, rfl⟩
  | some inner =>
    cases hdk : dget inner dk with
    | none =>
      rw [groupAdd_eq_some_none i hd hdk]
      exact keyInB_iff.mpr ⟨(s, dset inner dk [i]), self_mem_dset g s _, rfl,
        (dk, [i]), self_mem_dset inner dk _, rfl⟩
    | some l =>
      rw [groupAdd_eq_some_some i hd hdk]
      exact keyInB_iff.mpr ⟨(s, dset inner dk (l ++ [i])), self_mem_dset g s _, rfl,
        (dk, l ++ [i]), self_mem_dset inner dk _, rfl⟩

theorem keyInB_mono_groupAdd {g : Groups} {s dk : String}
    (hnd : (g.map Prod.fst).Nodup) (hIn : keyInB g s dk = true)
    (s₁ dk₁ : String) (i : Nat) :
    keyInB (groupAdd g s₁ dk₁ i) s dk = true := by
  obtain ⟨p, hp, hps, q, hq, hqd⟩ := keyInB_iff.mp hIn
  cases hd : dget g s₁ with
  | none =>
    rw [groupAdd_eq_none dk₁ i hd]
    by_cases hps' : p.1 = s₁
    · exfalso
      have := dget_isSome_of_mem hp
      rw [hps', hd] at this
      simp at this
    · exact keyInB_iff.mpr ⟨p, mem_dset_of_ne hp hps', hps, q, hq, hqd⟩
  | some inner =>
    have step : ∀ X : List Nat,
        keyInB (dset g s₁ (dset inner dk₁ X)) s dk = true := by
      intro X
      by_cases hps' : p.1 = s₁
      · have hpeq : dget g p.1 = some p.2 := dget_of_mem_nodup hnd hp
        rw [hps', hd] at hpeq
        injection hpeq with hpeq
        have hq' : q ∈ inner := by rw [hpeq]; exact hq
        have hs : s₁ = s := hps' ▸ hps
        by_cases hdk2 : dk = dk₁
        · exact keyInB_iff.mpr ⟨(s₁, dset inner dk₁ X), self_mem_dset g s₁ _, hs,
            (dk₁, X), self_mem_dset inner dk₁ X, hdk2.symm⟩
        · exact keyInB_iff.mpr ⟨(s₁, dset inner dk₁ X), self_mem_dset g s₁ _, hs,
            q, mem_dset_of_ne hq' (by rw [hqd]; exact hdk2), hqd⟩
      · exact keyInB_iff.mpr ⟨p, mem_dset_of_ne hp hps', hps, q, hq, hqd⟩
    cases hdk : dget inner dk₁ with
    | none => rw [groupAdd_eq_some_none i hd hdk]; exact step [i]
    | some l => rw [groupAdd_eq_some_some i hd hdk]; exact step (l ++ [i])

theorem nodup_keys_groupAdd {g : Groups} (hnd : (g.map Prod.fst).Nodup)
    (s dk : String) (i : Nat) : ((groupAdd g s dk i).map Prod.fst).Nodup := by
  cases hd : dget g s with
  | none => rw [groupAdd_eq_none dk i hd]; exact nodup_keys_dset _ hnd
  | some inner =>
    cases hdk : dget inner dk with
    | none => rw [groupAdd_eq_some_none i hd hdk]; exact nodup_keys_dset _ hnd
    | some l => rw [groupAdd_eq_some_some i hd hdk]; exact nodup_keys_dset _ hnd

theorem buildGroups_fold_nodup (rows : List Row) (dateCol symCol : String) :
    ∀ (keyIdx : List Nat) (g0 : Groups), (g0.map Prod.fst).Nodup →
    ((keyIdx.foldl
      (fun g i =>
        match rows.get? i with
        | some row => groupAdd g (rowStr row symCol) (rowDateKey row dateCol) i
        | none => g)
      g0).map Prod.fst).Nodup := by
  intro keyIdx
  induction keyIdx with
  | nil => intro g0 h; exact h
  | cons j rest ih =>
    intro g0 h
    simp only [List.foldl_cons]
    apply ih
    cases rows.get? j with
    | some row => exact nodup_keys_groupAdd h _ _ _
    | none => exact h

theorem buildGroups_nodup (rows : List Row) (keyIdx : List Nat) (dateCol symCol : String) :
    ((buildGroups rows keyIdx dateCol symCol).map Prod.fst).Nodup :=
  buildGroups_fold_nodup rows dateCol symCol keyIdx [] (by simp)

/-- Every selected row's (symbol, date) key appears in the grouped request set
(source lines 138-149). -/
theorem keyInB_buildGroups (rows : List Row) (keyIdx : List Nat) (dateCol symCol : String)
    (i : Nat) (row : Row) (hi : i ∈ keyIdx) (hrow : rows.get? i = some row) :
    keyInB (buildGroups rows keyIdx dateCol symCol)
      (rowStr row symCol) (rowDateKey row dateCol) = true := by
  suffices h : ∀ (kx : List Nat) (g0 : Groups), (g0.map Prod.fst).Nodup →
      (keyInB g0 (rowStr row symCol) (rowDateKey row dateCol) = true ∨ i ∈ kx) →
      keyInB (kx.foldl
        (fun g i =>
          match rows.get? i with
          | some row => groupAdd g (rowStr row symCol) (rowDateKey row dateCol) i
          | none => g)
        g0) (rowStr row symCol) (rowDateKey row dateCol) = true by
    exact h keyIdx [] (by simp) (Or.inr hi)
  intro kx
  induction kx with
  | nil =>
    intro g0 _ h
    rcases h with h | h
    · exact h
    · simp at h
  | cons j rest ih =>
    intro g0 hnd h
    simp only [List.foldl_cons]
    have hnd1 : (((match rows.get? j with
        | some row => groupAdd g0 (rowStr row symCol) (rowDateKey row dateCol) j
        | none => g0) : Groups).map Prod.fst).Nodup := by
      cases rows.get? j with
      | some row => exact nodup_keys_groupAdd hnd _ _ _
      | none => exact hnd
    rcases h with h | h
    · apply ih _ hnd1
      left
      cases rows.get? j with
      | some row => exact keyInB_mono_groupAdd hnd h _ _ _
      | none => exact h
    · rcases List.mem_cons.mp h with h | h
      · subst h
        apply ih _ hnd1
        left
        rw [hrow]
        exact keyInB_groupAdd_self g0 _ _ _
      · exact ih _ hnd1 (Or.inr h)

theorem keyInB_delStep {g : Groups} {s dk s₁ dk₁ : String}
    (hnd : (g.map Prod.fst).Nodup) (hIn : keyInB g s dk = true)
    (hne : ¬(s₁ = s ∧ dk₁ = dk)) :
    keyInB (match dget g s₁ with
            | some inner => dset g s₁ (ddel inner dk₁)
            | none => g) s dk = true := by
  obtain ⟨p, hp, hps, q, hq, hqd⟩ := keyInB_iff.mp hIn
  cases hd : dget g s₁ with
  | none => exact hIn
  | some inner =>
    by_cases hps' : p.1 = s₁
    · have hpeq : dget g p.1 = some p.2 := dget_of_mem_nodup hnd hp
      rw [hps', hd] at hpeq
      injection hpeq with hpeq
      have hq' : q ∈ inner := by rw [hpeq]; exact hq
      have hs : s₁ = s := hps' ▸ hps
      have hdkne : dk₁ ≠ dk := fun hdk => hne ⟨hs, hdk⟩
      exact keyInB_iff.mpr ⟨(s₁, ddel inner dk₁), self_mem_dset g s₁ _, hs,
        q, mem_ddel_of_ne hq' (by rw [hqd]; exact fun hc => hdkne hc.symm), hqd⟩
    · exact keyInB_iff.mpr ⟨p, mem_dset_of_ne hp hps', hps, q, hq, hqd⟩

theorem nodup_keys_delStep {g : Groups} (hnd : (g.map Prod.fst).Nodup)
    (s₁ dk₁ : String) :
    (((match dget g s₁ with
       | some inner => dset g s₁ (ddel inner dk₁)
       | none => g) : Groups).map Prod.fst).Nodup := by
  cases dget g s₁ with
  | none => exact hnd
  | some inner => exact nodup_keys_dset _ hnd

/-- A key of the request set that is not targeted by any entry of the deletion
cache survives `delCached` (source lines 164-173). -/
theorem keyInB_delCached {g : Groups} {costs : Cache} {s dk : String}
    (hnd : (g.map Prod.fst).Nodup) (hIn : keyInB g s dk = true)
    (htargets : ∀ p ∈ costs, ∀ qq ∈ p.2, ¬(p.1 = s ∧ qq.1 = dk)) :
    keyInB (delCached g costs) s dk = true := by
  have inner_aux : ∀ (s₁ : String) (dd : List (String × Price)) (g : Groups),
      (g.map Prod.fst).Nodup → keyInB g s dk = true →
      (∀ qq ∈ dd, ¬(s₁ = s ∧ qq.1 = dk)) →
      ((dd.foldl (fun g q =>
          match dget g s₁ with
          | some inner => dset g s₁ (ddel inner q.1)
          | none => g) g).map Prod.fst).Nodup ∧
      keyInB (dd.foldl (fun g q =>
          match dget g s₁ with
          | some inner => dset g s₁ (ddel inner q.1)
          | none => g) g) s dk = true := by
    intro s₁ dd
    induction dd with
    | nil => intro g h1 h2 _; exact ⟨h1, h2⟩
    | cons qq rest ih =>
      intro g h1 h2 h3
      simp only [List.foldl_cons]
      apply ih
      · exact nodup_keys_delStep h1 s₁ qq.1
      · exact keyInB_delStep h1 h2 fun hc => h3 qq (by simp) ⟨hc.1, hc.2⟩
      · intro q hq
        exact h3 q (List.mem_cons_of_mem _ hq)
  suffices h : ∀ (cs : Cache) (g : Groups),
      (g.map Prod.fst).Nodup → keyInB g s dk = true →
      (∀ p ∈ cs, ∀ qq ∈ p.2, ¬(p.1 = s ∧ qq.1 = dk)) →
      ((cs.foldl (fun g p =>
          p.2.foldl (fun g q =>
            match dget g p.1 with
            | some inner => dset g p.1 (ddel inner q.1)
            | none => g) g) g).map Prod.fst).Nodup ∧
      keyInB (cs.foldl (fun g p =>
          p.2.foldl (fun g q =>
            match dget g p.1 with
            | some inner => dset g p.1 (ddel inner q.1)
            | none => g) g) g) s dk = true by
    exact (h costs g hnd hIn htargets).2
  intro cs
  induction cs with
  | nil => intro g h1 h2 _; exact ⟨h1, h2⟩
  | cons p rest ih =>
    intro g h1 h2 h3
    simp only [List.foldl_cons]
    have hstep := inner_aux p.1 p.2 g h1 h2 (fun qq hqq => h3 p (by simp) qq hqq)
    exact ih _ hstep.1 hstep.2 (fun p' hp' qq hqq => h3 p' (List.mem_cons_of_mem _ hp') qq hqq)

/-- Deletion only removes keys: a key of `delCached g costs` was a key of `g`. -/
theorem keyInB_delCached_sub {g : Groups} {costs : Cache} {s dk : String}
    (hIn : keyInB (delCached g costs) s dk = true) : keyInB g s dk = true := by
  have step_sub : ∀ (s₁ dk₁ : String) (g : Groups),
      keyInB (match dget g s₁ with
              | some inner => dset g s₁ (ddel inner dk₁)
              | none => g) s dk = true → keyInB g s dk = true := by
    intro s₁ dk₁ g h
    cases hd : dget g s₁ with
    | none => rw [hd] at h; exact h
    | some inner =>
      rw [hd] at h
      obtain ⟨p, hp, hps, q, hq, hqd⟩ := keyInB_iff.mp h
      rcases mem_dset hp with ⟨hp1, hp2⟩ | hp
      · rw [hp2] at hq
        exact keyInB_iff.mpr ⟨(s₁, inner), dget_mem hd, hp1 ▸ hps, q, mem_of_mem_ddel hq, hqd⟩
      · exact keyInB_iff.mpr ⟨p, hp, hps, q, hq, hqd⟩
  have inner_sub : ∀ (s₁ : String) (dd : List (String × Price)) (g : Groups),
      keyInB (dd.foldl (fun g q =>
          match dget g s₁ with
          | some inner => dset g s₁ (ddel inner q.1)
          | none => g) g) s dk = true → keyInB g s dk = true := by
    intro s₁ dd
    induction dd with
    | nil => intro g h; exact h
    | cons qq rest ih =>
      intro g h
      simp only [List.foldl_cons] at h
      exact step_sub s₁ qq.1 g (ih _ h)
  suffices h : ∀ (cs : Cache) (g : Groups),
      keyInB (cs.foldl (fun g p =>
          p.2.foldl (fun g q =>
            match dget g p.1 with
            | some inner => dset g p.1 (ddel inner q.1)
            | none => g) g) g) s dk = true → keyInB g s dk = true by
    exact h costs g hIn
  intro cs
  induction cs with
  | nil => intro g h; exact h
  | cons p rest ih =>
    intro g h
    simp only [List.foldl_cons] at h
    exact inner_sub p.1 p.2 g (ih _ h)

/-! ## Per-key behaviour of a whole resolution pass -/

/-- Per-key characterisation of the cache/fetch pipeline of one run
(phases 1-3 of `process_rows`, source lines 153-241): collect the cached
keys, delete them from the request set, run the fetch loop. -/
theorem fetch_run_costs (cgCfg : Registry) (net : Net) (groups : Groups) (cache0 : Cache)
    (stF : FetchSt) (hnd : (groups.map Prod.fst).Nodup)
    (hres : fetchAll net cgCfg (delCached groups (collectCached groups cache0))
      ⟨collectCached groups cache0, cache0, cache0, [], 0, 0⟩ = Except.ok stF)
    (s dk : String) :
    (∀ v, cacheGet cache0 s dk = some v → keyInB groups s dk = true →
      cacheGet stF.costs s dk = some v ∧ cacheGet stF.cache s dk = some v) ∧
    (keyInB groups s dk = false → cacheGet stF.costs s dk = none) ∧
    (cacheGet cache0 s dk = none → keyInB groups s dk = true →
      ((dget cgCfg s).isSome = true →
        ∃ v, cacheGet stF.costs s dk = some v ∧ cacheGet stF.cache s dk = some v) ∧
      (dget cgCfg s = none →
        cacheGet stF.costs s dk = some none ∧ cacheGet stF.cache s dk = none)) := by
  have spec := fetchAll_spec cgCfg net _ _ _ hres
  refine ⟨?_, ?_, ?_⟩
  · intro v hc0 hIn
    have h1 := (spec s dk).1 v hc0
    refine ⟨?_, h1.1⟩
    cases hIn1 : keyInB (delCached groups (collectCached groups cache0)) s dk with
    | true => exact h1.2 hIn1
    | false =>
      rw [((spec s dk).2.1 hIn1).1]
      show cacheGet (collectCached groups cache0) s dk = some v
      rw [collectCached_get]
      rw [if_pos ⟨hIn, by unfold cacheMem; rw [hc0]; rfl⟩]
      exact hc0
  · intro hNot
    have hIn1 : keyInB (delCached groups (collectCached groups cache0)) s dk = false := by
      cases h : keyInB (delCached groups (collectCached groups cache0)) s dk with
      | false => rfl
      | true =>
        rw [keyInB_delCached_sub h] at hNot
        exact absurd hNot (by simp)
    rw [((spec s dk).2.1 hIn1).1]
    show cacheGet (collectCached groups cache0) s dk = none
    rw [collectCached_get, if_neg]
    intro ⟨h1, _⟩
    rw [hNot] at h1
    exact absurd h1 (by simp)
  · intro hc0 hIn
    have htargets : ∀ p ∈ collectCached groups cache0,
        ∀ qq ∈ p.2, ¬(p.1 = s ∧ qq.1 = dk) := by
      intro p hp qq hqq hc
      have hent := collectCached_entries groups cache0 p hp qq hqq
      rw [hc.1, hc.2, hc0] at hent
      exact Option.noConfusion hent
    have hIn1 : keyInB (delCached groups (collectCached groups cache0)) s dk = true :=
      keyInB_delCached hnd hIn htargets
    exact (spec s dk).2.2 hc0 hIn1

theorem process_rows_ok_state (rows : List Row) (keyIdx : List Nat) (cgCfg chCfg : Registry)
    (dateCol symCol valCol : String) (simpHeaders : List String) (cache0 : Cache) (net : Net)
    (hnc : (process_rows rows keyIdx cgCfg chCfg dateCol symCol valCol simpHeaders
        cache0 net).outcome ≠ Outcome.caught) :
    ∃ stF, fetchAll net cgCfg
        (delCached (buildGroups rows keyIdx dateCol symCol)
          (collectCached (buildGroups rows keyIdx dateCol symCol) cache0))
        ⟨collectCached (buildGroups rows keyIdx dateCol symCol) cache0, cache0, cache0, [], 0, 0⟩
      = Except.ok stF ∧
    (process_rows rows keyIdx cgCfg chCfg dateCol symCol valCol simpHeaders
      cache0 net).costs = stF.costs ∧
    (process_rows rows keyIdx cgCfg chCfg dateCol symCol valCol simpHeaders
      cache0 net).cache = stF.cache := by
  cases hres : fetchAll net cgCfg
      (delCached (buildGroups rows keyIdx dateCol symCol)
        (collectCached (buildGroups rows keyIdx dateCol symCol) cache0))
      ⟨collectCached (buildGroups rows keyIdx dateCol symCol) cache0, cache0, cache0, [], 0, 0⟩ with
  | error stA =>
    exfalso
    apply hnc
    simp only [process_rows, hres]
  | ok stF =>
    refine ⟨stF, rfl, ?_, ?_⟩ <;>
    · simp only [process_rows, hres]
      by_cases hmc : (annotate rows keyIdx dateCol symCol valCol
          (write_coingecko_cache stF).costs).2.isEmpty
      · simp only [hmc, if_true]
        simp [write_coingecko_cache]
      · simp only [hmc, Bool.false_eq_true, if_false]
        cases hch : (annotate rows keyIdx dateCol symCol valCol
              (write_coingecko_cache stF).costs).2.foldlM (coinhallOne net chCfg)
            (⟨[], [], (write_coingecko_cache stF).events, 0⟩ : ChSt) with
        | ok stC => simp [write_coingecko_cache]
        | error ab =>
          cases ab with
          | exited stC => simp [write_coingecko_cache]
          | crashed stC => simp [write_coingecko_cache]

/-- Per-key characterisation of the cost map and final cache of any
resolution pass that got past the fetch phase: cached selected keys are
served from the cache, unselected keys get no cost entry, and uncached
selected keys are fetched (primary mapping) or end with a null cost (no
mapping). -/
theorem process_rows_costs (rows : List Row) (keyIdx : List Nat) (cgCfg chCfg : Registry)
    (dateCol symCol valCol : String) (simpHeaders : List String) (cache0 : Cache) (net : Net)
    (hnc : (process_rows rows keyIdx cgCfg chCfg dateCol symCol valCol simpHeaders
        cache0 net).outcome ≠ Outcome.caught)
    (s dk : String) :
    (∀ v, cacheGet cache0 s dk = some v →
      keyInB (buildGroups rows keyIdx dateCol symCol) s dk = true →
      cacheGet (process_rows rows keyIdx cgCfg chCfg dateCol symCol valCol simpHeaders
        cache0 net).costs s dk = some v ∧
      cacheGet (process_rows rows keyIdx cgCfg chCfg dateCol symCol valCol simpHeaders
        cache0 net).cache s dk = some v) ∧
    (keyInB (buildGroups rows keyIdx dateCol symCol) s dk = false →
      cacheGet (process_rows rows keyIdx cgCfg chCfg dateCol symCol valCol simpHeaders
        cache0 net).costs s dk = none) ∧
    (cacheGet cache0 s dk = none →
      keyInB (buildGroups rows keyIdx dateCol symCol) s dk = true →
      ((dget cgCfg s).isSome = true →
        ∃ v, cacheGet (process_rows rows keyIdx cgCfg chCfg dateCol symCol valCol simpHeaders
          cache0 net).costs s dk = some v ∧
        cacheGet (process_rows rows keyIdx cgCfg chCfg dateCol symCol valCol simpHeaders
          cache0 net).cache s dk = some v) ∧
      (dget cgCfg s = none →
        cacheGet (process_rows rows keyIdx cgCfg chCfg dateCol symCol valCol simpHeaders
          cache0 net).costs s dk = some none ∧
        cacheGet (process_rows rows keyIdx cgCfg chCfg dateCol symCol valCol simpHeaders
          cache0 net).cache s dk = none)) := by
  obtain ⟨stF, hres, hco, hca⟩ := process_rows_ok_state rows keyIdx cgCfg chCfg dateCol symCol
    valCol simpHeaders cache0 net hnc
  have h := fetch_run_costs cgCfg net (buildGroups rows keyIdx dateCol symCol) cache0 stF
    (buildGroups_nodup rows keyIdx dateCol symCol) hres s dk
  refine ⟨?_, ?_, ?_⟩
  · intro v hc0 hIn
    obtain ⟨h1, h2⟩ := h.1 v hc0 hIn
    exact ⟨by rw [hco]; exact h1, by rw [hca]; exact h2⟩
  · intro hNot
    rw [hco]
    exact h.2.1 hNot
  · intro hc0 hIn
    have h3 := h.2.2 hc0 hIn
    constructor
    · intro hmap
      obtain ⟨v, hv1, hv2⟩ := h3.1 hmap
      exact ⟨v, by rw [hco]; exact hv1, by rw [hca]; exact hv2⟩
    · intro hnone
      obtain ⟨h4, h5⟩ := h3.2 hnone
      exact ⟨by rw [hco]; exact h4, by rw [hca]; exact h5⟩

/-- A date fold over keys that are each cached or whose symbol has no
primary mapping issues no request, writes nothing to the cache and
touches neither the trace nor the counters (source lines 185-190). -/
theorem fetchDates_noop (net : Net) (url : Option String) (s : String) :
    ∀ (dd : List (String × List Nat)) (st : FetchSt),
    (∀ q ∈ dd, cacheMem st.cache s q.1 = true ∨ url = none) →
    ∃ st', dd.foldlM (fetchDate net url s) st = Except.ok st' ∧
      st'.cache = st.cache ∧ st'.cacheFile = st.cacheFile ∧ st'.events = st.events ∧
      st'.pCount = st.pCount ∧ st'.madeCtr = st.madeCtr := by
  intro dd
  induction dd with
  | nil => intro st _; exact ⟨st, rfl, rfl, rfl, rfl, rfl, rfl⟩
  | cons q dd ih =>
    intro st h
    have hstep : ∃ st1, fetchDate net url s st q = Except.ok st1 ∧ st1.cache = st.cache ∧
        st1.cacheFile = st.cacheFile ∧ st1.events = st.events ∧ st1.pCount = st.pCount ∧
        st1.madeCtr = st.madeCtr := by
      by_cases hm : cacheMem st.cache s q.1
      · refine ⟨{ st with costs := cachePut st.costs s q.1 ((cacheGet st.cache s q.1).getD none) },
          ?_, rfl, rfl, rfl, rfl, rfl⟩
        unfold fetchDate
        simp only [hm, if_true]
      · have hu : url = none := by
          rcases h q (by simp) with hm' | hu
          · exact absurd hm' hm
          · exact hu
        subst hu
        refine ⟨{ st with costs := cachePut st.costs s q.1 none }, ?_, rfl, rfl, rfl, rfl, rfl⟩
        unfold fetchDate
        simp only [hm, if_false, Bool.false_eq_true]
    obtain ⟨st1, heq, hc, hf, he, hp, hmc⟩ := hstep
    rw [List.foldlM_cons, heq]
    have hbind : (Except.ok st1 >>= fun st1 => dd.foldlM (fetchDate net url s) st1 :
        Except FetchSt FetchSt) = dd.foldlM (fetchDate net url s) st1 := rfl
    rw [hbind]
    obtain ⟨st', hres, hc', hf', he', hp', hm'⟩ := ih st1
      (by intro q' hq'; rw [hc]; exact h q' (List.mem_cons_of_mem _ hq'))
    exact ⟨st', hres, by rw [hc', hc], by rw [hf', hf], by rw [he', he],
      by rw [hp', hp], by rw [hm', hmc]⟩

/-- A fetch pass over a request set every key of which is either already
cached or primary-unmapped performs no provider request at all: the cache,
the cache file and the trace come out exactly as they went in. -/
theorem fetchAll_noop (net : Net) (cgCfg : Registry) :
    ∀ (g : Groups) (st : FetchSt),
    (∀ p ∈ g, ∀ q ∈ p.2, cacheMem st.cache p.1 q.1 = true ∨
      get_coingecko_request_url p.1 cgCfg = none) →
    ∃ st', fetchAll net cgCfg g st = Except.ok st' ∧ st'.cache = st.cache ∧
      st'.cacheFile = st.cacheFile ∧ st'.events = st.events ∧
      st'.pCount = st.pCount ∧ st'.madeCtr = st.madeCtr := by
  intro g
  induction g with
  | nil => intro st _; exact ⟨st, rfl, rfl, rfl, rfl, rfl, rfl⟩
  | cons p g ih =>
    intro st h
    have hsymEx : ∃ st2, fetchSymbol net cgCfg st p = Except.ok st2 ∧ st2.cache = st.cache ∧
        st2.cacheFile = st.cacheFile ∧ st2.events = st.events ∧ st2.pCount = st.pCount ∧
        st2.madeCtr = st.madeCtr := by
      by_cases hd : dmem st.costs p.1
      · obtain ⟨st2, hres2, hc, hf, he, hp, hmm⟩ := fetchDates_noop net
          (get_coingecko_request_url p.1 cgCfg) p.1 p.2 st (fun q hq => h p (by simp) q hq)
        exact ⟨st2, by unfold fetchSymbol; rw [if_pos hd]; exact hres2, hc, hf, he, hp, hmm⟩
      · obtain ⟨st2, hres2, hc, hf, he, hp, hmm⟩ := fetchDates_noop net
          (get_coingecko_request_url p.1 cgCfg) p.1 p.2 { st with costs := dset st.costs p.1 [] }
          (fun q hq => h p (by simp) q hq)
        exact ⟨st2, by unfold fetchSymbol; rw [if_neg hd]; exact hres2, hc, hf, he, hp, hmm⟩
    obtain ⟨st2, hsym, h2c, h2f, h2e, h2p, h2m⟩ := hsymEx
    obtain ⟨st', hres, hc', hf', he', hp', hm'⟩ := ih st2
      (by intro p' hp' q hq; rw [h2c]; exact h p' (List.mem_cons_of_mem _ hp') q hq)
    refine ⟨st', ?_, by rw [hc', h2c], by rw [hf', h2f], by rw [he', h2e],
      by rw [hp', h2p], by rw [hm', h2m]⟩
    unfold fetchAll
    rw [List.foldlM_cons, hsym]
    exact hres

/-- `annotate` reads the cost map only through `cacheGet`, so two cost
maps that agree pointwise annotate identically. -/
theorem annotate_congr (rows : List Row) (keyIdx : List Nat)
    (dateCol symCol valCol : String) {c1 c2 : Cache}
    (h : ∀ a b, cacheGet c1 a b = cacheGet c2 a b) :
    annotate rows keyIdx dateCol symCol valCol c1 =
    annotate rows keyIdx dateCol symCol valCol c2 := by
  have hone : ∀ (acc : List Row × List Miss) (i : Nat),
      annotateOne dateCol symCol valCol c1 acc i = annotateOne dateCol symCol valCol c2 acc i := by
    intro acc i
    simp only [annotateOne, h]
  unfold annotate
  suffices hfold : ∀ (kx : List Nat) (acc : List Row × List Miss),
      kx.foldl (annotateOne dateCol symCol valCol c1) acc =
      kx.foldl (annotateOne dateCol symCol valCol c2) acc by
    exact hfold keyIdx (rows, [])
  intro kx
  induction kx with
  | nil => intro acc; rfl
  | cons j rest ihk =>
    intro acc
    simp only [List.foldl_cons, hone]
    exact ihk _

/-! ## Per-row behaviour of the annotation and fill-in phases -/

theorem annotateOne_fst_shape (dateCol symCol valCol : String) (c : Cache)
    (acc : List Row × List Miss) (j : Nat) :
    (annotateOne dateCol symCol valCol c acc j).1 = acc.1 ∨
    ∃ row val, acc.1.get? j = some row ∧
      (annotateOne dateCol symCol valCol c acc j).1 =
        acc.1.set j (dset row "usdValue" val) := by
  cases hr : acc.1.get? j with
  | none => left; simp only [annotateOne, hr]
  | some row =>
    cases hcg : cacheGet c (rowStr row symCol) (rowDateKey row dateCol) with
    | none => left; simp only [annotateOne, hr, hcg]
    | some pp =>
      cases pp with
      | none => left; simp only [annotateOne, hr, hcg]
      | some p =>
        cases hv : dget row valCol with
        | none => left; simp only [annotateOne, hr, hcg, hv]
        | some val =>
          cases val with
          | num q =>
            right
            exact ⟨row, Value.num (qmul p q), rfl, by simp only [annotateOne, hr, hcg, hv]⟩
          | str s' => left; simp only [annotateOne, hr, hcg, hv]
          | date dd => left; simp only [annotateOne, hr, hcg, hv]
          | nil => left; simp only [annotateOne, hr, hcg, hv]

theorem annotateOne_snd_shape (dateCol symCol valCol : String) (c : Cache)
    (acc : List Row × List Miss) (j : Nat) :
    (annotateOne dateCol symCol valCol c acc j).2 = acc.2 ∨
    ∃ row, acc.1.get? j = some row ∧
      (annotateOne dateCol symCol valCol c acc j).2 =
        acc.2 ++ [(j, rowStr row symCol, rowDate row dateCol)] := by
  cases hr : acc.1.get? j with
  | none => left; simp only [annotateOne, hr]
  | some row =>
    cases hcg : cacheGet c (rowStr row symCol) (rowDateKey row dateCol) with
    | none => right; exact ⟨row, rfl, by simp only [annotateOne, hr, hcg]⟩
    | some pp =>
      cases pp with
      | none => right; exact ⟨row, rfl, by simp only [annotateOne, hr, hcg]⟩
      | some p =>
        cases hv : dget row valCol with
        | none => right; exact ⟨row, rfl, by simp only [annotateOne, hr, hcg, hv]⟩
        | some val =>
          cases val with
          | num q => left; simp only [annotateOne, hr, hcg, hv]
          | str s' => right; exact ⟨row, rfl, by simp only [annotateOne, hr, hcg, hv]⟩
          | date dd => right; exact ⟨row, rfl, by simp only [annotateOne, hr, hcg, hv]⟩
          | nil => right; exact ⟨row, rfl, by simp only [annotateOne, hr, hcg, hv]⟩

theorem annotate_fold_fst_not_mem (dateCol symCol valCol : String) (c : Cache) :
    ∀ (kx : List Nat) (acc : List Row × List Miss) (i : Nat), i ∉ kx →
    ((kx.foldl (annotateOne dateCol symCol valCol c) acc).1).get? i = acc.1.get? i := by
  intro kx
  induction kx with
  | nil => intro acc i _; rfl
  | cons j rest ih =>
    intro acc i hi
    have hij : j ≠ i := fun h => hi (h ▸ List.mem_cons_self j rest)
    have hrest : i ∉ rest := fun h => hi (List.mem_cons_of_mem _ h)
    rw [List.foldl_cons, ih _ i hrest]
    rcases annotateOne_fst_shape dateCol symCol valCol c acc j with h | ⟨row, val, _, h⟩
    · rw [h]
    · rw [h]
      exact List.get?_set_ne _ _ hij

theorem annotate_fold_snd (dateCol symCol valCol : String) (c : Cache) :
    ∀ (kx : List Nat) (acc : List Row × List Miss),
    ∃ t, (kx.foldl (annotateOne dateCol symCol valCol c) acc).2 = acc.2 ++ t ∧
      ∀ e ∈ t, e.1 ∈ kx := by
  intro kx
  induction kx with
  | nil => intro acc; exact ⟨[], by simp, by simp⟩
  | cons j rest ih =>
    intro acc
    rw [List.foldl_cons]
    obtain ⟨t', ht', hidx'⟩ := ih (annotateOne dateCol symCol valCol c acc j)
    rcases annotateOne_snd_shape dateCol symCol valCol c acc j with h | ⟨row, _, h⟩
    · refine ⟨t', by rw [ht', h], ?_⟩
      intro e he
      exact List.mem_cons_of_mem _ (hidx' e he)
    · refine ⟨(j, rowStr row symCol, rowDate row dateCol) :: t', ?_, ?_⟩
      · rw [ht', h, List.append_assoc]
        rfl
      · intro e he
        rcases List.mem_cons.mp he with he | he
        · rw [he]
          exact List.mem_cons_self j rest
        · exact List.mem_cons_of_mem _ (hidx' e he)

/-- A selected row whose key has a resolved price and whose value cell is
numeric gets `usdValue = cost * value` written onto it (source lines
248-251), and contributes no missing-coverage entry. -/
theorem annotate_hit (rows : List Row) (keyIdx : List Nat) (dateCol symCol valCol : String)
    (costs : Cache) (hnd : keyIdx.Nodup) (i : Nat) (row : Row) (p q : ℚ)
    (hi : i ∈ keyIdx) (hrow : rows.get? i = some row)
    (hc : cacheGet costs (rowStr row symCol) (rowDateKey row dateCol) = some (some p))
    (hq : dget row valCol = some (Value.num q)) :
    (annotate rows keyIdx dateCol symCol valCol costs).1.get? i =
      some (dset row "usdValue" (Value.num (qmul p q))) ∧
    ∀ e ∈ (annotate rows keyIdx dateCol symCol valCol costs).2, e.1 ≠ i := by
  obtain ⟨l1, l2, hsp⟩ := List.append_of_mem hi
  subst hsp
  rw [List.nodup_append] at hnd
  obtain ⟨hnd1, hnd2, hdisj⟩ := hnd
  have hi1 : i ∉ l1 := fun hmem => hdisj hmem (List.mem_cons_self i l2)
  have hi2 : i ∉ l2 := (List.nodup_cons.mp hnd2).1
  have hsplit : annotate rows (l1 ++ i :: l2) dateCol symCol valCol costs =
      l2.foldl (annotateOne dateCol symCol valCol costs)
        (annotateOne dateCol symCol valCol costs
          (l1.foldl (annotateOne dateCol symCol valCol costs) (rows, [])) i) := by
    unfold annotate
    rw [List.foldl_append, List.foldl_cons]
  have hg1 : (l1.foldl (annotateOne dateCol symCol valCol costs) (rows, [])).1.get? i =
      some row := by
    rw [annotate_fold_fst_not_mem dateCol symCol valCol costs l1 (rows, []) i hi1]
    exact hrow
  have hstep : annotateOne dateCol symCol valCol costs
      (l1.foldl (annotateOne dateCol symCol valCol costs) (rows, [])) i =
      ((l1.foldl (annotateOne dateCol symCol valCol costs) (rows, [])).1.set i
          (dset row "usdValue" (Value.num (qmul p q))),
        (l1.foldl (annotateOne dateCol symCol valCol costs) (rows, [])).2) := by
    simp only [annotateOne, hg1, hc, hq]
  rw [hsplit, hstep]
  constructor
  · rw [annotate_fold_fst_not_mem dateCol symCol valCol costs l2 _ i hi2]
    exact List.get?_set_eq_of_lt _ (List.get?_eq_some.mp hg1).1
  · intro e he
    obtain ⟨t2, ht2, hidx2⟩ := annotate_fold_snd dateCol symCol valCol costs l2
      ((l1.foldl (annotateOne dateCol symCol valCol costs) (rows, [])).1.set i
          (dset row "usdValue" (Value.num (qmul p q))),
        (l1.foldl (annotateOne dateCol symCol valCol costs) (rows, [])).2)
    rw [ht2] at he
    obtain ⟨t1, ht1, hidx1⟩ := annotate_fold_snd dateCol symCol valCol costs l1 (rows, [])
    rcases List.mem_append.mp he with he | he
    · rw [ht1] at he
      simp only [List.nil_append] at he
      exact fun hc => hi1 (hc ▸ hidx1 e he)
    · exact fun hc => hi2 (hc ▸ hidx2 e he)

/-- A selected row whose key has no usable cost (no entry, a null price,
or a non-numeric value cell) is left unchanged by the annotation phase and
is recorded once in `missing_coingecko_coverage` (source lines 252-257),
all other entries carrying other row indexes. -/
theorem annotate_miss (rows : List Row) (keyIdx : List Nat) (dateCol symCol valCol : String)
    (costs : Cache) (hnd : keyIdx.Nodup) (i : Nat) (row : Row)
    (hi : i ∈ keyIdx) (hrow : rows.get? i = some row)
    (hmiss : ∀ p q, ¬(cacheGet costs (rowStr row symCol) (rowDateKey row dateCol) =
      some (some p) ∧ dget row valCol = some (Value.num q))) :
    (annotate rows keyIdx dateCol symCol valCol costs).1.get? i = some row ∧
    ∃ A B, (annotate rows keyIdx dateCol symCol valCol costs).2 =
        A ++ (i, rowStr row symCol, rowDate row dateCol) :: B ∧
      (∀ e ∈ A, e.1 ≠ i) ∧ (∀ e ∈ B, e.1 ≠ i) := by
  obtain ⟨l1, l2, hsp⟩ := List.append_of_mem hi
  subst hsp
  rw [List.nodup_append] at hnd
  obtain ⟨hnd1, hnd2, hdisj⟩ := hnd
  have hi1 : i ∉ l1 := fun hmem => hdisj hmem (List.mem_cons_self i l2)
  have hi2 : i ∉ l2 := (List.nodup_cons.mp hnd2).1
  have hsplit : annotate rows (l1 ++ i :: l2) dateCol symCol valCol costs =
      l2.foldl (annotateOne dateCol symCol valCol costs)
        (annotateOne dateCol symCol valCol costs
          (l1.foldl (annotateOne dateCol symCol valCol costs) (rows, [])) i) := by
    unfold annotate
    rw [List.foldl_append, List.foldl_cons]
  have hg1 : (l1.foldl (annotateOne dateCol symCol valCol costs) (rows, [])).1.get? i =
      some row := by
    rw [annotate_fold_fst_not_mem dateCol symCol valCol costs l1 (rows, []) i hi1]
    exact hrow
  have hstep : annotateOne dateCol symCol valCol costs
      (l1.foldl (annotateOne dateCol symCol valCol costs) (rows, [])) i =
      ((l1.foldl (annotateOne dateCol symCol valCol costs) (rows, [])).1,
        (l1.foldl (annotateOne dateCol symCol valCol costs) (rows, [])).2 ++
          [(i, rowStr row symCol, rowDate row dateCol)]) := by
    cases hcg : cacheGet costs (rowStr row symCol) (rowDateKey row dateCol) with
    | none => simp only [annotateOne, hg1, hcg]
    | some pp =>
      cases pp with
      | none => simp only [annotateOne, hg1, hcg]
      | some p =>
        cases hv : dget row valCol with
        | none => simp only [annotateOne, hg1, hcg, hv]
        | some val =>
          cases val with
          | num q => exact absurd ⟨hcg, hv⟩ (hmiss p q)
          | str s' => simp only [annotateOne, hg1, hcg, hv]
          | date dd => simp only [annotateOne, hg1, hcg, hv]
          | nil => simp only [annotateOne, hg1, hcg, hv]
  rw [hsplit, hstep]
  constructor
  · rw [annotate_fold_fst_not_mem dateCol symCol valCol costs l2 _ i hi2]
    exact hg1
  · obtain ⟨t2, ht2, hidx2⟩ := annotate_fold_snd dateCol symCol valCol costs l2
      ((l1.foldl (annotateOne dateCol symCol valCol costs) (rows, [])).1,
        (l1.foldl (annotateOne dateCol symCol valCol costs) (rows, [])).2 ++
          [(i, rowStr row symCol, rowDate row dateCol)])
    obtain ⟨t1, ht1, hidx1⟩ := annotate_fold_snd dateCol symCol valCol costs l1 (rows, [])
    refine ⟨(l1.foldl (annotateOne dateCol symCol valCol costs) (rows, [])).2, t2, ?_, ?_, ?_⟩
    · rw [ht2, List.append_assoc]
      rfl
    · intro e he hce
      rw [ht1] at he
      simp only [List.nil_append] at he
      exact hi1 (hce ▸ hidx1 e he)
    · intro e he hce
      exact hi2 (hce ▸ hidx2 e he)

theorem zeroFill_not_mem (i : Nat) : ∀ (l : List Miss) (rows : List Row),
    (∀ e ∈ l, e.1 ≠ i) → (zeroFill rows l).get? i = rows.get? i := by
  intro l
  induction l with
  | nil => intro rows _; rfl
  | cons e l ih =>
    intro rows h
    have hcons : zeroFill rows (e :: l) =
        zeroFill (match rows.get? e.1 with
          | some row => rows.set e.1 (dset row "usdValue" (Value.num 0))
          | none => rows) l := rfl
    rw [hcons, ih _ (fun e' he' => h e' (List.mem_cons_of_mem _ he'))]
    cases hr : rows.get? e.1 with
    | none => rfl
    | some row => exact List.get?_set_ne _ _ (h e (List.mem_cons_self e l))

/-- The fill-in loop of source lines 294-300 writes `usdValue = 0` onto
the row of each uncovered entry. -/
theorem zeroFill_hit (i : Nat) (bc : String) (dd : Date) (A B : List Miss)
    (rows : List Row) (row : Row) (hrow : rows.get? i = some row)
    (hA : ∀ e ∈ A, e.1 ≠ i) (hB : ∀ e ∈ B, e.1 ≠ i) :
    (zeroFill rows (A ++ (i, bc, dd) :: B)).get? i =
      some (dset row "usdValue" (Value.num 0)) := by
  have hsplit : zeroFill rows (A ++ (i, bc, dd) :: B) =
      zeroFill (match (zeroFill rows A).get? i with
        | some row => (zeroFill rows A).set i (dset row "usdValue" (Value.num 0))
        | none => zeroFill rows A) B := by
    unfold zeroFill
    rw [List.foldl_append, List.foldl_cons]
  have hgA : (zeroFill rows A).get? i = some row := by
    rw [zeroFill_not_mem i A rows hA]
    exact hrow
  rw [hsplit, zeroFill_not_mem i B _ hB, hgA]
  exact List.get?_set_eq_of_lt _ (List.get?_eq_some.mp hgA).1

/-- The simplified summary row of an uncovered selected row carries the
fix-me comment (source lines 311-316). -/
theorem simplifyRow_uncovered (headers : List String) (missCh : List Miss)
    (rows : List Row) (i : Nat) (row : Row) (hrow : rows.get? i = some row)
    (hmem : ∃ e ∈ missCh, e.1 = i) :
    dget (simplifyRow headers missCh rows i) "comment" =
      some (Value.str "Not covered, fixme") := by
  have hfind : (missCh.find? fun e => e.1 == i).isSome = true := by
    rw [List.find?_isSome]
    obtain ⟨e, he, hei⟩ := hmem
    exact ⟨e, he, by simp [hei]⟩
  simp only [simplifyRow, hrow, hfind, if_true]
  exact dget_dset_self _ _ _

/-- The simplified summary row of a covered selected row carries an empty
comment. -/
theorem simplifyRow_covered (headers : List String) (missCh : List Miss)
    (rows : List Row) (i : Nat) (row : Row) (hrow : rows.get? i = some row)
    (hmem : ∀ e ∈ missCh, e.1 ≠ i) :
    dget (simplifyRow headers missCh rows i) "comment" = some (Value.str "") := by
  have hfind : (missCh.find? fun e => e.1 == i).isSome = false := by
    cases hf : missCh.find? fun e => e.1 == i with
    | none => rfl
    | some e =>
      have he := List.mem_of_find?_eq_some hf
      have hp := List.find?_some hf
      simp at hp
      exact absurd hp (hmem e he)
  simp only [simplifyRow, hrow, hfind, Bool.false_eq_true, if_false]
  exact dget_dset_self _ _ _

/-- The selected-row indexes of the `process` driver are distinct. -/
theorem keyIdx_nodup (rows : List Row) (dateCol : String) (yearFilter : Int) :
    (get_key_data_point_indexes rows dateCol yearFilter).Nodup := by
  unfold get_key_data_point_indexes
  have h1 : ((rows.enum.filter fun p => rowSelected dateCol yearFilter p.2).map
      Prod.fst).Sublist (rows.enum.map Prod.fst) :=
    List.Sublist.map _ (List.filter_sublist _)
  have h2 : (rows.enum.map Prod.fst) = List.range rows.length := List.enum_map_fst rows
  exact List.Nodup.sublist h1 (h2 ▸ List.nodup_range _)

/-- Structure of a completed resolution pass: the fetch loop succeeded,
the missing-coverage sets agree, the final rows are the annotated rows
with zeros filled in for the uncovered entries, and the summary is the
simplification of the final rows over the missing set. -/
theorem process_rows_completed (rows : List Row) (keyIdx : List Nat) (cgCfg chCfg : Registry)
    (dateCol symCol valCol : String) (simpHeaders : List String) (cache0 : Cache) (net : Net)
    (hdone : (process_rows rows keyIdx cgCfg chCfg dateCol symCol valCol simpHeaders
        cache0 net).outcome = Outcome.completed) :
    ∃ stF, fetchAll net cgCfg
        (delCached (buildGroups rows keyIdx dateCol symCol)
          (collectCached (buildGroups rows keyIdx dateCol symCol) cache0))
        ⟨collectCached (buildGroups rows keyIdx dateCol symCol) cache0, cache0, cache0, [], 0, 0⟩
      = Except.ok stF ∧
    (process_rows rows keyIdx cgCfg chCfg dateCol symCol valCol simpHeaders
      cache0 net).costs = stF.costs ∧
    (process_rows rows keyIdx cgCfg chCfg dateCol symCol valCol simpHeaders
      cache0 net).cache = stF.cache ∧
    (process_rows rows keyIdx cgCfg chCfg dateCol symCol valCol simpHeaders
      cache0 net).cacheFile = stF.cache ∧
    (process_rows rows keyIdx cgCfg chCfg dateCol symCol valCol simpHeaders
      cache0 net).missingCg =
      (annotate rows keyIdx dateCol symCol valCol stF.costs).2 ∧
    (process_rows rows keyIdx cgCfg chCfg dateCol symCol valCol simpHeaders
      cache0 net).missingCh =
      (annotate rows keyIdx dateCol symCol valCol stF.costs).2 ∧
    (process_rows rows keyIdx cgCfg chCfg dateCol symCol valCol simpHeaders
      cache0 net).rows =
      zeroFill (annotate rows keyIdx dateCol symCol valCol stF.costs).1
        (annotate rows keyIdx dateCol symCol valCol stF.costs).2 ∧
    (process_rows rows keyIdx cgCfg chCfg dateCol symCol valCol simpHeaders
      cache0 net).simplified =
      simplifyAll simpHeaders (annotate rows keyIdx dateCol symCol valCol stF.costs).2
        (process_rows rows keyIdx cgCfg chCfg dateCol symCol valCol simpHeaders
          cache0 net).rows keyIdx ∧
    (process_rows rows keyIdx cgCfg chCfg dateCol symCol valCol simpHeaders
      cache0 net).events = stF.events ++ [Ev.flush stF.cache] ∧
    (∀ e ∈ (annotate rows keyIdx dateCol symCol valCol stF.costs).2,
      dget chCfg e.2.1 = none) := by
  cases hres : fetchAll net cgCfg
      (delCached (buildGroups rows keyIdx dateCol symCol)
        (collectCached (buildGroups rows keyIdx dateCol symCol) cache0))
      ⟨collectCached (buildGroups rows keyIdx dateCol symCol) cache0, cache0, cache0, [], 0, 0⟩ with
  | error stA =>
    exfalso
    simp only [process_rows, hres] at hdone
    exact Outcome.noConfusion hdone
  | ok stF =>
    refine ⟨stF, rfl, ?_⟩
    by_cases hmc : (annotate rows keyIdx dateCol symCol valCol
        (write_coingecko_cache stF).costs).2.isEmpty
    · have hempty : (annotate rows keyIdx dateCol symCol valCol stF.costs).2 = [] := by
        rw [List.isEmpty_iff] at hmc
        exact hmc
      refine ⟨?_, ?_, ?_, ?_, ?_, ?_, ?_, ?_, ?_⟩ <;>
        first
        | (rw [hempty]; intro e he; simp at he)
        | (simp only [process_rows, hres, hmc, if_true, hempty, write_coingecko_cache]; rfl)
    · simp only [process_rows, hres, hmc, Bool.false_eq_true, if_false]
      cases hch2 : (annotate rows keyIdx dateCol symCol valCol
            (write_coingecko_cache stF).costs).2.foldlM (coinhallOne net chCfg)
          (⟨[], [], (write_coingecko_cache stF).events, 0⟩ : ChSt) with
      | error ab =>
        exfalso
        simp only [process_rows, hres, hmc, Bool.false_eq_true, if_false, hch2] at hdone
        cases ab with
        | exited stC => exact Outcome.noConfusion hdone
        | crashed stC => exact Outcome.noConfusion hdone
      | ok stC =>
        obtain ⟨hunm, hC⟩ := coinhall_complete net chCfg _ _ _ hch2
        have hunm' : ∀ e ∈ (annotate rows keyIdx dateCol symCol valCol stF.costs).2,
            dget chCfg e.2.1 = none := hunm
        simp only [hch2]
        rw [hC]
        refine ⟨rfl, rfl, rfl, rfl, ?_, ?_, ?_, ?_, hunm'⟩ <;>
          simp only [write_coingecko_cache, List.nil_append, applyChCosts, List.foldl_nil] <;>
          rfl

/-! ## Claim theorems -/

/-- C1: a (symbol, date) key already present in the cache at the start of
a resolution pass is never the subject of a primary-provider request
during that pass, and (when the pass gets past the fetch phase) a
selected cached key is served into the cost map straight from the cache
— even a key cached with a null price. -/
theorem c1_cached_keys_never_requeried (rows : List Row) (keyIdx : List Nat)
    (cgCfg chCfg : Registry) (dateCol symCol valCol : String) (simpHeaders : List String)
    (cache0 : Cache) (net : Net) :
    (∀ s dk, cacheMem cache0 s dk = true →
      Ev.pReq s dk ∉ (process_rows rows keyIdx cgCfg chCfg dateCol symCol valCol simpHeaders
        cache0 net).events) ∧
    (∀ s dk v, cacheGet cache0 s dk = some v →
      keyInB (buildGroups rows keyIdx dateCol symCol) s dk = true →
      (process_rows rows keyIdx cgCfg chCfg dateCol symCol valCol simpHeaders
        cache0 net).outcome ≠ Outcome.caught →
      cacheGet (process_rows rows keyIdx cgCfg chCfg dateCol symCol valCol simpHeaders
        cache0 net).costs s dk = some v) := by
  constructor
  · intro s dk hm hmem
    have h := process_rows_trace rows keyIdx cgCfg chCfg dateCol symCol valCol simpHeaders
      cache0 net
    have hnone := (h.1 s dk hmem).1
    unfold cacheMem at hm
    rw [hnone] at hm
    simp at hm
  · intro s dk v hv hIn hnc
    exact ((process_rows_costs rows keyIdx cgCfg chCfg dateCol symCol valCol simpHeaders
      cache0 net hnc s dk).1 v hv hIn).1

/-- C1 at a concrete run: a key cached (with price 5) before the pass gets
no primary request and is served from the cache. -/
theorem c1_cached_keys_never_requeried_witness :
    Ev.pReq "ZZZ" "01-03-2024" ∉ runPoison.events ∧
    cacheGet runPoison.costs "ZZZ" "01-03-2024" = some (some 5) :=
  ⟨(c1_cached_keys_never_requeried rowsOne
      (get_key_data_point_indexes rowsOne "timeExecuted" 2024) [] []
      "timeExecuted" "boughtCurrency" "boughtQuantity"
      ["timeExecuted", "boughtCurrency", "boughtQuantity", "usdValue"]
      cachePoison netErrS).1 "ZZZ" "01-03-2024" (by decide),
   (c1_cached_keys_never_requeried rowsOne
      (get_key_data_point_indexes rowsOne "timeExecuted" 2024) [] []
      "timeExecuted" "boughtCurrency" "boughtQuantity"
      ["timeExecuted", "boughtCurrency", "boughtQuantity", "usdValue"]
      cachePoison netErrS).2 "ZZZ" "01-03-2024" (some 5) (by decide) (by decide) (by decide)⟩

/-- C2: on a primary-provider rate-limit rejection (HTTP 429) the resolver
sleeps the long interval and retries the same request exactly once; if the
retry also fails (429 or any other failure), or the first failure is a
non-429 error, the resolution pass aborts with `CaughtError`, writing the
cache to its backing file first; at such an abort the file equals the
in-memory cache and contains every previously completed lookup. -/
theorem c2_rate_limit_retry_then_abort :
    (∀ (net : Net) (cg : Registry) (s u : String) (st : FetchSt) (q : String × List Nat),
      get_coingecko_request_url s cg = some u →
      cacheMem st.cache s q.1 = false →
      net.primary st.pCount = PrimaryResp.tooMany →
      (∀ usd, net.primary (st.pCount + 1) = PrimaryResp.ok usd →
        fetchDate net (get_coingecko_request_url s cg) s st q = Except.ok
          ⟨cachePut (cachePut st.costs s q.1 none) s q.1 usd,
            cachePut st.cache s q.1 usd, cachePut st.cache s q.1 usd,
            st.events ++ [Ev.pReq s q.1, Ev.sleep COIN_GECKO_THROTTLE_TIME, Ev.pReq s q.1,
              Ev.lookupDone s q.1 usd, Ev.flush (cachePut st.cache s q.1 usd), Ev.sleep 1],
            st.pCount + 2, 2⟩) ∧
      (net.primary (st.pCount + 1) = PrimaryResp.tooMany ∨
          net.primary (st.pCount + 1) = PrimaryResp.err →
        fetchDate net (get_coingecko_request_url s cg) s st q = Except.error
          ⟨cachePut st.costs s q.1 none, st.cache, st.cache,
            st.events ++ [Ev.pReq s q.1, Ev.sleep COIN_GECKO_THROTTLE_TIME, Ev.pReq s q.1,
              Ev.flush st.cache],
            st.pCount + 2, 1⟩)) ∧
    (∀ (net : Net) (cg : Registry) (s u : String) (st : FetchSt) (q : String × List Nat),
      get_coingecko_request_url s cg = some u →
      cacheMem st.cache s q.1 = false →
      net.primary st.pCount = PrimaryResp.err →
      fetchDate net (get_coingecko_request_url s cg) s st q = Except.error
        ⟨cachePut st.costs s q.1 none, st.cache, st.cache,
          st.events ++ [Ev.pReq s q.1, Ev.flush st.cache], st.pCount + 1, st.madeCtr⟩) ∧
    (∀ (rows : List Row) (keyIdx : List Nat) (cgCfg chCfg : Registry)
        (dateCol symCol valCol : String) (simpHeaders : List String) (cache0 : Cache)
        (net : Net),
      (process_rows rows keyIdx cgCfg chCfg dateCol symCol valCol simpHeaders
          cache0 net).outcome = Outcome.caught →
      (process_rows rows keyIdx cgCfg chCfg dateCol symCol valCol simpHeaders
          cache0 net).cacheFile =
        (process_rows rows keyIdx cgCfg chCfg dateCol symCol valCol simpHeaders
          cache0 net).cache ∧
      (∀ s dk v, Ev.lookupDone s dk v ∈
          (process_rows rows keyIdx cgCfg chCfg dateCol symCol valCol simpHeaders
            cache0 net).events →
        cacheGet (process_rows rows keyIdx cgCfg chCfg dateCol symCol valCol simpHeaders
          cache0 net).cacheFile s dk = some v)) := by
  refine ⟨?_, ?_, ?_⟩
  · intro net cg s u st q hurl hnm h1
    obtain ⟨cs, ca, cf, ev, pc, mc⟩ := st
    constructor
    · intro usd h2
      rw [hurl]
      simp only [fetchDate, hnm, Bool.false_eq_true, if_false]
      rw [h1, h2]
      simp [fetchOk_eq, COIN_GECKO_REQUEST_CHUNKS, List.append_assoc]
    · intro h2
      rw [hurl]
      simp only [fetchDate, hnm, Bool.false_eq_true, if_false]
      rw [h1]
      rcases h2 with h2 | h2 <;> rw [h2] <;>
        (simp [write_coingecko_cache, List.append_assoc]; try omega)
  · intro net cg s u st q hurl hnm h1
    obtain ⟨cs, ca, cf, ev, pc, mc⟩ := st
    rw [hurl]
    simp only [fetchDate, hnm, Bool.false_eq_true, if_false]
    rw [h1]
    simp [write_coingecko_cache, List.append_assoc]
  · intro rows keyIdx cgCfg chCfg dateCol symCol valCol simpHeaders cache0 net hc
    have h := process_rows_trace rows keyIdx cgCfg chCfg dateCol symCol valCol simpHeaders
      cache0 net
    have hfc := h.2.2.2.2.2.2 hc
    exact ⟨hfc, fun s dk v hmem => hfc ▸ h.2.2.1 s dk v hmem⟩

/-- C7: every completed primary lookup is written into the in-memory cache
under its (symbol, date) key, and the full cache is flushed to the backing
file before the next provider request is issued (`durOK` replays the trace
and checks exactly this). -/
theorem c7_lookup_cached_and_flushed_before_next_request (rows : List Row) (keyIdx : List Nat)
    (cgCfg chCfg : Registry) (dateCol symCol valCol : String) (simpHeaders : List String)
    (cache0 : Cache) (net : Net) :
    durOK cache0 (process_rows rows keyIdx cgCfg chCfg dateCol symCol valCol simpHeaders
      cache0 net).events = true ∧
    (∀ s dk v, Ev.lookupDone s dk v ∈
        (process_rows rows keyIdx cgCfg chCfg dateCol symCol valCol simpHeaders
          cache0 net).events →
      cacheGet (process_rows rows keyIdx cgCfg chCfg dateCol symCol valCol simpHeaders
        cache0 net).cache s dk = some v) := by
  have h := process_rows_trace rows keyIdx cgCfg chCfg dateCol symCol valCol simpHeaders
    cache0 net
  exact ⟨h.2.2.2.2.2.1, h.2.2.1⟩

/-- C7 at a concrete run: the trace is durable over the empty initial
file, and the completed ADA lookup is in the final cache. -/
theorem c7_lookup_cached_and_flushed_witness :
    durOK [] runS.events = true ∧
    cacheGet runS.cache "ADA" "01-03-2024" = some (some (mkRat 9 20)) :=
  ⟨(c7_lookup_cached_and_flushed_before_next_request rowsS
      (get_key_data_point_indexes rowsS "timeExecuted" 2024) cgS []
      "timeExecuted" "boughtCurrency" "boughtQuantity"
      ["timeExecuted", "boughtCurrency", "boughtQuantity", "usdValue"] [] netOkS).1,
   (c7_lookup_cached_and_flushed_before_next_request rowsS
      (get_key_data_point_indexes rowsS "timeExecuted" 2024) cgS []
      "timeExecuted" "boughtCurrency" "boughtQuantity"
      ["timeExecuted", "boughtCurrency", "boughtQuantity", "usdValue"] [] netOkS).2
      "ADA" "01-03-2024" (some (mkRat 9 20)) (by decide)⟩

/-- C2 at a concrete run: a [429, 429] primary response sequence makes the
resolver request, sleep 61, retry once and abort with the (empty) cache
flushed; at the aborted pass the cache file equals the in-memory cache. -/
theorem c2_rate_limit_retry_then_abort_witness :
    fetchDate net429S (get_coingecko_request_url "ADA" cgS) "ADA" ⟨[], [], [], [], 0, 0⟩
        ("01-03-2024", [0]) = Except.error
      ⟨cachePut [] "ADA" "01-03-2024" none, [], [],
        [Ev.pReq "ADA" "01-03-2024", Ev.sleep COIN_GECKO_THROTTLE_TIME,
         Ev.pReq "ADA" "01-03-2024", Ev.flush []], 2, 1⟩ ∧
    run429.cacheFile = run429.cache :=
  ⟨((c2_rate_limit_retry_then_abort.1 net429S cgS "ADA"
      "https://api.coingecko.com/api/v3/coins/cardano/history"
      ⟨[], [], [], [], 0, 0⟩ ("01-03-2024", [0])
      (by decide) (by decide) (by decide)).2 (Or.inl (by decide))),
   (c2_rate_limit_retry_then_abort.2.2 rowsOneAda
      (get_key_data_point_indexes rowsOneAda "timeExecuted" 2024) cgS []
      "timeExecuted" "boughtCurrency" "boughtQuantity"
      ["timeExecuted", "boughtCurrency", "boughtQuantity", "usdValue"] [] net429S
      (by decide)).1⟩

/-- C5: the source's row-by-row table computation equals the classic
minimum edit distance (unit-cost insertions, deletions, substitutions);
the spec's test values hold, and the distance is symmetric. -/
theorem c5_levenshtein_min_edit_distance :
    (∀ a b : List Char, levenshtein_dist_dp a b = editDist a b) ∧
    levenshtein_dist_dp "kitten".data "kitten".data = 0 ∧
    levenshtein_dist_dp "kitten".data "sitting".data = 3 ∧
    levenshtein_dist_dp "".data "abc".data = 3 ∧
    (∀ a b : List Char, levenshtein_dist_dp a b = levenshtein_dist_dp b a) :=
  ⟨dp_eq_editDist, by decide, by decide, by decide,
    fun a b => by rw [dp_eq_editDist, dp_eq_editDist, editDist_comm]⟩

/-- C8 (corrected): membership in the selected-row index set is exactly
`rowSelected`, whose symbol-column conjunct reads the fixed column name
`boughtCurrency` — not the configured symbol column the spec describes. -/
theorem c8_selection_reads_hardcoded_column (rows : List Row) (dateCol : String)
    (yearFilter : Int) (i : Nat) :
    i ∈ get_key_data_point_indexes rows dateCol yearFilter ↔
    ∃ row, rows.get? i = some row ∧ rowSelected dateCol yearFilter row = true := by
  unfold get_key_data_point_indexes
  constructor
  · intro h
    obtain ⟨⟨j, row⟩, hmem, hj⟩ := List.mem_map.mp h
    obtain ⟨henum, hsel⟩ := List.mem_filter.mp hmem
    refine ⟨row, ?_, by simpa using hsel⟩
    rw [List.mk_mem_enum_iff_getElem?] at henum
    rw [List.get?_eq_getElem?]
    simp only at hj
    rw [← hj]
    exact henum
  · rintro ⟨row, hrow, hsel⟩
    apply List.mem_map.mpr
    refine ⟨(i, row), List.mem_filter.mpr ⟨?_, by simpa using hsel⟩, rfl⟩
    rw [List.mk_mem_enum_iff_getElem?]
    rw [List.get?_eq_getElem?] at hrow
    exact hrow

/-- C8 counterexample: a row whose configured symbol column (`sym`) is
non-empty — selected according to the spec's wording — is not selected by
the code, because its `boughtCurrency` cell is empty. -/
theorem c8_configured_symbol_column_counterexample :
    rowSelectedSpec "timeExecuted" "sym" 2022 rowC8 = true ∧
    truthy (dget rowC8 "sym") = true ∧
    rowSelected "timeExecuted" 2022 rowC8 = false ∧
    get_key_data_point_indexes [rowC8] "timeExecuted" 2022 = [] := by decide

/-- C10 (corrected): the in-memory cache only ever holds initial-cache
entries and completed primary lookups — secondary (Coinhall) results are
never written to it; and whenever the fallback loop reaches a key whose
symbol has a secondary mapping it issues a fresh secondary request and
then aborts the pass (exit or crash), so such a key can never be served
from the cache in any later run.  But a primary-unpriced key *without* a
secondary mapping triggers no secondary request at all (see the
counterexample), contrary to the claim's "every key". -/
theorem c10_secondary_results_never_cached (rows : List Row) (keyIdx : List Nat)
    (cgCfg chCfg : Registry) (dateCol symCol valCol : String) (simpHeaders : List String)
    (cache0 : Cache) (net : Net) :
    (∀ s dk v, cacheGet (process_rows rows keyIdx cgCfg chCfg dateCol symCol valCol simpHeaders
        cache0 net).cache s dk = some v →
      cacheGet cache0 s dk = some v ∨
      Ev.lookupDone s dk v ∈ (process_rows rows keyIdx cgCfg chCfg dateCol symCol valCol
        simpHeaders cache0 net).events) ∧
    (∀ (net' : Net) (chCfg' : Registry) (st : ChSt) (e : Miss) (u : String),
      get_coinhall_request_url e.2.1 chCfg' = some u →
      ∃ stA : ChSt, (coinhallOne net' chCfg' st e = Except.error (ChAbort.exited stA) ∨
        coinhallOne net' chCfg' st e = Except.error (ChAbort.crashed stA)) ∧
        Ev.sReq e.2.1 (fmtDate e.2.2) ∈ stA.events) := by
  constructor
  · intro s dk v hv
    exact (process_rows_trace rows keyIdx cgCfg chCfg dateCol symCol valCol simpHeaders
      cache0 net).2.2.2.1 s dk v hv
  · intro net' chCfg' st e u hurl
    refine ⟨{ st with
        events := st.events ++ (make_coinhall_api_request net' st.sCount e.2.1 (fmtDate e.2.2)).1,
        sCount := (make_coinhall_api_request net' st.sCount e.2.1 (fmtDate e.2.2)).2.1 },
      ?_, ?_⟩
    · have heq : coinhallOne net' chCfg' st e =
          (match (make_coinhall_api_request net' st.sCount e.2.1 (fmtDate e.2.2)).2.2 with
           | ChCall.exited => Except.error (ChAbort.exited { st with
               events := st.events ++
                 (make_coinhall_api_request net' st.sCount e.2.1 (fmtDate e.2.2)).1,
               sCount := (make_coinhall_api_request net' st.sCount e.2.1 (fmtDate e.2.2)).2.1 })
           | ChCall.returnedNone => Except.error (ChAbort.crashed { st with
               events := st.events ++
                 (make_coinhall_api_request net' st.sCount e.2.1 (fmtDate e.2.2)).1,
               sCount := (make_coinhall_api_request net' st.sCount e.2.1 (fmtDate e.2.2)).2.1 })) := by
        unfold coinhallOne
        rw [hurl]
      cases hcall : (make_coinhall_api_request net' st.sCount e.2.1 (fmtDate e.2.2)).2.2 with
      | exited => exact Or.inl (by rw [heq, hcall])
      | returnedNone => exact Or.inr (by rw [heq, hcall])
    · have hsreq : Ev.sReq e.2.1 (fmtDate e.2.2) ∈
          (make_coinhall_api_request net' st.sCount e.2.1 (fmtDate e.2.2)).1 := by
        unfold make_coinhall_api_request
        cases net'.secondary st.sCount with
        | ok d => simp
        | err => simp
        | tooMany =>
          cases net'.secondary (st.sCount + 1) with
          | ok d => simp
          | err => simp
          | tooMany => simp
      exact List.mem_append_right _ hsreq

/-- C10 at concrete inputs: a cached final price traces back to a primary
lookup, and a secondary-mapped missing key makes the fallback loop issue a
secondary request and abort. -/
theorem c10_secondary_results_never_cached_witness :
    (cacheGet [] "ADA" "01-03-2024" = some (some (mkRat 9 20)) ∨
      Ev.lookupDone "ADA" "01-03-2024" (some (mkRat 9 20)) ∈ runS.events) ∧
    ∃ stA : ChSt,
      (coinhallOne netErrS [("TKN", ⟨"t", "t", "T"⟩)] ⟨[], [], [], 0⟩ (0, "TKN", ⟨2024, 3, 1⟩) =
          Except.error (ChAbort.exited stA) ∨
        coinhallOne netErrS [("TKN", ⟨"t", "t", "T"⟩)] ⟨[], [], [], 0⟩ (0, "TKN", ⟨2024, 3, 1⟩) =
          Except.error (ChAbort.crashed stA)) ∧
      Ev.sReq "TKN" (fmtDate ⟨2024, 3, 1⟩) ∈ stA.events :=
  ⟨(c10_secondary_results_never_cached rowsS
      (get_key_data_point_indexes rowsS "timeExecuted" 2024) cgS []
      "timeExecuted" "boughtCurrency" "boughtQuantity"
      ["timeExecuted", "boughtCurrency", "boughtQuantity", "usdValue"] [] netOkS).1
      "ADA" "01-03-2024" (some (mkRat 9 20)) (by decide),
   (c10_secondary_results_never_cached rowsS
      (get_key_data_point_indexes rowsS "timeExecuted" 2024) cgS []
      "timeExecuted" "boughtCurrency" "boughtQuantity"
      ["timeExecuted", "boughtCurrency", "boughtQuantity", "usdValue"] [] netOkS).2
      netErrS [("TKN", ⟨"t", "t", "T"⟩)] ⟨[], [], [], 0⟩ (0, "TKN", ⟨2024, 3, 1⟩)
      (COINHALL_API_URL ++ COINHALL_CHART_ENDPOINT) (by decide)⟩

/-- C6 (corrected): a *not-yet-cached* selected row whose symbol is
unmapped in both registries gets no provider request for its symbol, ends
with `usdValue = 0` written onto the row, and appears in the uncovered
set of a completed pass.  (Without the not-cached hypothesis the claim is
false — see the counterexample: a cached price for a both-unmapped symbol
is used as a valuation.) -/
theorem c6_both_unmapped_zero_and_uncovered (rows : List Row) (keyIdx : List Nat)
    (cgCfg chCfg : Registry) (dateCol symCol valCol : String) (simpHeaders : List String)
    (cache0 : Cache) (net : Net) (hnd : keyIdx.Nodup) (i : Nat) (row : Row)
    (hi : i ∈ keyIdx) (hrow : rows.get? i = some row)
    (hcg : dget cgCfg (rowStr row symCol) = none)
    (hch : dget chCfg (rowStr row symCol) = none)
    (hc0 : cacheGet cache0 (rowStr row symCol) (rowDateKey row dateCol) = none)
    (hdone : (process_rows rows keyIdx cgCfg chCfg dateCol symCol valCol simpHeaders
      cache0 net).outcome = Outcome.completed) :
    (∃ A B, (process_rows rows keyIdx cgCfg chCfg dateCol symCol valCol simpHeaders
        cache0 net).missingCh =
      A ++ (i, rowStr row symCol, rowDate row dateCol) :: B) ∧
    (process_rows rows keyIdx cgCfg chCfg dateCol symCol valCol simpHeaders
      cache0 net).rows.get? i = some (dset row "usdValue" (Value.num 0)) ∧
    (∀ dk, Ev.pReq (rowStr row symCol) dk ∉
      (process_rows rows keyIdx cgCfg chCfg dateCol symCol valCol simpHeaders
        cache0 net).events) ∧
    (∀ dk, Ev.sReq (rowStr row symCol) dk ∉
      (process_rows rows keyIdx cgCfg chCfg dateCol symCol valCol simpHeaders
        cache0 net).events) := by
  obtain ⟨stF, hres, hco, hca, hcf, hmcg, hmch, hrows, hsimp, hev, hunm⟩ :=
    process_rows_completed rows keyIdx cgCfg chCfg dateCol symCol valCol simpHeaders
      cache0 net hdone
  have hIn := keyInB_buildGroups rows keyIdx dateCol symCol i row hi hrow
  have hkey := (fetch_run_costs cgCfg net (buildGroups rows keyIdx dateCol symCol) cache0 stF
    (buildGroups_nodup rows keyIdx dateCol symCol) hres
    (rowStr row symCol) (rowDateKey row dateCol)).2.2 hc0 hIn
  obtain ⟨hcost, -⟩ := hkey.2 hcg
  have hmiss : ∀ p q, ¬(cacheGet stF.costs (rowStr row symCol) (rowDateKey row dateCol) =
      some (some p) ∧ dget row valCol = some (Value.num q)) := by
    intro p q h
    have h1 := hcost.symm.trans h.1
    exact Option.noConfusion (Option.some.inj h1)
  obtain ⟨hann1, A, B, hsplit, hA, hB⟩ := annotate_miss rows keyIdx dateCol symCol valCol
    stF.costs hnd i row hi hrow hmiss
  refine ⟨⟨A, B, by rw [hmch, hsplit]⟩, ?_, ?_, ?_⟩
  · rw [hrows, hsplit]
    exact zeroFill_hit i _ _ A B _ row hann1 hA hB
  · intro dk hmem
    have h := process_rows_trace rows keyIdx cgCfg chCfg dateCol symCol valCol simpHeaders
      cache0 net
    have h2 := (h.1 _ _ hmem).2
    rw [hcg] at h2
    simp at h2
  · intro dk hmem
    have h := process_rows_trace rows keyIdx cgCfg chCfg dateCol symCol valCol simpHeaders
      cache0 net
    have h2 := h.2.1 _ _ hmem
    rw [hch] at h2
    simp at h2

/-- C6 counterexample: the symbol ZZZ is unmapped in both (empty)
registries, yet the run completes with `usdValue = 10` (price 5 poisoned
into the cache times quantity 2) and the key in no uncovered set. -/
theorem c6_cached_unmapped_counterexample :
    dget ([] : Registry) "ZZZ" = none ∧
    runPoison.outcome = Outcome.completed ∧
    (runPoison.rows.get? 0).map (fun r => dget r "usdValue") =
      some (some (Value.num 10)) ∧
    runPoison.missingCg = [] ∧
    runPoison.missingCh = [] := by decide

/-- C6 at a concrete run: uncached both-unmapped ZZZ row ends uncovered
with a zero valuation. -/
theorem c6_both_unmapped_witness :
    (∃ A B, runUncov.missingCh =
      A ++ (0, rowStr rowOne "boughtCurrency", rowDate rowOne "timeExecuted") :: B) ∧
    runUncov.rows.get? 0 = some (dset rowOne "usdValue" (Value.num 0)) :=
  ⟨(c6_both_unmapped_zero_and_uncovered rowsOne
      (get_key_data_point_indexes rowsOne "timeExecuted" 2024) [] []
      "timeExecuted" "boughtCurrency" "boughtQuantity"
      ["timeExecuted", "boughtCurrency", "boughtQuantity", "usdValue"] [] netErrS
      (by decide) 0 rowOne (by decide) (by decide) (by decide) (by decide) (by decide)
      (by decide)).1,
   (c6_both_unmapped_zero_and_uncovered rowsOne
      (get_key_data_point_indexes rowsOne "timeExecuted" 2024) [] []
      "timeExecuted" "boughtCurrency" "boughtQuantity"
      ["timeExecuted", "boughtCurrency", "boughtQuantity", "usdValue"] [] netErrS
      (by decide) 0 rowOne (by decide) (by decide) (by decide) (by decide) (by decide)
      (by decide)).2.1⟩

/-- C9 (corrected): an uncovered selected row of a completed pass is
mutated to carry `usdValue = 0` but no `comment` field — the fix-me
comment is written only on the corresponding row of the simplified
summary. -/
theorem c9_comment_only_on_summary_row (rows : List Row) (keyIdx : List Nat)
    (cgCfg chCfg : Registry) (dateCol symCol valCol : String) (simpHeaders : List String)
    (cache0 : Cache) (net : Net) (hnd : keyIdx.Nodup) (i : Nat) (row : Row)
    (hi : i ∈ keyIdx) (hrow : rows.get? i = some row)
    (hmiss : ∀ p q, ¬(cacheGet (process_rows rows keyIdx cgCfg chCfg dateCol symCol valCol
        simpHeaders cache0 net).costs (rowStr row symCol) (rowDateKey row dateCol) =
      some (some p) ∧ dget row valCol = some (Value.num q)))
    (hnocomment : dmem row "comment" = false)
    (hdone : (process_rows rows keyIdx cgCfg chCfg dateCol symCol valCol simpHeaders
      cache0 net).outcome = Outcome.completed) :
    (process_rows rows keyIdx cgCfg chCfg dateCol symCol valCol simpHeaders
      cache0 net).rows.get? i = some (dset row "usdValue" (Value.num 0)) ∧
    dmem (dset row "usdValue" (Value.num 0)) "comment" = false ∧
    simplifyRow simpHeaders
      (process_rows rows keyIdx cgCfg chCfg dateCol symCol valCol simpHeaders
        cache0 net).missingCh
      (process_rows rows keyIdx cgCfg chCfg dateCol symCol valCol simpHeaders
        cache0 net).rows i ∈
      (process_rows rows keyIdx cgCfg chCfg dateCol symCol valCol simpHeaders
        cache0 net).simplified ∧
    dget (simplifyRow simpHeaders
      (process_rows rows keyIdx cgCfg chCfg dateCol symCol valCol simpHeaders
        cache0 net).missingCh
      (process_rows rows keyIdx cgCfg chCfg dateCol symCol valCol simpHeaders
        cache0 net).rows i) "comment" = some (Value.str "Not covered, fixme") := by
  obtain ⟨stF, hres, hco, hca, hcf, hmcg, hmch, hrows, hsimp, hev, hunm⟩ :=
    process_rows_completed rows keyIdx cgCfg chCfg dateCol symCol valCol simpHeaders
      cache0 net hdone
  rw [hco] at hmiss
  obtain ⟨hann1, A, B, hsplit, hA, hB⟩ := annotate_miss rows keyIdx dateCol symCol valCol
    stF.costs hnd i row hi hrow hmiss
  have hrowsi : (process_rows rows keyIdx cgCfg chCfg dateCol symCol valCol simpHeaders
      cache0 net).rows.get? i = some (dset row "usdValue" (Value.num 0)) := by
    rw [hrows, hsplit]
    exact zeroFill_hit i _ _ A B _ row hann1 hA hB
  refine ⟨hrowsi, ?_, ?_, ?_⟩
  · unfold dmem at hnocomment ⊢
    rw [dget_dset_ne _ _ _ _ (by decide : "comment" ≠ "usdValue")]
    exact hnocomment
  · rw [hmch, hsimp]
    unfold simplifyAll
    exact List.mem_map.mpr ⟨i, hi, rfl⟩
  · apply simplifyRow_uncovered simpHeaders _ _ i (dset row "usdValue" (Value.num 0)) hrowsi
    rw [hmch, hsplit]
    exact ⟨(i, rowStr row symCol, rowDate row dateCol),
      List.mem_append_right _ (List.mem_cons_self _ _), rfl⟩

/-- C9 counterexample: in the completed end-to-end run the uncovered ZZZ
transaction row is in the uncovered set yet carries no `comment` field at
all — the spec's "mutated in place to carry ... a comment field" is false
for the transaction rows. -/
theorem c9_no_comment_on_row_counterexample :
    runS.missingCh = [(1, "ZZZ", ⟨2024, 3, 1⟩)] ∧
    (runS.rows.get? 1).map (fun r => dmem r "comment") = some false ∧
    (runS.rows.get? 1).map (fun r => dget r "usdValue") = some (some (Value.num 0)) := by
  decide

/-- C9 at a concrete run: the uncovered ZZZ row gets `usdValue = 0` and no
comment; the fix-me comment sits on its simplified summary row. -/
theorem c9_comment_only_on_summary_witness :
    runS.rows.get? 1 = some (dset rowZzz "usdValue" (Value.num 0)) ∧
    dmem (dset rowZzz "usdValue" (Value.num 0)) "comment" = false ∧
    simplifyRow ["timeExecuted", "boughtCurrency", "boughtQuantity", "usdValue"]
      runS.missingCh runS.rows 1 ∈ runS.simplified ∧
    dget (simplifyRow ["timeExecuted", "boughtCurrency", "boughtQuantity", "usdValue"]
      runS.missingCh runS.rows 1) "comment" = some (Value.str "Not covered, fixme") :=
  c9_comment_only_on_summary_row rowsS
    (get_key_data_point_indexes rowsS "timeExecuted" 2024) cgS []
    "timeExecuted" "boughtCurrency" "boughtQuantity"
    ["timeExecuted", "boughtCurrency", "boughtQuantity", "usdValue"] [] netOkS
    (by decide) 1 rowZzz (by decide) (by decide)
    (by
      intro p q h
      have hval : cacheGet runS.costs (rowStr rowZzz "boughtCurrency")
          (rowDateKey rowZzz "timeExecuted") = some none := by decide
      have h1 := hval.symm.trans h.1
      exact Option.noConfusion (Option.some.inj h1))
    (by decide) (by decide)

/-- C3: on a completed pass, a selected row whose key resolved to a price
gets `usdValue = price * value` with the value taken verbatim from the
configured value column; and the spec's 3-row scenario produces
`usdValue = 4.50` for the ADA row, `usdValue = 0` plus the fix-me comment
for the ZZZ row, and a 2-row simplified summary without the trade row. -/
theorem c3_usd_value_is_price_times_quantity :
    (∀ (rows : List Row) (keyIdx : List Nat) (cgCfg chCfg : Registry)
        (dateCol symCol valCol : String) (simpHeaders : List String) (cache0 : Cache)
        (net : Net) (i : Nat) (row : Row) (p q : ℚ),
      keyIdx.Nodup → i ∈ keyIdx → rows.get? i = some row →
      (process_rows rows keyIdx cgCfg chCfg dateCol symCol valCol simpHeaders
        cache0 net).outcome = Outcome.completed →
      cacheGet (process_rows rows keyIdx cgCfg chCfg dateCol symCol valCol simpHeaders
        cache0 net).costs (rowStr row symCol) (rowDateKey row dateCol) = some (some p) →
      dget row valCol = some (Value.num q) →
      (process_rows rows keyIdx cgCfg chCfg dateCol symCol valCol simpHeaders
        cache0 net).rows.get? i = some (dset row "usdValue" (Value.num (p * q)))) ∧
    (runS.outcome = Outcome.completed ∧
     get_key_data_point_indexes rowsS "timeExecuted" 2024 = [0, 1] ∧
     (runS.rows.get? 0).map (fun r => dget r "usdValue") =
       some (some (Value.num (mkRat 9 2))) ∧
     (runS.rows.get? 1).map (fun r => dget r "usdValue") = some (some (Value.num 0)) ∧
     runS.simplified.length = 2 ∧
     (runS.simplified.get? 0).map (fun r => dget r "comment") =
       some (some (Value.str "")) ∧
     (runS.simplified.get? 1).map (fun r => dget r "comment") =
       some (some (Value.str "Not covered, fixme"))) := by
  constructor
  · intro rows keyIdx cgCfg chCfg dateCol symCol valCol simpHeaders cache0 net i row p q
      hnd hi hrow hdone hcost hq
    obtain ⟨stF, hres, hco, hca, hcf, hmcg, hmch, hrows, hsimp, hev, hunm⟩ :=
      process_rows_completed rows keyIdx cgCfg chCfg dateCol symCol valCol simpHeaders
        cache0 net hdone
    rw [hco] at hcost
    obtain ⟨hann1, hothers⟩ := annotate_hit rows keyIdx dateCol symCol valCol stF.costs
      hnd i row p q hi hrow hcost hq
    rw [hrows, zeroFill_not_mem i _ _ hothers, hann1, qmul_eq]
  · exact ⟨by decide, by decide, by decide, by decide, by decide, by decide, by decide⟩

/-- C3 at the scenario: the ADA row is annotated with `0.45 * 10`. -/
theorem c3_usd_value_witness :
    runS.rows.get? 0 = some (dset rowAda "usdValue" (Value.num (mkRat 9 20 * 10))) :=
  c3_usd_value_is_price_times_quantity.1 rowsS
    (get_key_data_point_indexes rowsS "timeExecuted" 2024) cgS []
    "timeExecuted" "boughtCurrency" "boughtQuantity"
    ["timeExecuted", "boughtCurrency", "boughtQuantity", "usdValue"] [] netOkS
    0 rowAda (mkRat 9 20) 10 (by decide) (by decide) (by decide) (by decide)
    (by decide) (by decide)

/-- C4: a second resolution pass over the same inputs, run against the
cache file left by a completed first pass and an arbitrary second oracle,
completes, reproduces the first pass's rows, summary, cache and cache
file exactly, and performs no provider request — its whole trace is the
single cache-file write. -/
theorem c4_second_run_idempotent (rows : List Row) (keyIdx : List Nat)
    (cgCfg chCfg : Registry) (dateCol symCol valCol : String) (simpHeaders : List String)
    (cache0 : Cache) (net net2 : Net)
    (hdone : (process_rows rows keyIdx cgCfg chCfg dateCol symCol valCol simpHeaders
      cache0 net).outcome = Outcome.completed) :
    (process_rows rows keyIdx cgCfg chCfg dateCol symCol valCol simpHeaders
      (process_rows rows keyIdx cgCfg chCfg dateCol symCol valCol simpHeaders
        cache0 net).cacheFile net2).outcome = Outcome.completed ∧
    (process_rows rows keyIdx cgCfg chCfg dateCol symCol valCol simpHeaders
      (process_rows rows keyIdx cgCfg chCfg dateCol symCol valCol simpHeaders
        cache0 net).cacheFile net2).rows =
      (process_rows rows keyIdx cgCfg chCfg dateCol symCol valCol simpHeaders
        cache0 net).rows ∧
    (process_rows rows keyIdx cgCfg chCfg dateCol symCol valCol simpHeaders
      (process_rows rows keyIdx cgCfg chCfg dateCol symCol valCol simpHeaders
        cache0 net).cacheFile net2).simplified =
      (process_rows rows keyIdx cgCfg chCfg dateCol symCol valCol simpHeaders
        cache0 net).simplified ∧
    (process_rows rows keyIdx cgCfg chCfg dateCol symCol valCol simpHeaders
      (process_rows rows keyIdx cgCfg chCfg dateCol symCol valCol simpHeaders
        cache0 net).cacheFile net2).cacheFile =
      (process_rows rows keyIdx cgCfg chCfg dateCol symCol valCol simpHeaders
        cache0 net).cacheFile ∧
    (process_rows rows keyIdx cgCfg chCfg dateCol symCol valCol simpHeaders
      (process_rows rows keyIdx cgCfg chCfg dateCol symCol valCol simpHeaders
        cache0 net).cacheFile net2).cache =
      (process_rows rows keyIdx cgCfg chCfg dateCol symCol valCol simpHeaders
        cache0 net).cache ∧
    (process_rows rows keyIdx cgCfg chCfg dateCol symCol valCol simpHeaders
      (process_rows rows keyIdx cgCfg chCfg dateCol symCol valCol simpHeaders
        cache0 net).cacheFile net2).events =
      [Ev.flush (process_rows rows keyIdx cgCfg chCfg dateCol symCol valCol simpHeaders
        cache0 net).cache] := by
  obtain ⟨stF, hres1, hco1, hca1, hcf1, hmcg1, hmch1, hrows1, hsimp1, hev1, hunm1⟩ :=
    process_rows_completed rows keyIdx cgCfg chCfg dateCol symCol valCol simpHeaders
      cache0 net hdone
  rw [hcf1, hca1]
  have hndG := buildGroups_nodup rows keyIdx dateCol symCol
  have run1 := fetch_run_costs cgCfg net (buildGroups rows keyIdx dateCol symCol)
    cache0 stF hndG hres1
  have hnoop : ∀ p ∈ delCached (buildGroups rows keyIdx dateCol symCol)
      (collectCached (buildGroups rows keyIdx dateCol symCol) stF.cache), ∀ q ∈ p.2,
      cacheMem stF.cache p.1 q.1 = true ∨ get_coingecko_request_url p.1 cgCfg = none := by
    intro p hp q hq
    have hkeyB : keyInB (delCached (buildGroups rows keyIdx dateCol symCol)
        (collectCached (buildGroups rows keyIdx dateCol symCol) stF.cache)) p.1 q.1 = true :=
      keyInB_iff.mpr ⟨p, hp, rfl, q, hq, rfl⟩
    have hInG := keyInB_delCached_sub hkeyB
    by_cases hm : cacheMem stF.cache p.1 q.1 = true
    · exact Or.inl hm
    · right
      have hmf : cacheMem stF.cache p.1 q.1 = false := by
        cases hcm : cacheMem stF.cache p.1 q.1 with
        | false => rfl
        | true => exact absurd hcm hm
      have hnone : cacheGet stF.cache p.1 q.1 = none := cacheMem_false_get hmf
      cases hmap : dget cgCfg p.1 with
      | none =>
        unfold get_coingecko_request_url
        rw [hmap]
        rfl
      | some rec =>
        exfalso
        cases hc0 : cacheGet cache0 p.1 q.1 with
        | some v =>
          have h2 := ((run1 p.1 q.1).1 v hc0 hInG).2
          exact Option.noConfusion (hnone.symm.trans h2)
        | none =>
          obtain ⟨v, -, hv2⟩ := ((run1 p.1 q.1).2.2 hc0 hInG).1 (by rw [hmap]; rfl)
          exact Option.noConfusion (hnone.symm.trans hv2)
  obtain ⟨stF2, hres2, h2c, h2f, h2e, -, -⟩ := fetchAll_noop net2 cgCfg
    (delCached (buildGroups rows keyIdx dateCol symCol)
      (collectCached (buildGroups rows keyIdx dateCol symCol) stF.cache))
    ⟨collectCached (buildGroups rows keyIdx dateCol symCol) stF.cache,
      stF.cache, stF.cache, [], 0, 0⟩
    hnoop
  have h2c' : stF2.cache = stF.cache := h2c
  have h2e' : stF2.events = [] := h2e
  have run2 := fetch_run_costs cgCfg net2 (buildGroups rows keyIdx dateCol symCol)
    stF.cache stF2 hndG hres2
  have hpt : ∀ a b, cacheGet stF2.costs a b = cacheGet stF.costs a b := by
    intro a b
    cases hIn : keyInB (buildGroups rows keyIdx dateCol symCol) a b with
    | false => rw [(run2 a b).2.1 hIn, (run1 a b).2.1 hIn]
    | true =>
      cases hc0 : cacheGet cache0 a b with
      | some v =>
        obtain ⟨h1, h2⟩ := (run1 a b).1 v hc0 hIn
        rw [h1, ((run2 a b).1 v h2 hIn).1]
      | none =>
        cases hmap : dget cgCfg a with
        | some rec =>
          obtain ⟨v, h1, h2⟩ := ((run1 a b).2.2 hc0 hIn).1 (by rw [hmap]; rfl)
          rw [h1, ((run2 a b).1 v h2 hIn).1]
        | none =>
          obtain ⟨h1, h2⟩ := ((run1 a b).2.2 hc0 hIn).2 hmap
          obtain ⟨h3, -⟩ := ((run2 a b).2.2 h2 hIn).2 hmap
          rw [h1, h3]
  have hann : annotate rows keyIdx dateCol symCol valCol stF2.costs =
      annotate rows keyIdx dateCol symCol valCol stF.costs :=
    annotate_congr rows keyIdx dateCol symCol valCol hpt
  have h2done : (process_rows rows keyIdx cgCfg chCfg dateCol symCol valCol simpHeaders
      stF.cache net2).outcome = Outcome.completed := by
    by_cases hmc2 : (annotate rows keyIdx dateCol symCol valCol
        (write_coingecko_cache stF2).costs).2.isEmpty
    · simp only [process_rows, hres2, hmc2, if_true]
    · have hann' : annotate rows keyIdx dateCol symCol valCol
          (write_coingecko_cache stF2).costs =
          annotate rows keyIdx dateCol symCol valCol stF.costs := hann
      have hunm2 : ∀ e ∈ (annotate rows keyIdx dateCol symCol valCol
          (write_coingecko_cache stF2).costs).2, dget chCfg e.2.1 = none := by
        intro e he
        rw [hann'] at he
        exact hunm1 e he
      have hch2eq := coinhall_run_of_unmapped net2 chCfg _
        (⟨[], [], (write_coingecko_cache stF2).events, 0⟩ : ChSt) hunm2
      simp only [process_rows, hres2, hmc2, Bool.false_eq_true, if_false, hch2eq]
  obtain ⟨stF2', hres2', hco2, hca2, hcf2, hmcg2, hmch2, hrows2, hsimp2, hev2, -⟩ :=
    process_rows_completed rows keyIdx cgCfg chCfg dateCol symCol valCol simpHeaders
      stF.cache net2 h2done
  have hstF2 : stF2' = stF2 := by
    rw [hres2] at hres2'
    exact (Except.ok.inj hres2').symm
  subst hstF2
  refine ⟨h2done, ?_, ?_, ?_, ?_, ?_⟩
  · rw [hrows2, hann, hrows1]
  · rw [hsimp2, hrows2, hann, hsimp1, hrows1]
  · rw [hcf2]
    exact h2c'
  · rw [hca2]
    exact h2c'
  · rw [hev2, h2e', h2c']
    rfl

/-- C4 at the scenario: the second pass (with an all-error oracle) against
the first pass's cache file reproduces everything and only flushes. -/
theorem c4_second_run_idempotent_witness :
    runS2.outcome = Outcome.completed ∧
    runS2.rows = runS.rows ∧
    runS2.simplified = runS.simplified ∧
    runS2.cacheFile = runS.cacheFile ∧
    runS2.cache = runS.cache ∧
    runS2.events = [Ev.flush runS.cache] :=
  c4_second_run_idempotent rowsS (get_key_data_point_indexes rowsS "timeExecuted" 2024)
    cgS [] "timeExecuted" "boughtCurrency" "boughtQuantity"
    ["timeExecuted", "boughtCurrency", "boughtQuantity", "usdValue"] [] netOkS netErrS
    (by decide)

/-- C10 counterexample to "every primary-unpriced key triggers a fresh
secondary request on every subsequent run": the ZZZ key misses primary
coverage in two consecutive completed runs, yet neither run issues a
single secondary request. -/
theorem c10_no_secondary_request_counterexample :
    runS.outcome = Outcome.completed ∧
    runS.missingCg = [(1, "ZZZ", ⟨2024, 3, 1⟩)] ∧
    runS.events.all (fun e => match e with | Ev.sReq _ _ => false | _ => true) = true ∧
    runS2.outcome = Outcome.completed ∧
    runS2.missingCg = [(1, "ZZZ", ⟨2024, 3, 1⟩)] ∧
    runS2.events.all (fun e => match e with | Ev.sReq _ _ => false | _ => true) = true := by
  decide

end StakingRewards
